import Mathlib

/-!
# The CRPropa propagation engine: `ModuleList`

A shallow embedding of `ModuleList.cpp` (the container methods, single-step `process`, the
single-lineage `run`, the population-level `run` over a collection of candidates and from a
source, `getDescription`), of `Source::getCandidate`, `SourceEmissionMap::prepareCandidate`,
`SourceList::add` and `SourceList::getCandidate` of `Source.cpp`, and of `split_version` and
`declare_version` of `Version.cpp`, together with the properties of the engine stated in the
specification.

## Data model

* A `Candidate` owns its secondaries, so a simulation state is a forest of candidates.
  A `Candidate*` is the position of a candidate in that forest (`Ptr`): the index of its
  top-level tree followed by the indices taken in successive `secondaries` vectors.
  `candidate->secondaries[i]` of the candidate at `c` is the candidate at `c ++ [i]`.
* A `Module` is handed a pointer and may change anything it can reach: its `process`
  maps the pointer and the current forest to a new forest.  It may also throw, and an
  operating-system signal may be delivered while it executes.
* The global `g_cancel_signal_flag` is a field of the engine state.
* Loops that the C++ code does not bound (`while (candidate->isActive() ...)`, the
  recursion over secondaries) are given fuel; a result `Result.fuel` carries the state
  reached when the fuel ran out, so every result describes a real prefix of the
  execution.
* The engine state carries a ghost `trace` of the calls made so far, each with the forest
  and token observed at that moment.
* The OpenMP loop of the population-level runs is taken in index order by one worker.
* A path on which the C++ code makes no check (an index past the end of the list) is an
  outcome of its own, `Behaviour.undefined`, next to returning and raising.
* A `double` is a finite rational number, an infinity or a NaN; the sum of two doubles is
  the exact sum rounded to the nearest `double`, ties to even (`Double.round`).
-/

namespace crpropa

/-! ## Candidates -/

/-- Modelled from the spec: `Candidate.h` is not among the sources.  A candidate has an
activity flag, its particle state (`current`, `previous`, `created`, `source` and `weight`
are data that the engine never interprets, abstracted as one number) and the ordered
sequence of the secondaries it owns. -/
inductive Candidate where
  | mk (active : Bool) (current : Nat) (secondaries : List Candidate)

namespace Candidate

/-- The flag read by `Candidate::isActive`. -/
def active : Candidate → Bool
  | mk a _ _ => a

/-- The particle state. -/
def current : Candidate → Nat
  | mk _ x _ => x

/-- The vector `Candidate::secondaries`. -/
def secondaries : Candidate → List Candidate
  | mk _ _ ss => ss

end Candidate

/-- The candidates alive at one moment: the top-level trees, each owning its secondaries. -/
abbrev Store := List Candidate

/-- A `Candidate*`: where the candidate sits in the store. -/
abbrev Ptr := List Nat

/-- Dereference a pointer; `none` when it points at no candidate. -/
def lookup : List Candidate → Ptr → Option Candidate
  | _, [] => none
  | cs, i :: p =>
    match cs[i]? with
    | none => none
    | some c =>
      match p with
      | [] => some c
      | _ :: _ => lookup c.secondaries p

/-- The call `candidate->isActive()`. -/
def isActive (st : Store) (c : Ptr) : Bool :=
  match lookup st c with
  | some x => x.active
  | none => false

/-- The pointer is at a candidate, and that candidate is not active. -/
def isInactive (st : Store) (c : Ptr) : Bool :=
  match lookup st c with
  | some x => !x.active
  | none => false

/-- The value `candidate->secondaries.size()`. -/
def numSecondaries (st : Store) (c : Ptr) : Nat :=
  match lookup st c with
  | some x => x.secondaries.length
  | none => 0

/-! ## Modules -/

/-- What one call `module->process(candidate)` does. -/
structure Outcome where
  /-- The store when the call ends (by returning or by throwing). -/
  store : Store
  /-- The signal numbers delivered to the process while the call was executing. -/
  signals : List Int
  /-- The text `what()` of the `std::exception` thrown, if the call throws. -/
  error : Option String

/-- The abstract class `Module`: `process` and `getDescription`. -/
structure Module where
  process : Ptr → Store → Outcome
  getDescription : String

/-! ## Engine state -/

/-- The calls recorded in the trace. -/
inductive Event where
  /-- The call `(*m)->process(candidate)` for the module at position `k` of the list. -/
  | call (k : Nat) (c : Ptr)
  /-- The single-lineage `run` is entered on candidate `c`. -/
  | enter (c : Ptr)
  /-- The single-lineage `run` on candidate `c` returns. -/
  | leave (c : Ptr)
  /-- A population-level run catches an exception with this text. -/
  | caught (what : String)
  deriving DecidableEq, Repr

/-- One trace entry: an event and what the store and the token were when it happened. -/
structure Step where
  ev : Event
  store : Store
  g_cancel_signal_flag : Int

/-- The state the engine works on. -/
structure State where
  /-- The candidates. -/
  store : Store
  /-- The global `g_cancel_signal_flag`. -/
  g_cancel_signal_flag : Int
  /-- Whether `g_cancel_signal_callback` is the installed handler of SIGINT and SIGTERM. -/
  handler : Bool
  /-- The calls made so far, oldest first. -/
  trace : List Step

/-- Record an event. -/
def State.log (s : State) (e : Event) : State :=
  { s with trace := s.trace ++ [⟨e, s.store, s.g_cancel_signal_flag⟩] }

/-- The handler `g_cancel_signal_callback(int sig)`. -/
def g_cancel_signal_callback (sig : Int) (s : State) : State :=
  { s with g_cancel_signal_flag := sig }

/-- Signals reach `g_cancel_signal_callback` only while it is installed. -/
def deliver (sigs : List Int) (s : State) : State :=
  if s.handler then sigs.foldl (fun t sig => g_cancel_signal_callback sig t) s else s

/-- How a call of the engine ended. -/
inductive Result where
  /-- The call returned. -/
  | done (s : State)
  /-- A `std::exception` with text `what` left the call. -/
  | threw (what : String) (s : State)
  /-- The fuel ran out in state `s`. -/
  | fuel (s : State)

/-- The state in which the call ended. -/
def Result.state : Result → State
  | .done s => s
  | .threw _ s => s
  | .fuel s => s

/-! ## `ModuleList` -/

/-- The class `ModuleList`: the ordered modules and the progress switch. -/
structure ModuleList where
  modules : List Module
  showProgress : Bool

/-- One pass of the loop body `(*m)->process(candidate)` for the module `m` at position `k`. -/
def invoke (m : Module) (k : Nat) (c : Ptr) (s : State) : State :=
  deliver (m.process c s.store).signals
    { (s.log (.call k c)) with store := (m.process c s.store).store }

/-- The loop of `ModuleList::process` from the module at position `k` on. -/
def processFrom (c : Ptr) : List Module → Nat → State → Result
  | [], _, s => .done s
  | m :: ms, k, s =>
    match (m.process c s.store).error with
    | some e => .threw e (invoke m k c s)
    | none => processFrom c ms (k + 1) (invoke m k c s)

/-- The method `ModuleList::process(Candidate*)`. -/
def process (ml : ModuleList) (c : Ptr) (s : State) : Result :=
  processFrom c ml.modules 0 s

/-- The loop `for (i = 0; i < candidate->secondaries.size(); i++)` of `ModuleList::run`,
from index `i` on; `run1` is the recursive call of `run`. -/
def runSecondaries (run1 : Ptr → State → Result) (c : Ptr) : Nat → Nat → State → Result
  | 0, _, s => .fuel s
  | n + 1, i, s =>
    if i < numSecondaries s.store c then
      if s.g_cancel_signal_flag ≠ 0 then .done s
      else
        match run1 (c ++ [i]) s with
        | .done s1 => runSecondaries run1 c n (i + 1) s1
        | r => r
    else .done s

/-- The loop `while (candidate->isActive() && (g_cancel_signal_flag == 0))` of
`ModuleList::run`; `inner` is the fuel of each secondaries loop. -/
def runPrimary (ml : ModuleList) (run1 : Ptr → State → Result) (recursive secondariesFirst : Bool)
    (c : Ptr) (inner : Nat) : Nat → State → Result
  | 0, s => .fuel s
  | n + 1, s =>
    if isActive s.store c = true ∧ s.g_cancel_signal_flag = 0 then
      match process ml c s with
      | .done s1 =>
        if recursive = true ∧ secondariesFirst = true then
          match runSecondaries run1 c inner 0 s1 with
          | .done s2 => runPrimary ml run1 recursive secondariesFirst c inner n s2
          | r => r
        else runPrimary ml run1 recursive secondariesFirst c inner n s1
      | r => r
    else .done s

/-- The method `ModuleList::run(Candidate*, bool recursive, bool secondariesFirst)`. -/
def run (ml : ModuleList) : Nat → Ptr → Bool → Bool → State → Result
  | 0, _, _, _, s => .fuel s
  | f + 1, c, recursive, secondariesFirst, s =>
    match runPrimary ml (fun c1 s1 => run ml f c1 recursive secondariesFirst s1)
        recursive secondariesFirst c (f + 1) (f + 1) (s.log (.enter c)) with
    | .done s1 =>
      if recursive = true ∧ ¬ secondariesFirst = true then
        match runSecondaries (fun c1 s1 => run ml f c1 recursive secondariesFirst s1)
            c (f + 1) 0 s1 with
        | .done s2 => .done (s2.log (.leave c))
        | r => r
      else .done (s1.log (.leave c))
    | r => r

/-! ## Population-level run over a collection -/

/-- What a population-level run hands back to its caller's environment. -/
structure Population where
  /-- The engine state when the call returns. -/
  state : State
  /-- How often `progressbar.update()` was called. -/
  progress : Nat
  /-- The signal re-delivered by `raise(g_cancel_signal_flag)`, if any. -/
  raised : Option Int

/-- The loop `for (size_t i = 0; i < count; i++)` of `ModuleList::run(const candidate_vector_t*,
bool, bool)` over the remaining candidates.  The call made is `run(candidates[i], recursive)`:
the third argument is the default `dflt` declared in `ModuleList.h` (not among the sources),
the caller's `secondariesFirst` is not passed on.  A `std::exception` is caught and reported,
nothing else.  `none` when a per-candidate run exhausts the fuel. -/
def runCollectionLoop (ml : ModuleList) (dflt : Bool) (f : Nat) (recursive : Bool) :
    List Ptr → State → Nat → Option (State × Nat)
  | [], s, n => some (s, n)
  | c :: cs, s, n =>
    if s.g_cancel_signal_flag ≠ 0 then runCollectionLoop ml dflt f recursive cs s n
    else
      match run ml f c recursive dflt s with
      | .done s1 =>
        runCollectionLoop ml dflt f recursive cs s1 (if ml.showProgress then n + 1 else n)
      | .threw e s1 =>
        runCollectionLoop ml dflt f recursive cs (s1.log (.caught e))
          (if ml.showProgress then n + 1 else n)
      | .fuel _ => none

/-- The method `ModuleList::run(const candidate_vector_t *candidates, bool recursive,
bool secondariesFirst)`.  `early` are the signals delivered after the handlers are installed
and before the loop starts. -/
def runCollection (ml : ModuleList) (dflt : Bool) (f : Nat) (candidates : List Ptr)
    (recursive _secondariesFirst : Bool) (early : List Int) (s : State) : Option Population :=
  match runCollectionLoop ml dflt f recursive candidates
      (deliver early { s with g_cancel_signal_flag := 0, handler := true }) 0 with
  | none => none
  | some (s1, n) =>
    some { state := { s1 with handler := s.handler }, progress := n,
           raised := if s1.g_cancel_signal_flag > 0 then some s1.g_cancel_signal_flag else none }

/-! ## Candidate operations used by module fixtures -/

/-- Apply `f` to the candidate that `p` points at. -/
def modifyAt (f : Candidate → Candidate) : Ptr → List Candidate → List Candidate
  | [], cs => cs
  | i :: p, cs =>
    match p with
    | [] => List.modify f i cs
    | _ :: _ =>
      List.modify (fun x => Candidate.mk x.active x.current (modifyAt f p x.secondaries)) i cs

/-- Modelled from the spec: `Candidate::setActive(b)`, declared in the absent `Candidate.h`. -/
def setActive (b : Bool) (st : Store) (c : Ptr) : Store :=
  modifyAt (fun x => Candidate.mk b x.current x.secondaries) c st

/-- Modelled from the spec: a module appends `child` to `candidate->secondaries`. -/
def addSecondary (child : Candidate) (st : Store) (c : Ptr) : Store :=
  modifyAt (fun x => Candidate.mk x.active x.current (x.secondaries ++ [child])) c st

/-! ## Conventions that modules are expected to follow -/

/-- No signal is delivered while a module of the list executes. -/
def Quiet (ml : ModuleList) : Prop :=
  ∀ m ∈ ml.modules, ∀ c st, (m.process c st).signals = []

/-- The one-way rule of the activity flag: no module turns an inactive candidate active
(or removes it). -/
def OneWay (ml : ModuleList) : Prop :=
  ∀ m ∈ ml.modules, ∀ c st q,
    isInactive st q = true → isInactive (m.process c st).store q = true

/-- The vectors of secondaries are append-only: no module shortens one. -/
def AppendOnly (ml : ModuleList) : Prop :=
  ∀ m ∈ ml.modules, ∀ c st q, numSecondaries st q ≤ numSecondaries (m.process c st).store q

/-! ## Module fixtures -/

/-- A module that deactivates the candidate it is given. -/
def deactivate : Module :=
  { process := fun c st => ⟨setActive false st c, [], none⟩, getDescription := "Deactivate" }

/-- A module that appends one fresh active secondary to the candidate it is given. -/
def spawn : Module :=
  { process := fun c st => ⟨addSecondary (.mk true 0 []) st c, [], none⟩,
    getDescription := "Spawn" }

/-- A module that throws on every call and leaves the store alone. -/
def faulty : Module :=
  { process := fun _ st => ⟨st, [], some "faulty module"⟩, getDescription := "Faulty" }

/-- A state with the given store, token 0, no handler installed and an empty trace. -/
def State.init (st : Store) : State :=
  { store := st, g_cancel_signal_flag := 0, handler := false, trace := [] }

/-! ## Vocabulary for statements about traces -/

/-- From `s` to `s1` the trace only grew, and every entry added satisfies `P`. -/
def Extends (P : Step → Prop) (s s1 : State) : Prop :=
  ∃ evs, s1.trace = s.trace ++ evs ∧ ∀ x ∈ evs, P x

/-- The event is a call made for candidate `c` itself: a module call on `c`, or the entry
or exit of `run` on `c`. -/
def Event.isOn (c : Ptr) : Event → Prop
  | .call _ q => q = c
  | .enter q => q = c
  | .leave q => q = c
  | .caught _ => False

/-- The event is a call made for a candidate strictly below `c` in the tree: a secondary of
`c`, a secondary of a secondary, and so on. -/
def Event.isBelow (c : Ptr) : Event → Prop
  | .call _ q => ∃ i rest, q = c ++ i :: rest
  | .enter q => ∃ i rest, q = c ++ i :: rest
  | .leave q => ∃ i rest, q = c ++ i :: rest
  | .caught _ => False

/-- From `s` to `s1` the trace only grew; if it did not grow the store and token are what
they were, and otherwise the first entry added shows the store and token of `s`. -/
def Stepwise (s s1 : State) : Prop :=
  ∃ evs, s1.trace = s.trace ++ evs ∧
    (evs = [] → s1.store = s.store ∧ s1.g_cancel_signal_flag = s.g_cancel_signal_flag) ∧
    ∀ x, evs.head? = some x → x.store = s.store ∧ x.g_cancel_signal_flag = s.g_cancel_signal_flag

/-- Every candidate that is inactive in store `a` is still there and inactive in store `b`. -/
def StaysInactive (a b : Store) : Prop :=
  ∀ q, isInactive a q = true → isInactive b q = true

/-- From `s` to `s1` the trace only grew and inactivity was never undone: along the stores
seen at the added entries, from the store of `s` and up to the store of `s1`, a candidate
that is inactive at one point is inactive at every later point. -/
def KeepsInactive (s s1 : State) : Prop :=
  ∃ evs, s1.trace = s.trace ++ evs ∧
    List.Pairwise (fun x y => StaysInactive x.store y.store) evs ∧
    (∀ x ∈ evs, StaysInactive s.store x.store ∧ StaysInactive x.store s1.store) ∧
    StaysInactive s.store s1.store

/-- The candidates on which the loop over the secondaries of `c` called `run`, in the order
of the calls: the targets of the recorded entries of `run` that are direct secondaries of
`c` (the runs nested in them are on candidates further down). -/
def childRuns (c : Ptr) (evs : List Step) : List Ptr :=
  evs.filterMap (fun x =>
    match x.ev with
    | .enter q => if q.length = c.length + 1 then some q else none
    | _ => none)

/-- The entry is not the entry of `run` on a direct secondary of `c`. -/
def notChildRun (c : Ptr) (x : Step) : Prop :=
  match x.ev with
  | .enter q => q.length ≠ c.length + 1
  | _ => True

/-- The particle state of the candidate at `c` (0 when there is none). -/
def currentOf (st : Store) (c : Ptr) : Nat :=
  match lookup st c with
  | some x => x.current
  | none => 0

/-- A module that deactivates the candidate it is given and, when the particle state of that
candidate is 1, first appends a fresh active secondary to the parent of the candidate. -/
def handOver : Module :=
  { process := fun c st =>
      ⟨setActive false
        (if currentOf st c = 1 then addSecondary (.mk true 0 []) st c.dropLast else st) c,
        [], none⟩,
    getDescription := "HandOver" }

/-- No candidate at or below `c` is active: the tree of `c` is in its terminal state. -/
def Terminal (st : Store) (c : Ptr) : Prop :=
  ∀ q, c <+: q → isActive st q = false

/-- The candidate at `c` is active, or nothing at or below it is: it is not an inactive
candidate with something still active below it. -/
def Settled (st : Store) (c : Ptr) : Prop :=
  isActive st c = false → Terminal st c

/-- A pipeline step on an active candidate leaves every other settled candidate settled: it
does not deactivate another candidate above active ones, and it adds nothing active below
a candidate that is finished. -/
def Tidy (ml : ModuleList) : Prop :=
  ∀ c s, isActive s.store c = true → ∀ y, y ≠ c →
    Settled s.store y → Settled (process ml c s).state.store y

/-! ## Vocabulary for the independence of the candidates of a collection -/

/-- A module call on a candidate of the top-level tree `r` leaves every other top-level
tree alone, and what it does (to tree `r`, the signals delivered meanwhile, whether it
throws) depends on tree `r` only. -/
def Local (ml : ModuleList) : Prop :=
  ∀ m ∈ ml.modules, ∀ (r : Nat) (p : Ptr) (st st2 : Store),
    (∀ j, j ≠ r → (m.process (r :: p) st).store[j]? = st[j]?) ∧
    (st[r]? = st2[r]? →
      (m.process (r :: p) st).store[r]? = (m.process (r :: p) st2).store[r]? ∧
      (m.process (r :: p) st).signals = (m.process (r :: p) st2).signals ∧
      (m.process (r :: p) st).error = (m.process (r :: p) st2).error)

/-- Two engine states show the same top-level tree `r`, token and handler. -/
def Agree (r : Nat) (a b : State) : Prop :=
  a.store[r]? = b.store[r]? ∧ a.g_cancel_signal_flag = b.g_cancel_signal_flag ∧ a.handler = b.handler

/-- Two calls ended the same way, in states that agree on tree `r`. -/
def ResAgree (r : Nat) : Result → Result → Prop
  | .done a, .done b => Agree r a b
  | .threw e a, .threw e2 b => e = e2 ∧ Agree r a b
  | .fuel a, .fuel b => Agree r a b
  | _, _ => False

/-- A module that throws when the particle state of the candidate it is given is 13, and
deactivates the candidate otherwise. -/
def fragile : Module :=
  { process := fun c st =>
      if currentOf st c = 13 then ⟨st, [], some "fragile module"⟩
      else ⟨setActive false st c, [], none⟩,
    getDescription := "Fragile" }

/-! ## The container methods of `ModuleList` -/

/-- How a call ends when the code has paths on which C++ defines no behaviour. -/
inductive Behaviour (α : Type) where
  /-- The call returns `a`. -/
  | returns (a : α)
  /-- The call throws an exception with text `what`. -/
  | raises (what : String)
  /-- The call leaves the defined behaviour of the language (it makes no check of its own). -/
  | undefined

/-- The constructor `ModuleList::ModuleList()`. -/
def ModuleList.empty : ModuleList :=
  { modules := [], showProgress := false }

/-- The method `ModuleList::setShowProgress`. -/
def ModuleList.setShowProgress (ml : ModuleList) (wanted : Bool) : ModuleList :=
  { ml with showProgress := wanted }

/-- The method `ModuleList::add`: `modules.push_back(module)`. -/
def ModuleList.add (ml : ModuleList) (m : Module) : ModuleList :=
  { ml with modules := ml.modules ++ [m] }

/-- The method `ModuleList::size`. -/
def ModuleList.size (ml : ModuleList) : Nat :=
  ml.modules.length

/-- The method `ModuleList::remove(i)`: it advances `modules.begin()` by `i` and erases
there, without comparing `i` with the size.  Erasing at or past `modules.end()` is
undefined. -/
def ModuleList.remove (ml : ModuleList) (i : Nat) : Behaviour ModuleList :=
  if i < ml.modules.length then .returns { ml with modules := ml.modules.eraseIdx i }
  else .undefined

/-- The method `ModuleList::operator[](i)`: it advances `modules.begin()` by `i` and
dereferences, without comparing `i` with the size. -/
def ModuleList.get (ml : ModuleList) (i : Nat) : Behaviour Module :=
  match ml.modules[i]? with
  | some m => .returns m
  | none => .undefined

/-- The method `ModuleList::getDescription`: the header line, then for every module two
blanks, its description and a newline, streamed in list order. -/
def ModuleList.getDescription (ml : ModuleList) : String :=
  ml.modules.foldl (fun ss m => ss ++ "  " ++ m.getDescription ++ "\n") "ModuleList\n"

/-- The class `ModuleListRunner`: a module that holds a module list (`none` for a
`ref_ptr` that is not valid). -/
structure ModuleListRunner where
  mlist : Option ModuleList

/-- The method `ModuleListRunner::getDescription`. -/
def ModuleListRunner.getDescription (r : ModuleListRunner) : String :=
  match r.mlist with
  | some ml => "ModuleListRunner\n" ++ ml.getDescription
  | none => "ModuleListRunner\n"

/-- The method `ModuleListRunner::process`: `mlist->run(candidate)` with the two default
arguments of `run` declared in `ModuleList.h` (not among the sources). -/
def ModuleListRunner.process (r : ModuleListRunner) (recursiveDflt dflt : Bool) (f : Nat)
    (c : Ptr) (s : State) : Result :=
  match r.mlist with
  | some ml => run ml f c recursiveDflt dflt s
  | none => .done s

/-- The number of newline characters of a string. -/
def newlines (t : String) : Nat :=
  t.data.count '\n'

/-! ## The type `double` -/

/-- A value of the C++ type `double` (IEEE 754 binary64): a finite number, an infinity
(`negative` for the one below every number) or a NaN.  The sign of a zero and the payload of
a NaN are not represented.  Not every rational number is held by a `double`: those that are
satisfy `Double.IsValue`. -/
inductive Double where
  | finite (q : ℚ)
  | inf (negative : Bool)
  | nan
  deriving DecidableEq

/-- Rounding to the nearest integer, to the even one of the two when `x` is half-way. -/
def roundEven (x : ℚ) : ℤ :=
  if x - ⌊x⌋ < 1 / 2 then ⌊x⌋
  else if 1 / 2 < x - ⌊x⌋ then ⌊x⌋ + 1
  else if ⌊x⌋ % 2 = 0 then ⌊x⌋ else ⌊x⌋ + 1

/-- The exponent of the unit in the last place of the doubles of the magnitude of `q`:
52 below the binary exponent of `q` (a `double` has 53 significant bits), and not below
-1074, the exponent of the smallest subnormal number. -/
def ulpExp (q : ℚ) : ℤ :=
  max (Int.log 2 |q| - 52) (-1074)

/-- The multiple of the unit in the last place that is nearest to `q`, ties to even. -/
def nearest (q : ℚ) : ℚ :=
  roundEven (q / 2 ^ ulpExp q) * 2 ^ ulpExp q

/-- The rounding that IEEE 754 applies to the exact result `q` of an arithmetic operation in
the default mode (round to nearest, ties to even): the nearest `double`, and an infinity when
the magnitude of the rounded result reaches `2 ^ 1024`. -/
def Double.round (q : ℚ) : Double :=
  if 2 ^ 1024 ≤ |nearest q| then .inf (decide (q < 0)) else .finite (nearest q)

/-- The operator `+` of `double`. -/
def Double.add : Double → Double → Double
  | .finite x, .finite y => Double.round (x + y)
  | .finite _, .inf b => .inf b
  | .finite _, .nan => .nan
  | .inf a, .finite _ => .inf a
  | .inf a, .inf b => if a = b then .inf a else .nan
  | .inf _, .nan => .nan
  | .nan, _ => .nan

/-- The operator `<=` of `double`: false when a side is a NaN. -/
def Double.le : Double → Double → Bool
  | .finite x, .finite y => decide (x ≤ y)
  | .finite _, .inf b => !b
  | .finite _, .nan => false
  | .inf a, .finite _ => a
  | .inf a, .inf b => a || !b
  | .inf _, .nan => false
  | .nan, _ => false

/-- The value is one that a `double` holds: rounding leaves it as it is. -/
def Double.IsValue : Double → Prop
  | .finite q => Double.round q = .finite q
  | _ => True

/-! ## Sources -/

/-- The state of the random number generator `Random::instance()` (`Random.h` is not among
the sources). -/
abbrev Rng := Nat

/-- The class `SourceFeature`: `prepareCandidate` changes the candidate it is given, may
draw random numbers and may throw. -/
structure SourceFeature where
  prepareCandidate : Candidate → Rng → Except String (Candidate × Rng)
  getDescription : String

/-- The class `Source`: its features in the order they were added. -/
structure Source where
  features : List SourceFeature

/-- The method `Source::add`. -/
def Source.add (src : Source) (property : SourceFeature) : Source :=
  { features := src.features ++ [property] }

/-- Modelled from the spec: the candidate built by `new Candidate()`, whose constructor is in
the absent `Candidate.h`: active, with no secondaries. -/
def Candidate.fresh : Candidate :=
  .mk true 0 []

/-- The loop of `Source::getCandidate` over the remaining features. -/
def Source.prepare : List SourceFeature → Candidate → Rng → Except String (Candidate × Rng)
  | [], cand, rng => .ok (cand, rng)
  | ft :: rest, cand, rng =>
    match ft.prepareCandidate cand rng with
    | .ok (cand1, rng1) => Source.prepare rest cand1 rng1
    | .error e => .error e

/-- The method `Source::getCandidate`. -/
def Source.getCandidate (src : Source) (rng : Rng) : Except String (Candidate × Rng) :=
  Source.prepare src.features Candidate.fresh rng

/-- The class `SourceList`: the sources and their cumulative weights. -/
structure SourceList where
  sources : List Source
  cdf : List Double

/-- A `SourceList` to which nothing has been added. -/
def SourceList.empty : SourceList :=
  { sources := [], cdf := [] }

/-- The method `SourceList::add(source, weight)`: `weight += cdf.back()` is an addition of
doubles. -/
def SourceList.add (sl : SourceList) (source : Source) (weight : Double) : SourceList :=
  { sources := sl.sources ++ [source],
    cdf := sl.cdf ++
      [if sl.cdf.length > 0 then Double.add weight (sl.cdf.getLast?.getD (.finite 0))
        else weight] }

/-- The method `SourceList::getCandidate`.  `randBin` is `Random::randBin` (not among the
sources): it draws an index from the cumulative weights.  `sources[i]` is not checked
against the size. -/
def SourceList.getCandidate (randBin : List Double → Rng → Nat × Rng) (sl : SourceList)
    (rng : Rng) :
    Behaviour (Candidate × Rng) :=
  if sl.sources.length = 0 then .raises "SourceList: no sources set"
  else
    match sl.sources[(randBin sl.cdf rng).1]? with
    | some src =>
      match src.getCandidate (randBin sl.cdf rng).2 with
      | .ok r => .returns r
      | .error e => .raises e
    | none => .undefined

/-! ## Population-level run from a source -/

/-- What one call `source->getCandidate()` does. -/
structure Drawn where
  /-- The exception text if the call throws; else the candidate it returns (`none` for a
  `ref_ptr` that is not valid). -/
  result : Except String (Option Candidate)
  /-- The state of the random number generator after the call. -/
  rng : Rng
  /-- The signal numbers delivered to the process while the call was executing. -/
  signals : List Int

/-- The abstract class `SourceInterface`. -/
structure SourceInterface where
  getCandidate : Rng → Drawn

/-- A `Source` used through `SourceInterface`. -/
def Source.toInterface (src : Source) : SourceInterface :=
  { getCandidate := fun rng =>
      match src.getCandidate rng with
      | .ok (cand, rng1) => { result := .ok (some cand), rng := rng1, signals := [] }
      | .error e => { result := .error e, rng := rng, signals := [] } }

/-- The signals that were delivered during the module calls recorded in `steps`, oldest
first: for each recorded call of module `k` on `c`, the signals in the outcome of that
module on the store the call started from. -/
def received (ml : ModuleList) (steps : List Step) : List Int :=
  steps.flatMap fun x =>
    match x.ev with
    | .call k c =>
      match ml.modules[k]? with
      | some m => (m.process c x.store).signals
      | none => []
    | _ => []

/-- What the loop of the run from a source has reached. -/
structure SourceRun where
  /-- The engine state. -/
  state : State
  /-- The state of the random number generator. -/
  rng : Rng
  /-- How often `progressbar.update()` was called. -/
  progress : Nat
  /-- How often `source->getCandidate()` was called. -/
  draws : Nat
  /-- The signals delivered so far during this run, oldest first. -/
  heard : List Int

/-- The loop `for (size_t i = 0; i < count; i++)` of `ModuleList::run(SourceInterface*,
size_t, bool, bool)` for the remaining `count` iterations.  The candidate obtained from the
source becomes a new top-level tree of the store.  The call made is `run(candidate,
recursive)`: the third argument is the default `dflt` declared in `ModuleList.h`, the caller's
`secondariesFirst` is not passed on.  Both `catch` blocks report the exception and set the
token to -1.  `none` when a per-candidate run exhausts the fuel. -/
def runSourceLoop (ml : ModuleList) (src : SourceInterface) (dflt : Bool) (f : Nat)
    (recursive : Bool) : Nat → SourceRun → Option SourceRun
  | 0, a => some a
  | n + 1, a =>
    if a.state.g_cancel_signal_flag ≠ 0 then runSourceLoop ml src dflt f recursive n a
    else
      match (src.getCandidate a.rng).result with
      | .error e =>
        runSourceLoop ml src dflt f recursive n
          { state := { ((deliver (src.getCandidate a.rng).signals a.state).log (.caught e)) with
                       g_cancel_signal_flag := -1 },
            rng := (src.getCandidate a.rng).rng,
            progress := if ml.showProgress then a.progress + 1 else a.progress,
            draws := a.draws + 1,
            heard := a.heard ++ (src.getCandidate a.rng).signals }
      | .ok none =>
        runSourceLoop ml src dflt f recursive n
          { state := deliver (src.getCandidate a.rng).signals a.state,
            rng := (src.getCandidate a.rng).rng,
            progress := if ml.showProgress then a.progress + 1 else a.progress,
            draws := a.draws + 1,
            heard := a.heard ++ (src.getCandidate a.rng).signals }
      | .ok (some cand) =>
        match run ml f [a.state.store.length] recursive dflt
            { (deliver (src.getCandidate a.rng).signals a.state) with
              store := a.state.store ++ [cand] } with
        | .done s1 =>
          runSourceLoop ml src dflt f recursive n
            { state := s1,
              rng := (src.getCandidate a.rng).rng,
              progress := if ml.showProgress then a.progress + 1 else a.progress,
              draws := a.draws + 1,
              heard := a.heard ++ (src.getCandidate a.rng).signals ++
                received ml (s1.trace.drop a.state.trace.length) }
        | .threw e s1 =>
          runSourceLoop ml src dflt f recursive n
            { state := { (s1.log (.caught e)) with g_cancel_signal_flag := -1 },
              rng := (src.getCandidate a.rng).rng,
              progress := if ml.showProgress then a.progress + 1 else a.progress,
              draws := a.draws + 1,
              heard := a.heard ++ (src.getCandidate a.rng).signals ++
                received ml (s1.trace.drop a.state.trace.length) }
        | .fuel _ => none

/-- The loop of the run from a source starts with the token reset to 0 and the handlers
installed; `early` are the signals delivered between that moment and the first iteration. -/
def SourceRun.start (early : List Int) (s : State) (rng : Rng) : SourceRun :=
  { state := deliver early { s with g_cancel_signal_flag := 0, handler := true },
    rng := rng, progress := 0, draws := 0, heard := early }

/-- What the run from a source hands back to its caller's environment. -/
structure SourcePopulation where
  /-- What the loop had reached when it ended. -/
  loop : SourceRun
  /-- The signal re-delivered by `raise(g_cancel_signal_flag)`, if any. -/
  raised : Option Int

/-- The method `ModuleList::run(SourceInterface *source, size_t count, bool recursive,
bool secondariesFirst)`.  `early` are the signals delivered after the handlers are installed
and before the loop starts. -/
def runSource (ml : ModuleList) (src : SourceInterface) (dflt : Bool) (f : Nat) (count : Nat)
    (recursive _secondariesFirst : Bool) (early : List Int) (s : State) (rng : Rng) :
    Option SourcePopulation :=
  match runSourceLoop ml src dflt f recursive count (SourceRun.start early s rng) with
  | none => none
  | some a =>
    some { loop := { a with state := { a.state with handler := s.handler } },
           raised := if a.state.g_cancel_signal_flag > 0 then some a.state.g_cancel_signal_flag
                     else none }

/-- A source whose call number 1 (counting from 0, by the state of the generator) throws,
and whose other calls return a fresh candidate. -/
def failingSource : SourceInterface :=
  { getCandidate := fun rng =>
      if rng = 1 then { result := .error "source failed", rng := rng + 1, signals := [] }
      else { result := .ok (some Candidate.fresh), rng := rng + 1, signals := [] } }

/-- A source whose every call returns a fresh candidate. -/
def steadySource : SourceInterface :=
  { getCandidate := fun rng =>
      { result := .ok (some Candidate.fresh), rng := rng + 1, signals := [] } }

/-- A module that, while the particle state of the candidate is positive, lowers it by one
and appends a fresh active secondary, and that deactivates the candidate once its particle
state is 0. -/
def cascade : Module :=
  { process := fun c st =>
      if currentOf st c = 0 then ⟨setActive false st c, [], none⟩
      else ⟨modifyAt (fun x => Candidate.mk x.active (x.current - 1)
              (x.secondaries ++ [Candidate.mk true 0 []])) c st, [], none⟩,
    getDescription := "Cascade" }

/-- Every signal delivered during a module call has a non-zero number (the handler is
installed for SIGINT and SIGTERM only, whose numbers are positive). -/
def NonzeroSignals (ml : ModuleList) : Prop :=
  ∀ m ∈ ml.modules, ∀ c st, ∀ sig ∈ (m.process c st).signals, sig ≠ 0

/-- Every signal delivered during a call of the source has a non-zero number. -/
def NonzeroDraws (src : SourceInterface) : Prop :=
  ∀ rng, ∀ sig ∈ (src.getCandidate rng).signals, sig ≠ 0

/-- From `s` to `s1` the trace only grew and the token, once non-zero, stayed non-zero:
along the tokens seen at the added entries, from the token of `s` and up to the token of
`s1`. -/
def TokenKept (s s1 : State) : Prop :=
  ∃ evs, s1.trace = s.trace ++ evs ∧
    List.Pairwise (fun x y => x.g_cancel_signal_flag ≠ 0 → y.g_cancel_signal_flag ≠ 0) evs ∧
    (∀ x ∈ evs, (s.g_cancel_signal_flag ≠ 0 → x.g_cancel_signal_flag ≠ 0) ∧
      (x.g_cancel_signal_flag ≠ 0 → s1.g_cancel_signal_flag ≠ 0)) ∧
    (s.g_cancel_signal_flag ≠ 0 → s1.g_cancel_signal_flag ≠ 0)

/-- A module that deactivates the candidate it is given; SIGINT (2) is delivered while it
executes. -/
def interrupted : Module :=
  { process := fun c st => ⟨setActive false st c, [2], none⟩, getDescription := "Interrupted" }

/-- A module that throws on every call; SIGINT (2) is delivered while it executes. -/
def interruptedFaulty : Module :=
  { process := fun _ st => ⟨st, [2], some "interrupted module"⟩,
    getDescription := "InterruptedFaulty" }

/-- A module that deactivates the candidate it is given; SIGINT (2) and then SIGTERM (15)
are delivered while it executes. -/
def interruptedTwice : Module :=
  { process := fun c st => ⟨setActive false st c, [2, 15], none⟩,
    getDescription := "InterruptedTwice" }

/-- From `s` to `s1` the trace only grew, the handler stayed as it was and, the handler being
installed, the token of `s1` is the number of the last signal delivered during the module
calls added to the trace, or the token of `s` if none was delivered. -/
def LastHeard (ml : ModuleList) (s s1 : State) : Prop :=
  ∃ evs, s1.trace = s.trace ++ evs ∧ s1.handler = s.handler ∧
    (s.handler = true →
      s1.g_cancel_signal_flag = (received ml evs).getLast?.getD s.g_cancel_signal_flag)

/-- Whether the call returned. -/
def Result.isDone : Result → Bool
  | .done _ => true
  | _ => false

/-- The shape of what the body of `run` on candidate `c` adds to the trace, for a list of `n`
modules: complete passes of `ModuleList::process` over `c` (the calls of modules 0 to `n - 1`
on `c`) and complete runs of secondaries of `c`, one after the other.  A complete run of the
secondary `c ++ [i]` is the entry of `run` on it, recorded when the vector of secondaries of
`c` holds an element `i`, a body of that secondary, and its exit.  With the flag `false` the
body may be cut short where an exception or the end of the fuel stopped the engine: its last
item may then be a pass that stops after `m ≤ n` calls, or a run of a secondary that did not
reach its exit. -/
inductive Body (n : Nat) : Bool → Ptr → List Step → Prop where
  | nil (b : Bool) (c : Ptr) : Body n b c []
  | pass (b : Bool) (c : Ptr) (calls rest : List Step) :
      calls.map Step.ev = (List.range n).map (fun k => Event.call k c) →
      Body n b c rest → Body n b c (calls ++ rest)
  | child (b : Bool) (c : Ptr) (i : Nat) (x : Step) (inner : List Step) (y : Step)
      (rest : List Step) :
      x.ev = .enter (c ++ [i]) → i < numSecondaries x.store c →
      Body n true (c ++ [i]) inner → y.ev = .leave (c ++ [i]) →
      Body n b c rest → Body n b c (x :: (inner ++ y :: rest))
  | cutPass (c : Ptr) (calls : List Step) (m : Nat) :
      m ≤ n → calls.map Step.ev = (List.range m).map (fun k => Event.call k c) →
      Body n false c calls
  | cutChild (c : Ptr) (i : Nat) (x : Step) (inner : List Step) :
      x.ev = .enter (c ++ [i]) → i < numSecondaries x.store c →
      Body n false (c ++ [i]) inner → Body n false c (x :: inner)

/-- What a call of `run` on `c`, started in state `s` and ended as `r`, added to the trace,
for a list of `n` modules: nothing if the fuel was out at once; else the entry of `run` on
`c`, a body of `c`, complete if the call returned, and then the exit of `run` on `c`, if
the call returned. -/
def RunTrace (n : Nat) (c : Ptr) (s : State) (r : Result) : Prop :=
  (r.isDone = false ∧ r.state.trace = s.trace) ∨
  ∃ body, Body n r.isDone c body ∧
    r.state.trace = s.trace ++ ⟨.enter c, s.store, s.g_cancel_signal_flag⟩ ::
      (body ++ if r.isDone = true then
        [⟨.leave c, r.state.store, r.state.g_cancel_signal_flag⟩] else [])

/-! ## Building a `SourceList` -/

/-- The calls `add(s0, w0)`, ..., `add(s(n-1), w(n-1))` made one after the other. -/
def SourceList.addAll (sl : SourceList) (entries : List (Source × Double)) : SourceList :=
  entries.foldl (fun acc e => acc.add e.1 e.2) sl

/-! ## `Version.cpp` -/

/-- The macro `GIT_DESC`. -/
def GIT_DESC : String := "3.2.1-22-gbc174184"

/-- The loop `while (std::getline(ss, part, '-')) parts.push_back(part)` of `split_version`:
`part` holds the characters extracted so far by the current call of `getline`.  At the end of
the input a call that has extracted nothing fails and ends the loop. -/
def splitLoop : List Char → List Char → List String
  | part, [] => if part = [] then [] else [String.mk part]
  | part, ch :: rest =>
    if ch = '-' then String.mk part :: splitLoop [] rest else splitLoop (part ++ [ch]) rest

/-- The function `split_version`. -/
def split_version (input : String) : List String :=
  splitLoop [] input.data

/-- What a call of `declare_version` did. -/
structure VersionCheck where
  /-- The indices `i` at which `git_parts[i]` was read, in the order of the reads. -/
  reads : List Nat
  /-- Whether the version-mismatch warning was logged. -/
  warned : Bool
  deriving DecidableEq, Repr

/-- The loop `for (size_t i = 0; i < input_parts.size(); ++i)` of `declare_version`, from
index `i` on, `remaining` being `input_parts` from that index on.  `git_parts[i]` is
`std::vector::operator[]`, which makes no range check: reading it at an index that
`git_parts` does not have is outside the defined behaviour of the code. -/
def compareFrom (git_parts : List String) : List String → Nat → List Nat → Behaviour VersionCheck
  | [], _, reads => .returns ⟨reads, false⟩
  | part :: remaining, i, reads =>
    match git_parts[i]? with
    | none => .undefined
    | some g =>
      if g ≠ part then .returns ⟨reads ++ [i], true⟩
      else compareFrom git_parts remaining (i + 1) (reads ++ [i])

/-- The function `declare_version`. -/
def declare_version (input_version : String) : Behaviour VersionCheck :=
  compareFrom (split_version GIT_DESC) (split_version input_version) 0 []

/-! ## Source features -/

/-- The method `SourceFeature::prepareCandidate` of the base class: the feature's
`prepareParticle` changes `candidate.source`, which is then copied to `created`, `current`
and `previous`.  The activity flag and the secondaries are not touched, nothing is thrown. -/
def SourceFeature.ofParticle (prepareParticle : Nat → Nat) (description : String) :
    SourceFeature :=
  { prepareCandidate := fun cand rng =>
      .ok (.mk cand.active (prepareParticle cand.current) cand.secondaries, rng),
    getDescription := description }

/-- The class `SourceEmissionMap`.  `emissionMap` is its `ref_ptr<EmissionMap>`, `none` when
it is null; `EmissionMap.h` is not among the sources, so a map is given by its method
`checkDirection`, which reads the particle state `candidate.source`.  With a map,
`prepareCandidate` calls `candidate.setActive(accept)` with the verdict of the map. -/
def SourceEmissionMap (emissionMap : Option (Nat → Bool)) : SourceFeature :=
  { prepareCandidate := fun cand rng =>
      match emissionMap with
      | some checkDirection =>
        .ok (.mk (checkDirection cand.current) cand.current cand.secondaries, rng)
      | none => .ok (cand, rng),
    getDescription := "SourceEmissionMap: accept only directions from emission map\n" }

/-- The feature leaves an inactive candidate inactive. -/
def KeepsRejected (ft : SourceFeature) : Prop :=
  ∀ cand rng cand1 rng1, cand.active = false →
    ft.prepareCandidate cand rng = .ok (cand1, rng1) → cand1.active = false

/-! ## Vocabulary for the outer steps of `run` with `secondariesFirst = true` -/

/-- The store that the first of the entries `evs` shows, `last` when there is none: the
store in which `evs` starts, when `last` is the store in which it ends. -/
def storeAt (evs : List Step) (last : Store) : Store :=
  match evs with
  | [] => last
  | x :: _ => x.store

/-- The shape of what the loop `while (candidate->isActive() && ...)` of `run(c, true, true)`
adds to the trace, for a list of `n` modules, when the store is `last` at the end: a sequence
of outer steps.  An outer step is a complete pass of `ModuleList::process` over `c` (the
calls of the modules 0 to `n - 1` on `c`) followed by the entries of the loop over the
secondaries: calls for candidates below `c` only, among which the runs of direct secondaries
of `c` are those of `secondaries[0]`, ..., `secondaries[k-1]` in this order, `k` being the
length of the vector of secondaries of `c` in the store in which the step ends (the store in
which the rest starts).  With the flag `false` the last step may be cut short where an
exception or the end of the fuel stopped the engine: a pass of `m ≤ n` calls, and runs of
`secondaries[0]`, ..., `secondaries[k-1]` with `k` at most the length of the vector. -/
inductive OuterSteps (n : Nat) (c : Ptr) : Bool → List Step → Store → Prop where
  | nil (b : Bool) (last : Store) : OuterSteps n c b [] last
  | step (b : Bool) (pass loop rest : List Step) (k : Nat) (last : Store) :
      pass.map Step.ev = (List.range n).map (fun j => Event.call j c) →
      (∀ x ∈ loop, x.ev.isBelow c) →
      childRuns c loop = (List.range k).map (fun i => c ++ [i]) →
      k = numSecondaries (storeAt rest last) c →
      OuterSteps n c b rest last → OuterSteps n c b (pass ++ (loop ++ rest)) last
  | cut (pass loop : List Step) (m k : Nat) (last : Store) :
      m ≤ n → pass.map Step.ev = (List.range m).map (fun j => Event.call j c) →
      (∀ x ∈ loop, x.ev.isBelow c) →
      childRuns c loop = (List.range k).map (fun i => c ++ [i]) →
      k ≤ numSecondaries last c →
      OuterSteps n c false (pass ++ loop) last

/-! # Properties of the engine -/
/-! ## Basic facts about the engine state -/

@[simp] theorem log_store (s : State) (e : Event) : (s.log e).store = s.store := rfl

@[simp] theorem log_flag (s : State) (e : Event) : (s.log e).g_cancel_signal_flag = s.g_cancel_signal_flag := rfl

@[simp] theorem log_handler (s : State) (e : Event) : (s.log e).handler = s.handler := rfl

@[simp] theorem log_trace (s : State) (e : Event) :
    (s.log e).trace = s.trace ++ [⟨e, s.store, s.g_cancel_signal_flag⟩] := rfl

theorem foldl_callback_fields (sigs : List Int) (s : State) :
    (sigs.foldl (fun t sig => g_cancel_signal_callback sig t) s).store = s.store ∧
    (sigs.foldl (fun t sig => g_cancel_signal_callback sig t) s).trace = s.trace ∧
    (sigs.foldl (fun t sig => g_cancel_signal_callback sig t) s).handler = s.handler := by
  induction sigs generalizing s with
  | nil => exact ⟨rfl, rfl, rfl⟩
  | cons a l ih =>
    have h := ih (g_cancel_signal_callback a s)
    simpa [g_cancel_signal_callback] using h

@[simp] theorem deliver_store (sigs : List Int) (s : State) : (deliver sigs s).store = s.store := by
  unfold deliver
  split
  · exact (foldl_callback_fields sigs s).1
  · rfl

@[simp] theorem deliver_trace (sigs : List Int) (s : State) : (deliver sigs s).trace = s.trace := by
  unfold deliver
  split
  · exact (foldl_callback_fields sigs s).2.1
  · rfl

@[simp] theorem deliver_handler (sigs : List Int) (s : State) :
    (deliver sigs s).handler = s.handler := by
  unfold deliver
  split
  · exact (foldl_callback_fields sigs s).2.2
  · rfl

@[simp] theorem deliver_nil (s : State) : deliver [] s = s := by
  unfold deliver
  split <;> rfl

@[simp] theorem invoke_store (m : Module) (k : Nat) (c : Ptr) (s : State) :
    (invoke m k c s).store = (m.process c s.store).store := by
  simp [invoke]

@[simp] theorem invoke_trace (m : Module) (k : Nat) (c : Ptr) (s : State) :
    (invoke m k c s).trace = s.trace ++ [⟨.call k c, s.store, s.g_cancel_signal_flag⟩] := by
  simp [invoke]

@[simp] theorem invoke_handler (m : Module) (k : Nat) (c : Ptr) (s : State) :
    (invoke m k c s).handler = s.handler := by
  simp [invoke]

theorem invoke_flag_of_quiet (m : Module) (k : Nat) (c : Ptr) (s : State)
    (h : (m.process c s.store).signals = []) : (invoke m k c s).g_cancel_signal_flag = s.g_cancel_signal_flag := by
  simp [invoke, h]

theorem isActive_of_isInactive {st : Store} {c : Ptr} (h : isInactive st c = true) :
    isActive st c = false := by
  unfold isInactive at h
  unfold isActive
  split <;> simp_all

theorem isInactive_of_numSecondaries {st : Store} {c : Ptr} (h : 0 < numSecondaries st c)
    (ha : isActive st c = false) : isInactive st c = true := by
  unfold numSecondaries at h
  unfold isActive at ha
  unfold isInactive
  split <;> simp_all

/-! ## A rule for properties kept by every step of the engine -/

section Rely

variable (R : State → State → Prop)

theorem processFrom_rel (hrefl : ∀ s, R s s) (htrans : ∀ a b d, R a b → R b d → R a d)
    (c : Ptr) (ms : List Module)
    (hinv : ∀ m ∈ ms, ∀ k s, R s (invoke m k c s)) :
    ∀ k s, R s (processFrom c ms k s).state := by
  induction ms with
  | nil => intro k s; exact hrefl s
  | cons m ms ih =>
    intro k s
    have h1 : R s (invoke m k c s) := hinv m (List.mem_cons_self _ _) k s
    unfold processFrom
    split
    · exact h1
    · exact htrans _ _ _ h1 (ih (fun m' hm' => hinv m' (List.mem_cons_of_mem _ hm')) (k + 1) _)

theorem runSecondaries_rel (hrefl : ∀ s, R s s) (htrans : ∀ a b d, R a b → R b d → R a d)
    (run1 : Ptr → State → Result) (c : Ptr)
    (h1 : ∀ i s, s.g_cancel_signal_flag = 0 → R s (run1 (c ++ [i]) s).state) :
    ∀ n i s, R s (runSecondaries run1 c n i s).state := by
  intro n
  induction n with
  | zero => intro i s; exact hrefl s
  | succ n ih =>
    intro i s
    unfold runSecondaries
    split
    · split
      · exact hrefl s
      · rename_i hf
        have hf0 : s.g_cancel_signal_flag = 0 := by simpa using hf
        have hr := h1 i s hf0
        split
        · rename_i s1 heq
          rw [heq] at hr
          exact htrans _ _ _ hr (ih (i + 1) s1)
        · exact hr
    · exact hrefl s

theorem runPrimary_rel (hrefl : ∀ s, R s s) (htrans : ∀ a b d, R a b → R b d → R a d)
    (ml : ModuleList) (run1 : Ptr → State → Result) (recursive secondariesFirst : Bool)
    (c : Ptr) (inner : Nat)
    (hproc : ∀ s, isActive s.store c = true → s.g_cancel_signal_flag = 0 → R s (process ml c s).state)
    (h1 : recursive = true ∧ secondariesFirst = true →
      ∀ i s, s.g_cancel_signal_flag = 0 → R s (run1 (c ++ [i]) s).state) :
    ∀ n s, R s (runPrimary ml run1 recursive secondariesFirst c inner n s).state := by
  intro n
  induction n with
  | zero => intro s; exact hrefl s
  | succ n ih =>
    intro s
    unfold runPrimary
    split
    · rename_i hc
      have hp := hproc s hc.1 hc.2
      split
      · rename_i s1 heq
        rw [heq] at hp
        split
        · rename_i hrs
          have hs := runSecondaries_rel R hrefl htrans run1 c (h1 hrs) inner 0 s1
          split
          · rename_i s2 heq2
            rw [heq2] at hs
            exact htrans _ _ _ hp (htrans _ _ _ hs (ih s2))
          · exact htrans _ _ _ hp hs
        · exact htrans _ _ _ hp (ih s1)
      · exact hp
    · exact hrefl s

/-- If every pipeline step on an active candidate of the set `G` and every logged entry or
exit of `run` respect `R`, then so does the whole of `run` on a candidate of `G`. -/
theorem run_rel (hrefl : ∀ s, R s s) (htrans : ∀ a b d, R a b → R b d → R a d)
    (ml : ModuleList) (recursive secondariesFirst : Bool) (G : Ptr → Prop)
    (hG : recursive = true → ∀ c i, G c → G (c ++ [i]))
    (hlog : ∀ c s, G c → R s (s.log (.enter c)) ∧ R s (s.log (.leave c)))
    (hproc : ∀ c s, G c → isActive s.store c = true → s.g_cancel_signal_flag = 0 → R s (process ml c s).state) :
    ∀ f c s, G c → R s (run ml f c recursive secondariesFirst s).state := by
  intro f
  induction f with
  | zero => intro c s _; exact hrefl s
  | succ f ih =>
    intro c s hc
    have hsub : recursive = true → ∀ i t, t.g_cancel_signal_flag = 0 →
        R t ((fun c1 s1 => run ml f c1 recursive secondariesFirst s1) (c ++ [i]) t).state :=
      fun hr i t _ => ih (c ++ [i]) t (hG hr c i hc)
    have hp := runPrimary_rel R hrefl htrans ml
      (fun c1 s1 => run ml f c1 recursive secondariesFirst s1) recursive secondariesFirst c
      (f + 1) (fun t => hproc c t hc) (fun hrs => hsub hrs.1) (f + 1) (s.log (.enter c))
    have he := (hlog c s hc).1
    unfold run
    split
    · rename_i s1 heq
      rw [heq] at hp
      split
      · rename_i hrs
        have hs := runSecondaries_rel R hrefl htrans
          (fun c1 s1 => run ml f c1 recursive secondariesFirst s1) c (hsub hrs.1) (f + 1) 0 s1
        split
        · rename_i s2 heq2
          rw [heq2] at hs
          exact htrans _ _ _ he (htrans _ _ _ hp (htrans _ _ _ hs (hlog c s2 hc).2))
        · exact htrans _ _ _ he (htrans _ _ _ hp hs)
      · exact htrans _ _ _ he (htrans _ _ _ hp (hlog c s1 hc).2)
    · exact htrans _ _ _ he hp

end Rely

/-! ## C1: `ModuleList::process` -/

theorem processFrom_spec (c : Ptr) (ms : List Module)
    (hret : ∀ m ∈ ms, ∀ st, (m.process c st).error = none) :
    ∀ k s, ∃ s1, processFrom c ms k s = .done s1 ∧
      s1.trace.map Step.ev =
        s.trace.map Step.ev ++ (List.range' k ms.length).map (fun j => Event.call j c) ∧
      s1.store = ms.foldl (fun st m => (m.process c st).store) s.store := by
  induction ms with
  | nil => intro k s; exact ⟨s, rfl, by simp, rfl⟩
  | cons m ms ih =>
    intro k s
    obtain ⟨s1, h1, h2, h3⟩ :=
      ih (fun m' hm' => hret m' (List.mem_cons_of_mem _ hm')) (k + 1) (invoke m k c s)
    refine ⟨s1, ?_, ?_, ?_⟩
    · unfold processFrom
      rw [hret m (List.mem_cons_self _ _) s.store]
      exact h1
    · rw [h2]
      simp [List.range']
    · rw [h3]
      simp

/-- C1: `ModuleList::process(c)` calls every module of the list exactly once, in list order
(the calls it records are module 0, 1, ..., n-1, each on `c`), whatever the modules do to the
activity flag of the candidate, and the store it leaves is the left fold of the modules over
the store it started from.  A module call that throws ends `process` at that point, so the
statement is for modules whose calls on `c` return. -/
theorem process_invokes_every_module_in_order (ml : ModuleList) (c : Ptr) (s : State)
    (hret : ∀ m ∈ ml.modules, ∀ st, (m.process c st).error = none) :
    ∃ s1, process ml c s = .done s1 ∧
      s1.trace.map Step.ev =
        s.trace.map Step.ev ++ (List.range ml.modules.length).map (fun k => Event.call k c) ∧
      s1.store = ml.modules.foldl (fun st m => (m.process c st).store) s.store := by
  have h := processFrom_spec c ml.modules hret 0 s
  rw [← List.range_eq_range'] at h
  exact h

/-- Witness for C1: the first module deactivates the candidate, the second one is still
called on it and appends a secondary to the now inactive candidate. -/
theorem process_invokes_every_module_in_order_witness :
    ∃ s1, process ⟨[deactivate, spawn], false⟩ [0] (State.init [.mk true 7 []]) = .done s1 ∧
      s1.trace.map Step.ev = [Event.call 0 [0], Event.call 1 [0]] ∧
      isActive s1.store [0] = false ∧ numSecondaries s1.store [0] = 1 := by
  obtain ⟨s1, h1, h2, h3⟩ := process_invokes_every_module_in_order ⟨[deactivate, spawn], false⟩
    [0] (State.init [.mk true 7 []])
    (by intro m hm st; simp at hm; rcases hm with rfl | rfl <;> rfl)
  refine ⟨s1, h1, ?_, ?_, ?_⟩
  · rw [h2]; rfl
  · rw [h3]; rfl
  · rw [h3]; rfl

/-! ## Growth of the trace -/

theorem extends_refl (P : Step → Prop) (s : State) : Extends P s s :=
  ⟨[], by simp, by simp⟩

theorem extends_trans (P : Step → Prop) (a b d : State) (h1 : Extends P a b)
    (h2 : Extends P b d) : Extends P a d := by
  obtain ⟨e1, h1, p1⟩ := h1
  obtain ⟨e2, h2, p2⟩ := h2
  refine ⟨e1 ++ e2, by rw [h2, h1, List.append_assoc], ?_⟩
  intro x hx
  rcases List.mem_append.1 hx with h | h
  · exact p1 x h
  · exact p2 x h

theorem extends_log (P : Step → Prop) (s : State) (e : Event) (h : P ⟨e, s.store, s.g_cancel_signal_flag⟩) :
    Extends P s (s.log e) :=
  ⟨[⟨e, s.store, s.g_cancel_signal_flag⟩], rfl, by simpa using h⟩

theorem extends_invoke (P : Step → Prop) (m : Module) (k : Nat) (c : Ptr) (s : State)
    (h : P ⟨.call k c, s.store, s.g_cancel_signal_flag⟩) : Extends P s (invoke m k c s) :=
  ⟨[⟨.call k c, s.store, s.g_cancel_signal_flag⟩], by simp, by simpa using h⟩

theorem extends_mono (P Q : Step → Prop) (hPQ : ∀ x, P x → Q x) (s s1 : State)
    (h : Extends P s s1) : Extends Q s s1 := by
  obtain ⟨e, h1, h2⟩ := h
  exact ⟨e, h1, fun x hx => hPQ x (h2 x hx)⟩

/-- Every entry that `ModuleList::process(c)` adds to the trace is a module call on `c`. -/
theorem process_extends (ml : ModuleList) (c : Ptr) (s : State) :
    Extends (fun x => ∃ k, x.ev = .call k c) s (process ml c s).state := by
  unfold process
  apply processFrom_rel _ (extends_refl _) (extends_trans _)
  intro m _ k t
  exact extends_invoke _ m k c t ⟨k, rfl⟩

/-! ## C2: `run` with `recursive = false` -/

/-- C2: with `recursive = false` (and either value of `secondariesFirst`) every call that
`run` makes is a call on the primary candidate: the trace grows by the entry of `run` on
`c`, module calls on `c` and the exit of `run` on `c`, and by nothing on a secondary, whatever
the modules append.  This holds for every amount of fuel, so for every prefix of the run. -/
theorem run_nonrecursive_touches_only_primary (ml : ModuleList) (f : Nat) (c : Ptr)
    (secondariesFirst : Bool) (s : State) :
    ∃ evs, (run ml f c false secondariesFirst s).state.trace = s.trace ++ evs ∧
      ∀ x ∈ evs, x.ev = .enter c ∨ x.ev = .leave c ∨ ∃ k, x.ev = .call k c := by
  have h := run_rel
    (Extends (fun x => x.ev = .enter c ∨ x.ev = .leave c ∨ ∃ k, x.ev = .call k c))
    (extends_refl _) (extends_trans _) ml false secondariesFirst (fun q => q = c)
    (by intro h; cases h)
    (by
      intro q t hq
      subst hq
      exact ⟨extends_log _ t _ (Or.inl rfl), extends_log _ t _ (Or.inr (Or.inl rfl))⟩)
    (by
      intro q t hq _ _
      subst hq
      exact extends_mono _ _ (fun x hx => Or.inr (Or.inr hx)) _ _ (process_extends ml q t))
    f c s rfl
  exact h

/-- An instance of C2 in which a module does append a secondary: the secondary is left in
the tree, active and never run. -/
theorem run_nonrecursive_example :
    (run ⟨[spawn, deactivate], false⟩ 3 [0] false true (State.init [.mk true 0 []])).state.trace.map
        Step.ev = [.enter [0], .call 0 [0], .call 1 [0], .leave [0]] ∧
    isActive (run ⟨[spawn, deactivate], false⟩ 3 [0] false true
        (State.init [.mk true 0 []])).state.store [0, 0] = true := by
  decide

/-! ## C7: cancellation seen on entry -/

/-- C7: when the cancellation token is non-zero on entry, `run` (with any positive fuel and
every combination of `recursive` and `secondariesFirst`) returns at once: the primary loop
is not entered and the loop over the secondaries breaks before its first call, so no
module is called on the candidate or on a secondary (the trace grows only by the entry and
exit of this `run`), and the store and the token are exactly what they were.  As no module
runs, nothing can change the token during the call. -/
theorem run_cancelled_on_entry (ml : ModuleList) (f : Nat) (c : Ptr)
    (recursive secondariesFirst : Bool) (s : State) (hflag : s.g_cancel_signal_flag ≠ 0) :
    ∃ s1, run ml (f + 1) c recursive secondariesFirst s = .done s1 ∧
      s1.store = s.store ∧ s1.g_cancel_signal_flag = s.g_cancel_signal_flag ∧
      s1.trace.map Step.ev = s.trace.map Step.ev ++ [.enter c, .leave c] := by
  have hp : runPrimary ml (fun c1 s1 => run ml f c1 recursive secondariesFirst s1)
      recursive secondariesFirst c (f + 1) (f + 1) (s.log (.enter c)) =
      .done (s.log (.enter c)) := by
    unfold runPrimary
    rw [if_neg]
    rintro ⟨_, h0⟩
    exact hflag h0
  have hs : runSecondaries (fun c1 s1 => run ml f c1 recursive secondariesFirst s1)
      c (f + 1) 0 (s.log (.enter c)) = .done (s.log (.enter c)) := by
    unfold runSecondaries
    split
    · rw [if_pos]
      exact hflag
    · rfl
  unfold run
  rw [hp]
  dsimp only
  by_cases hr : recursive = true ∧ ¬ secondariesFirst = true
  · rw [if_pos hr, hs]
    exact ⟨_, rfl, rfl, rfl, by simp⟩
  · rw [if_neg hr]
    exact ⟨_, rfl, rfl, rfl, by simp⟩

/-- Witness for C7: an active candidate with an active secondary, a pipeline that would
deactivate them, and the token at 2 on entry. -/
theorem run_cancelled_on_entry_witness :
    ∃ s1, run ⟨[deactivate], false⟩ 3 [0] true true
        ⟨[.mk true 0 [.mk true 0 []]], 2, true, []⟩ = .done s1 ∧
      s1.store = [.mk true 0 [.mk true 0 []]] ∧ s1.g_cancel_signal_flag = 2 ∧
      s1.trace.map Step.ev = [] ++ [.enter [0], .leave [0]] :=
  run_cancelled_on_entry ⟨[deactivate], false⟩ 2 [0] true true
    ⟨[.mk true 0 [.mk true 0 []]], 2, true, []⟩ (by decide)

theorem extends_both (P Q : Step → Prop) (s s1 : State) (h1 : Extends P s s1)
    (h2 : Extends Q s s1) : Extends (fun x => P x ∧ Q x) s s1 := by
  obtain ⟨e1, t1, p1⟩ := h1
  obtain ⟨e2, t2, p2⟩ := h2
  have he : e1 = e2 := List.append_cancel_left (t1.symm.trans t2)
  subst he
  exact ⟨e1, t1, fun x hx => ⟨p1 x hx, p2 x hx⟩⟩

theorem stepwise_refl (s : State) : Stepwise s s :=
  ⟨[], by simp, fun _ => ⟨rfl, rfl⟩, by simp⟩

theorem stepwise_trans (a b d : State) (h1 : Stepwise a b) (h2 : Stepwise b d) :
    Stepwise a d := by
  obtain ⟨e1, t1, n1, f1⟩ := h1
  obtain ⟨e2, t2, n2, f2⟩ := h2
  refine ⟨e1 ++ e2, by rw [t2, t1, List.append_assoc], ?_, ?_⟩
  · intro h
    obtain ⟨h1, h2⟩ := List.append_eq_nil.1 h
    have hb := n1 h1
    have hd := n2 h2
    exact ⟨hd.1.trans hb.1, hd.2.trans hb.2⟩
  · intro x hx
    cases e1 with
    | nil =>
      have hb := n1 rfl
      have := f2 x (by simpa using hx)
      exact ⟨this.1.trans hb.1, this.2.trans hb.2⟩
    | cons y l => exact f1 x (by simpa using hx)

theorem stepwise_log (s : State) (e : Event) : Stepwise s (s.log e) :=
  ⟨[⟨e, s.store, s.g_cancel_signal_flag⟩], rfl, by simp, by simp⟩

theorem stepwise_invoke (m : Module) (k : Nat) (c : Ptr) (s : State) :
    Stepwise s (invoke m k c s) :=
  ⟨[⟨.call k c, s.store, s.g_cancel_signal_flag⟩], by simp, by simp, by simp⟩

theorem process_stepwise (ml : ModuleList) (c : Ptr) (s : State) :
    Stepwise s (process ml c s).state := by
  unfold process
  exact processFrom_rel _ stepwise_refl stepwise_trans c ml.modules
    (fun m _ k t => stepwise_invoke m k c t) 0 s

theorem run_stepwise (ml : ModuleList) (f : Nat) (c : Ptr) (recursive secondariesFirst : Bool)
    (s : State) : Stepwise s (run ml f c recursive secondariesFirst s).state :=
  run_rel _ stepwise_refl stepwise_trans ml recursive secondariesFirst (fun _ => True)
    (fun _ _ _ _ => trivial) (fun _ t _ => ⟨stepwise_log t _, stepwise_log t _⟩)
    (fun q t _ _ _ => process_stepwise ml q t) f c s trivial

/-- When the primary loop ends by itself, the candidate is inactive or the token is set. -/
theorem runPrimary_exit (ml : ModuleList) (run1 : Ptr → State → Result)
    (recursive secondariesFirst : Bool) (c : Ptr) (inner : Nat) :
    ∀ n s s1, runPrimary ml run1 recursive secondariesFirst c inner n s = .done s1 →
      ¬ (isActive s1.store c = true ∧ s1.g_cancel_signal_flag = 0) := by
  intro n
  induction n with
  | zero => intro s s1 h; simp [runPrimary] at h
  | succ n ih =>
    intro s s1 h
    unfold runPrimary at h
    split at h
    · split at h
      · split at h
        · split at h
          · exact ih _ _ h
          · rename_i hne
            exact absurd h (fun h' => hne _ h')
        · exact ih _ _ h
      · rename_i hne
        exact absurd h (fun h' => hne _ h')
    · rename_i hc
      cases h
      exact hc

/-- With the token set, the loop over the secondaries makes no call. -/
theorem runSecondaries_cancelled (run1 : Ptr → State → Result) (c : Ptr) (n i : Nat) (s : State)
    (hflag : s.g_cancel_signal_flag ≠ 0) : (runSecondaries run1 c n i s).state = s := by
  cases n with
  | zero => rfl
  | succ n =>
    simp [runSecondaries, hflag, Result.state]

/-! ## Inactivity is never undone by the engine -/

theorem staysInactive_refl (a : Store) : StaysInactive a a := fun _ h => h

theorem staysInactive_trans {a b d : Store} (h1 : StaysInactive a b) (h2 : StaysInactive b d) :
    StaysInactive a d := fun q h => h2 q (h1 q h)

theorem keepsInactive_refl (s : State) : KeepsInactive s s :=
  ⟨[], by simp, List.Pairwise.nil, by simp, staysInactive_refl _⟩

theorem keepsInactive_trans (a b d : State) (h1 : KeepsInactive a b) (h2 : KeepsInactive b d) :
    KeepsInactive a d := by
  obtain ⟨e1, t1, p1, m1, l1⟩ := h1
  obtain ⟨e2, t2, p2, m2, l2⟩ := h2
  refine ⟨e1 ++ e2, by rw [t2, t1, List.append_assoc], ?_, ?_, staysInactive_trans l1 l2⟩
  · rw [List.pairwise_append]
    exact ⟨p1, p2, fun x hx y hy => staysInactive_trans (m1 x hx).2 (m2 y hy).1⟩
  · intro x hx
    rcases List.mem_append.1 hx with h | h
    · exact ⟨(m1 x h).1, staysInactive_trans (m1 x h).2 l2⟩
    · exact ⟨staysInactive_trans l1 (m2 x h).1, (m2 x h).2⟩

theorem keepsInactive_log (s : State) (e : Event) : KeepsInactive s (s.log e) := by
  refine ⟨[⟨e, s.store, s.g_cancel_signal_flag⟩], rfl, List.pairwise_singleton _ _, ?_, staysInactive_refl _⟩
  intro x hx
  simp only [List.mem_singleton] at hx
  subst hx
  exact ⟨staysInactive_refl _, staysInactive_refl _⟩

theorem keepsInactive_invoke (m : Module) (k : Nat) (c : Ptr) (s : State)
    (h : StaysInactive s.store (m.process c s.store).store) : KeepsInactive s (invoke m k c s) := by
  refine ⟨[⟨.call k c, s.store, s.g_cancel_signal_flag⟩], by simp, List.pairwise_singleton _ _, ?_, ?_⟩
  · intro x hx
    simp only [List.mem_singleton] at hx
    subst hx
    exact ⟨staysInactive_refl _, by simpa using h⟩
  · simpa using h

theorem process_keepsInactive (ml : ModuleList) (h : OneWay ml) (c : Ptr) (s : State) :
    KeepsInactive s (process ml c s).state := by
  unfold process
  exact processFrom_rel _ keepsInactive_refl keepsInactive_trans c ml.modules
    (fun m hm k t => keepsInactive_invoke m k c t (fun q hq => h m hm c t.store q hq)) 0 s

theorem run_keepsInactive (ml : ModuleList) (h : OneWay ml) (f : Nat) (c : Ptr)
    (recursive secondariesFirst : Bool) (s : State) :
    KeepsInactive s (run ml f c recursive secondariesFirst s).state :=
  run_rel _ keepsInactive_refl keepsInactive_trans ml recursive secondariesFirst (fun _ => True)
    (fun _ _ _ _ => trivial) (fun _ t _ => ⟨keepsInactive_log t _, keepsInactive_log t _⟩)
    (fun q t _ _ _ => process_keepsInactive ml h q t) f c s trivial

/-! ## C3: secondaries after the primary (`recursive = true`, `secondariesFirst = false`) -/

theorem runPrimary_extends (ml : ModuleList) (run1 : Ptr → State → Result) (c : Ptr)
    (inner n : Nat) (s : State) :
    Extends (fun x => ∃ k, x.ev = .call k c) s
      (runPrimary ml run1 true false c inner n s).state :=
  runPrimary_rel _ (extends_refl _) (extends_trans _) ml run1 true false c inner
    (fun t _ _ => process_extends ml c t) (fun h => by simp at h) n s

theorem run_extends_below (ml : ModuleList) (recursive secondariesFirst : Bool) (c : Ptr)
    (f : Nat) (q : Ptr) (s : State) (hq : ∃ i rest, q = c ++ i :: rest) :
    Extends (fun x => x.ev.isBelow c) s (run ml f q recursive secondariesFirst s).state := by
  refine run_rel _ (extends_refl _) (extends_trans _) ml recursive secondariesFirst
    (fun q => ∃ i rest, q = c ++ i :: rest) ?_ ?_ ?_ f q s hq
  · rintro _ q j ⟨i, rest, rfl⟩
    exact ⟨i, rest ++ [j], by simp⟩
  · intro q t hq
    exact ⟨extends_log _ t _ hq, extends_log _ t _ hq⟩
  · intro q t hq _ _
    refine extends_mono _ _ ?_ _ _ (process_extends ml q t)
    rintro x ⟨k, hk⟩
    rw [hk]
    exact hq

theorem runSecondaries_extends_below (ml : ModuleList) (recursive secondariesFirst : Bool)
    (c : Ptr) (f n i : Nat) (s : State) :
    Extends (fun x => x.ev.isBelow c) s
      (runSecondaries (fun c1 s1 => run ml f c1 recursive secondariesFirst s1) c n i s).state :=
  runSecondaries_rel _ (extends_refl _) (extends_trans _) _ c
    (fun j t _ => run_extends_below ml recursive secondariesFirst c f (c ++ [j]) t ⟨j, [], rfl⟩)
    n i s

theorem runSecondaries_stepwise (ml : ModuleList) (recursive secondariesFirst : Bool)
    (c : Ptr) (f n i : Nat) (s : State) :
    Stepwise s
      (runSecondaries (fun c1 s1 => run ml f c1 recursive secondariesFirst s1) c n i s).state :=
  runSecondaries_rel _ stepwise_refl stepwise_trans _ c
    (fun j t _ => run_stepwise ml f (c ++ [j]) recursive secondariesFirst t) n i s

theorem runSecondaries_keepsInactive (ml : ModuleList) (h : OneWay ml)
    (recursive secondariesFirst : Bool) (c : Ptr) (f n i : Nat) (s : State) :
    KeepsInactive s
      (runSecondaries (fun c1 s1 => run ml f c1 recursive secondariesFirst s1) c n i s).state :=
  runSecondaries_rel _ keepsInactive_refl keepsInactive_trans _ c
    (fun j t _ => run_keepsInactive ml h f (c ++ [j]) recursive secondariesFirst t) n i s

/-- Past the end of the vector, the loop over the secondaries makes no call. -/
theorem runSecondaries_empty (run1 : Ptr → State → Result) (c : Ptr) (n i : Nat) (s : State)
    (h : numSecondaries s.store c ≤ i) : (runSecondaries run1 c n i s).state = s := by
  cases n with
  | zero => rfl
  | succ n =>
    have : ¬ i < numSecondaries s.store c := by omega
    simp [runSecondaries, this, Result.state]

/-- C3: in `run(candidate, recursive = true, secondariesFirst = false)` the calls split into
the process calls on the candidate itself (`pre`) followed by the calls on its secondaries and
their descendants (`post`), and by the exit of `run` when it returns (`tail`): nothing is done
on a secondary before the last process call on the candidate, and the candidate is not
processed again afterwards.  When the first call on a secondary is made the candidate is
inactive; if the modules obey the one-way rule of the activity flag, it is inactive at every
call on a secondary. -/
theorem run_secondaries_follow_primary (ml : ModuleList) (f : Nat) (c : Ptr) (s : State) :
    ∃ pre post tail,
      (run ml (f + 1) c true false s).state.trace =
        s.trace ++ ⟨.enter c, s.store, s.g_cancel_signal_flag⟩ :: (pre ++ post ++ tail) ∧
      (∀ x ∈ pre, ∃ k, x.ev = .call k c) ∧
      (∀ x ∈ post, x.ev.isBelow c) ∧
      (∀ x, post.head? = some x → isActive x.store c = false) ∧
      (OneWay ml → ∀ x ∈ post, isActive x.store c = false) ∧
      (tail = [] ∨ ∃ st fl, tail = [⟨.leave c, st, fl⟩]) := by
  obtain ⟨pre, hpre, ppre⟩ := runPrimary_extends ml (fun c1 s1 => run ml f c1 true false s1) c
    (f + 1) (f + 1) (s.log (.enter c))
  rw [log_trace] at hpre
  unfold run
  split
  · rename_i s1 heq
    rw [heq] at hpre
    simp only [Result.state] at hpre
    have hexit := runPrimary_exit _ _ _ _ _ _ _ _ _ heq
    obtain ⟨post, hpost, ppost⟩ := runSecondaries_extends_below ml true false c f (f + 1) 0 s1
    have hs1 : post ≠ [] → isInactive s1.store c = true := by
      intro hne
      by_cases hfl : s1.g_cancel_signal_flag = 0
      · by_cases hn : 0 < numSecondaries s1.store c
        · apply isInactive_of_numSecondaries hn
          by_contra hact
          exact hexit ⟨by simpa using hact, hfl⟩
        · have hst := runSecondaries_empty (fun c1 s1 => run ml f c1 true false s1) c
            (f + 1) 0 s1 (by omega)
          rw [hst] at hpost
          exact absurd (by simpa using hpost) hne
      · have hst := runSecondaries_cancelled (fun c1 s1 => run ml f c1 true false s1) c
          (f + 1) 0 s1 hfl
        rw [hst] at hpost
        exact absurd (by simpa using hpost) hne
    have hhead : ∀ x, post.head? = some x → isActive x.store c = false := by
      intro x hx
      obtain ⟨e, he, _, hfirst⟩ := runSecondaries_stepwise ml true false c f (f + 1) 0 s1
      have : post = e := List.append_cancel_left (hpost.symm.trans he)
      subst this
      rw [(hfirst x hx).1]
      apply isActive_of_isInactive
      apply hs1
      intro h
      rw [h] at hx
      simp at hx
    have hall : OneWay ml → ∀ x ∈ post, isActive x.store c = false := by
      intro hone x hx
      obtain ⟨e, he, _, hmid, _⟩ := runSecondaries_keepsInactive ml hone true false c f (f + 1) 0 s1
      have : post = e := List.append_cancel_left (hpost.symm.trans he)
      subst this
      exact isActive_of_isInactive ((hmid x hx).1 c (hs1 (List.ne_nil_of_mem hx)))
    rw [if_pos (by simp)]
    split
    · rename_i s2 heq2
      rw [heq2] at hpost
      simp only [Result.state] at hpost
      refine ⟨pre, post, [⟨.leave c, s2.store, s2.g_cancel_signal_flag⟩], ?_, ppre, ppost, hhead, hall,
        Or.inr ⟨_, _, rfl⟩⟩
      simp only [Result.state, log_trace]
      rw [hpost, hpre]
      simp
    · refine ⟨pre, post, [], ?_, ppre, ppost, hhead, hall, Or.inl rfl⟩
      rw [hpost, hpre]
      simp
  · refine ⟨pre, [], [], ?_, ppre, by simp, by simp, by simp, Or.inl rfl⟩
    rw [hpre]
    simp

/-! ## Pointers into the store -/

@[simp] theorem lookup_nil (cs : List Candidate) : lookup cs [] = none := by
  unfold lookup; rfl

@[simp] theorem lookup_single (cs : List Candidate) (i : Nat) : lookup cs [i] = cs[i]? := by
  unfold lookup
  cases cs[i]? <;> rfl

theorem lookup_cons_cons (cs : List Candidate) (i j : Nat) (p : Ptr) :
    lookup cs (i :: j :: p) = (cs[i]?).bind (fun x => lookup x.secondaries (j :: p)) := by
  rw [lookup]
  cases cs[i]? <;> rfl

theorem lookup_append (cs : List Candidate) (p r : Ptr) (hp : p ≠ []) (hr : r ≠ []) :
    lookup cs (p ++ r) = (lookup cs p).bind (fun x => lookup x.secondaries r) := by
  induction p generalizing cs with
  | nil => exact absurd rfl hp
  | cons i p ih =>
    cases p with
    | nil =>
      cases r with
      | nil => exact absurd rfl hr
      | cons j r => simp [lookup_cons_cons]
    | cons j p =>
      have h := fun x : Candidate => ih x.secondaries (by simp)
      simp only [List.cons_append] at h ⊢
      rw [lookup_cons_cons, lookup_cons_cons]
      cases cs[i]? with
      | none => rfl
      | some x => simp [h x]

theorem lookup_child (cs : List Candidate) (p : Ptr) (i : Nat) (hp : p ≠ []) :
    lookup cs (p ++ [i]) = (lookup cs p).bind (fun x => x.secondaries[i]?) := by
  rw [lookup_append cs p [i] hp (by simp)]
  simp

/-- Nothing is active at or below an index past the end of the vector of secondaries. -/
theorem isActive_past_end (st : Store) (p : Ptr) (i : Nat) (rest : Ptr) (hp : p ≠ [])
    (h : numSecondaries st p ≤ i) : isActive st (p ++ i :: rest) = false := by
  unfold isActive
  rw [lookup_append st p (i :: rest) hp (by simp)]
  unfold numSecondaries at h
  cases hl : lookup st p with
  | none => rfl
  | some x =>
    rw [hl] at h
    have hnone : x.secondaries[i]? = none := List.getElem?_eq_none (by simpa using h)
    cases rest with
    | nil => simp [hnone]
    | cons j rest => simp [lookup_cons_cons, hnone]

/-- A secondary within the bounds of the vector exists. -/
theorem isInactive_child (st : Store) (p : Ptr) (i : Nat) (hp : p ≠ [])
    (h : i < numSecondaries st p) (ha : isActive st (p ++ [i]) = false) :
    isInactive st (p ++ [i]) = true := by
  unfold isActive at ha
  unfold isInactive
  rw [lookup_child st p i hp] at ha ⊢
  unfold numSecondaries at h
  cases hl : lookup st p with
  | none => rw [hl] at h; simp at h
  | some x =>
    rw [hl] at h
    obtain ⟨y, hy⟩ : ∃ y, x.secondaries[i]? = some y := ⟨x.secondaries[i], List.getElem?_eq_getElem h⟩
    rw [hl] at ha
    simp [hy] at ha ⊢
    exact ha

@[simp] theorem secondaries_mk (a : Bool) (x : Nat) (ss : List Candidate) :
    (Candidate.mk a x ss).secondaries = ss := rfl

@[simp] theorem active_mk (a : Bool) (x : Nat) (ss : List Candidate) :
    (Candidate.mk a x ss).active = a := rfl

@[simp] theorem current_mk (a : Bool) (x : Nat) (ss : List Candidate) :
    (Candidate.mk a x ss).current = x := rfl

theorem modifyAt_single (f : Candidate → Candidate) (i : Nat) (cs : List Candidate) :
    modifyAt f [i] cs = List.modify f i cs := by
  rw [modifyAt]

theorem modifyAt_cons_cons (f : Candidate → Candidate) (i j : Nat) (p : Ptr)
    (cs : List Candidate) :
    modifyAt f (i :: j :: p) cs =
      List.modify (fun x => Candidate.mk x.active x.current (modifyAt f (j :: p) x.secondaries))
        i cs := by
  rw [modifyAt]

theorem length_modifyAt (f : Candidate → Candidate) (c : Ptr) (cs : List Candidate) :
    (modifyAt f c cs).length = cs.length := by
  cases c with
  | nil => rfl
  | cons i p =>
    cases p with
    | nil => simp [modifyAt_single]
    | cons j p => simp [modifyAt_cons_cons]

/-- What `modifyAt` does to a quantity that depends on a candidate only through its own
fields and the length of its vector of secondaries, when `f` keeps the secondaries. -/
theorem lookup_modifyAt_map {α : Type} (f : Candidate → Candidate)
    (hf : ∀ x, (f x).secondaries = x.secondaries) (g : Candidate → α)
    (hg : ∀ x ss, ss.length = x.secondaries.length →
      g (Candidate.mk x.active x.current ss) = g x) :
    ∀ (c : Ptr) (cs : List Candidate) (q : Ptr),
      (lookup (modifyAt f c cs) q).map g =
        if q = c then (lookup cs q).map (fun x => g (f x)) else (lookup cs q).map g := by
  intro c
  induction c with
  | nil =>
    intro cs q
    cases q with
    | nil => simp
    | cons j r => simp [modifyAt]
  | cons i p ih =>
    intro cs q
    cases q with
    | nil => simp
    | cons j r =>
      by_cases hji : j = i
      · subst hji
        cases p with
        | nil =>
          rw [modifyAt_single]
          cases r with
          | nil =>
            simp only [lookup_single, if_true, List.getElem?_modify_eq]
            cases cs[j]? <;> rfl
          | cons k r =>
            simp only [lookup_cons_cons, List.getElem?_modify_eq]
            cases cs[j]? with
            | none => simp
            | some x => simp [hf]
        | cons p0 p =>
          rw [modifyAt_cons_cons]
          cases r with
          | nil =>
            simp only [lookup_single, List.getElem?_modify_eq]
            cases cs[j]? with
            | none => simp
            | some x =>
              simp only [Option.map_eq_map, Option.map_some']
              rw [hg x _ (length_modifyAt f _ _)]
              simp
          | cons k r =>
            simp only [lookup_cons_cons, List.getElem?_modify_eq]
            cases cs[j]? with
            | none => simp
            | some x =>
              have := ih x.secondaries (k :: r)
              simp only [Option.map_eq_map, Option.map_some', Option.some_bind, secondaries_mk]
              rw [this]
              simp
      · have hne : i ≠ j := fun h => hji h.symm
        have hq : ¬ (j :: r = i :: p) := by
          intro h; injection h with h1 _; exact hji h1
        rw [if_neg hq]
        cases r with
        | nil =>
          cases p with
          | nil => simp [modifyAt_single, List.getElem?_modify_ne _ _ hne]
          | cons p0 p => simp [modifyAt_cons_cons, List.getElem?_modify_ne _ _ hne]
        | cons k r =>
          cases p with
          | nil => simp [modifyAt_single, lookup_cons_cons, List.getElem?_modify_ne _ _ hne]
          | cons p0 p =>
            simp [modifyAt_cons_cons, lookup_cons_cons, List.getElem?_modify_ne _ _ hne]

/-! ## The fixture `deactivate` obeys the conventions -/

theorem isActive_eq_map (st : Store) (q : Ptr) :
    isActive st q = ((lookup st q).map Candidate.active).getD false := by
  unfold isActive
  cases lookup st q <;> rfl

theorem isInactive_eq_map (st : Store) (q : Ptr) :
    isInactive st q = ((lookup st q).map (fun x => !x.active)).getD false := by
  unfold isInactive
  cases lookup st q <;> rfl

theorem numSecondaries_eq_map (st : Store) (q : Ptr) :
    numSecondaries st q = ((lookup st q).map (fun x => x.secondaries.length)).getD 0 := by
  unfold numSecondaries
  cases lookup st q <;> rfl

theorem isActive_setActive_false (st : Store) (c q : Ptr) :
    isActive (setActive false st c) q = if q = c then false else isActive st q := by
  rw [isActive_eq_map, isActive_eq_map, setActive,
    lookup_modifyAt_map (fun x => Candidate.mk false x.current x.secondaries)
      (fun _ => rfl) Candidate.active (fun _ _ _ => rfl)]
  split
  · cases lookup st q <;> rfl
  · rfl

theorem isInactive_setActive_false (st : Store) (c q : Ptr)
    (h : isInactive st q = true) : isInactive (setActive false st c) q = true := by
  rw [isInactive_eq_map] at h ⊢
  rw [setActive, lookup_modifyAt_map (fun x => Candidate.mk false x.current x.secondaries)
    (fun _ => rfl) (fun x => !x.active) (fun _ _ _ => rfl)]
  split
  · cases hl : lookup st q with
    | none => rw [hl] at h; simp at h
    | some x => rfl
  · exact h

theorem numSecondaries_setActive (b : Bool) (st : Store) (c q : Ptr) :
    numSecondaries (setActive b st c) q = numSecondaries st q := by
  rw [numSecondaries_eq_map, numSecondaries_eq_map, setActive,
    lookup_modifyAt_map (fun x => Candidate.mk b x.current x.secondaries)
      (fun _ => rfl) (fun x => x.secondaries.length)
      (fun _ _ h => by simpa using h)]
  split
  · cases lookup st q <;> rfl
  · rfl

theorem quiet_deactivate (b : Bool) : Quiet ⟨[deactivate], b⟩ := by
  intro m hm c st
  simp only [List.mem_singleton] at hm
  subst hm
  rfl

theorem oneWay_deactivate (b : Bool) : OneWay ⟨[deactivate], b⟩ := by
  intro m hm c st q h
  simp only [List.mem_singleton] at hm
  subst hm
  exact isInactive_setActive_false st c q h

theorem appendOnly_deactivate (b : Bool) : AppendOnly ⟨[deactivate], b⟩ := by
  intro m hm c st q
  simp only [List.mem_singleton] at hm
  subst hm
  exact Nat.le_of_eq (numSecondaries_setActive false st c q).symm

/-- Witness for C3: a candidate with two secondaries and a pipeline that deactivates; the
two secondaries are run after the only step of the primary, which is inactive by then. -/
theorem run_secondaries_follow_primary_witness :
    ∃ pre post tail,
      (run ⟨[deactivate], false⟩ 3 [0] true false
          (State.init [.mk true 0 [.mk true 1 [], .mk true 2 []]])).state.trace =
        [] ++ ⟨.enter [0], [.mk true 0 [.mk true 1 [], .mk true 2 []]], 0⟩ ::
          (pre ++ post ++ tail) ∧
      (∀ x ∈ pre, ∃ k, x.ev = .call k [0]) ∧
      (∀ x ∈ post, x.ev.isBelow [0]) ∧
      (∀ x ∈ post, isActive x.store [0] = false) := by
  obtain ⟨pre, post, tail, h1, h2, h3, _, h5, _⟩ := run_secondaries_follow_primary
    ⟨[deactivate], false⟩ 2 [0] (State.init [.mk true 0 [.mk true 1 [], .mk true 2 []]])
  exact ⟨pre, post, tail, h1, h2, h3, h5 (oneWay_deactivate false)⟩

/-- The run of the C3 witness, event by event. -/
theorem run_secondaries_follow_primary_example :
    (run ⟨[deactivate], false⟩ 3 [0] true false
        (State.init [.mk true 0 [.mk true 1 [], .mk true 2 []]])).state.trace.map Step.ev =
      [.enter [0], .call 0 [0], .enter [0, 0], .call 0 [0, 0], .leave [0, 0],
        .enter [0, 1], .call 0 [0, 1], .leave [0, 1], .leave [0]] := by
  decide

/-! ## C6: `run` never re-activates a candidate -/

/-- C6: the engine itself never writes an activity flag, so if no module of the list turns
an inactive candidate active, then during `run` (any fuel, any flags) a candidate that is
inactive at some point is inactive at every later point: along the stores seen at the calls
that `run` adds to the trace (`evs`, the first of them showing the store on entry), inactivity
at an earlier call implies inactivity at every later call and in the store that `run` leaves. -/
theorem run_never_reactivates (ml : ModuleList) (hone : OneWay ml) (f : Nat) (c : Ptr)
    (recursive secondariesFirst : Bool) (s : State) :
    ∃ evs, (run ml f c recursive secondariesFirst s).state.trace = s.trace ++ evs ∧
      List.Pairwise
        (fun x y => ∀ q, isInactive x.store q = true → isInactive y.store q = true) evs ∧
      (∀ x ∈ evs, ∀ q, isInactive x.store q = true →
        isInactive (run ml f c recursive secondariesFirst s).state.store q = true) ∧
      (∀ q, isInactive s.store q = true →
        isInactive (run ml f c recursive secondariesFirst s).state.store q = true) := by
  obtain ⟨evs, h1, h2, h3, h4⟩ := run_keepsInactive ml hone f c recursive secondariesFirst s
  exact ⟨evs, h1, h2, fun x hx => (h3 x hx).2, h4⟩

/-- Witness for C6: the deactivating pipeline on a candidate with two secondaries. -/
theorem run_never_reactivates_witness :
    ∃ evs, (run ⟨[deactivate], false⟩ 3 [0] true true
          (State.init [.mk true 0 [.mk true 1 [], .mk false 2 []]])).state.trace = [] ++ evs ∧
      List.Pairwise
        (fun x y => ∀ q, isInactive x.store q = true → isInactive y.store q = true) evs ∧
      (∀ x ∈ evs, ∀ q, isInactive x.store q = true →
        isInactive (run ⟨[deactivate], false⟩ 3 [0] true true
          (State.init [.mk true 0 [.mk true 1 [], .mk false 2 []]])).state.store q = true) ∧
      (∀ q, isInactive [.mk true 0 [.mk true 1 [], .mk false 2 []]] q = true →
        isInactive (run ⟨[deactivate], false⟩ 3 [0] true true
          (State.init [.mk true 0 [.mk true 1 [], .mk false 2 []]])).state.store q = true) :=
  run_never_reactivates ⟨[deactivate], false⟩ (oneWay_deactivate false) 3 [0] true true
    (State.init [.mk true 0 [.mk true 1 [], .mk false 2 []]])

/-! ## The token and the vectors of secondaries during `run` -/

/-- The body of `run`, from the state in which its entry has been recorded. -/
theorem run_succ_rel (R : State → State → Prop) (hrefl : ∀ s, R s s)
    (htrans : ∀ a b d, R a b → R b d → R a d) (ml : ModuleList)
    (recursive secondariesFirst : Bool) (c : Ptr) (f : Nat) (s : State)
    (hproc : ∀ t, isActive t.store c = true → t.g_cancel_signal_flag = 0 → R t (process ml c t).state)
    (hsub : recursive = true → ∀ i t, t.g_cancel_signal_flag = 0 →
      R t (run ml f (c ++ [i]) recursive secondariesFirst t).state)
    (hleave : ∀ t, R t (t.log (.leave c))) :
    R (s.log (.enter c)) (run ml (f + 1) c recursive secondariesFirst s).state := by
  have hp := runPrimary_rel R hrefl htrans ml
    (fun c1 s1 => run ml f c1 recursive secondariesFirst s1) recursive secondariesFirst c
    (f + 1) hproc (fun hrs => hsub hrs.1) (f + 1) (s.log (.enter c))
  unfold run
  split
  · rename_i s1 heq
    rw [heq] at hp
    split
    · rename_i hrs
      have hs := runSecondaries_rel R hrefl htrans
        (fun c1 s1 => run ml f c1 recursive secondariesFirst s1) c (hsub hrs.1) (f + 1) 0 s1
      split
      · rename_i s2 heq2
        rw [heq2] at hs
        exact htrans _ _ _ hp (htrans _ _ _ hs (hleave s2))
      · exact htrans _ _ _ hp hs
    · exact htrans _ _ _ hp (hleave s1)
  · exact hp

theorem process_flag (ml : ModuleList) (hq : Quiet ml) (c : Ptr) (s : State) :
    (process ml c s).state.g_cancel_signal_flag = s.g_cancel_signal_flag := by
  unfold process
  exact processFrom_rel (fun a b => b.g_cancel_signal_flag = a.g_cancel_signal_flag) (fun _ => rfl)
    (fun _ _ _ h1 h2 => h2.trans h1) c ml.modules
    (fun m hm k t => invoke_flag_of_quiet m k c t (hq m hm c t.store)) 0 s

/-- While no signal is delivered, `run` leaves the token as it found it. -/
theorem run_flag (ml : ModuleList) (hq : Quiet ml) (f : Nat) (c : Ptr)
    (recursive secondariesFirst : Bool) (s : State) :
    (run ml f c recursive secondariesFirst s).state.g_cancel_signal_flag = s.g_cancel_signal_flag :=
  run_rel (fun a b => b.g_cancel_signal_flag = a.g_cancel_signal_flag) (fun _ => rfl) (fun _ _ _ h1 h2 => h2.trans h1)
    ml recursive secondariesFirst (fun _ => True) (fun _ _ _ _ => trivial)
    (fun _ _ _ => ⟨rfl, rfl⟩) (fun q t _ _ _ => process_flag ml hq q t) f c s trivial

theorem process_grows (ml : ModuleList) (ha : AppendOnly ml) (c : Ptr) (s : State) :
    ∀ q, numSecondaries s.store q ≤ numSecondaries (process ml c s).state.store q := by
  unfold process
  exact processFrom_rel
    (fun a b => ∀ q, numSecondaries a.store q ≤ numSecondaries b.store q)
    (fun _ _ => Nat.le_refl _) (fun _ _ _ h1 h2 q => Nat.le_trans (h1 q) (h2 q)) c ml.modules
    (fun m hm k t q => by rw [invoke_store]; exact ha m hm c t.store q) 0 s

/-- With append-only modules no vector of secondaries gets shorter during `run`. -/
theorem run_grows (ml : ModuleList) (ha : AppendOnly ml) (f : Nat) (c : Ptr)
    (recursive secondariesFirst : Bool) (s : State) :
    ∀ q, numSecondaries s.store q ≤
      numSecondaries (run ml f c recursive secondariesFirst s).state.store q :=
  run_rel (fun a b => ∀ q, numSecondaries a.store q ≤ numSecondaries b.store q)
    (fun _ _ => Nat.le_refl _) (fun _ _ _ h1 h2 q => Nat.le_trans (h1 q) (h2 q))
    ml recursive secondariesFirst (fun _ => True) (fun _ _ _ _ => trivial)
    (fun _ _ _ => ⟨fun _ => Nat.le_refl _, fun _ => Nat.le_refl _⟩)
    (fun q t _ _ _ => process_grows ml ha q t) f c s trivial

/-! ## The loop over the secondaries re-reads its bound -/

theorem childRuns_of_notChildRun (c : Ptr) (evs : List Step)
    (h : ∀ x ∈ evs, notChildRun c x) : childRuns c evs = [] := by
  unfold childRuns
  rw [List.filterMap_eq_nil_iff]
  intro x hx
  have := h x hx
  unfold notChildRun at this
  split <;> simp_all

theorem childRuns_append (c : Ptr) (a b : List Step) :
    childRuns c (a ++ b) = childRuns c a ++ childRuns c b := by
  simp [childRuns]

/-- The calls recorded by `run` on the secondary `c ++ [i]`: its own entry, and nothing else
that is the entry of `run` on a direct secondary of `c`. -/
theorem run_childRuns (ml : ModuleList) (recursive secondariesFirst : Bool) (c : Ptr)
    (f i : Nat) (s : State) :
    ∃ evs, (run ml (f + 1) (c ++ [i]) recursive secondariesFirst s).state.trace = s.trace ++ evs ∧
      childRuns c evs = [c ++ [i]] := by
  have hproc : ∀ q t, Extends (notChildRun c) t (process ml q t).state := fun q t =>
    extends_mono _ _ (by rintro x ⟨k, hk⟩; simp [notChildRun, hk]) _ _ (process_extends ml q t)
  have hsub : ∀ j t, Extends (notChildRun c) t
      (run ml f (c ++ [i] ++ [j]) recursive secondariesFirst t).state := by
    intro j t
    refine run_rel _ (extends_refl _) (extends_trans _) ml recursive secondariesFirst
      (fun q => c.length + 2 ≤ q.length) ?_ ?_ ?_ f _ t (by simp)
    · intro _ q k hq
      simp only [List.length_append, List.length_singleton]
      omega
    · intro q t hq
      refine ⟨extends_log _ t _ ?_, extends_log _ t _ ?_⟩
      · simp only [notChildRun]; omega
      · simp [notChildRun]
    · intro q t _ _ _
      exact hproc q t
  obtain ⟨rest, hrest, prest⟩ := run_succ_rel _ (extends_refl _) (extends_trans _) ml recursive
    secondariesFirst (c ++ [i]) f s (fun t _ _ => hproc _ t) (fun _ j t _ => hsub j t)
    (fun t => extends_log _ t _ (by simp [notChildRun]))
  refine ⟨⟨.enter (c ++ [i]), s.store, s.g_cancel_signal_flag⟩ :: rest, ?_, ?_⟩
  · rw [hrest]; simp
  · have : childRuns c (([⟨.enter (c ++ [i]), s.store, s.g_cancel_signal_flag⟩] : List Step) ++ rest) =
        [c ++ [i]] := by
      rw [childRuns_append, childRuns_of_notChildRun c rest prest]
      simp [childRuns]
    simpa using this

theorem runSecondaries_childRuns (ml : ModuleList) (hq : Quiet ml) (ha : AppendOnly ml)
    (recursive secondariesFirst : Bool) (c : Ptr) (f : Nat) :
    ∀ n i s, s.g_cancel_signal_flag = 0 → i ≤ numSecondaries s.store c →
      ∃ evs k,
        (runSecondaries (fun c1 s1 => run ml f c1 recursive secondariesFirst s1) c n i s).state.trace
          = s.trace ++ evs ∧
        childRuns c evs = (List.range' i k).map (fun j => c ++ [j]) ∧
        i + k ≤ numSecondaries
          (runSecondaries (fun c1 s1 => run ml f c1 recursive secondariesFirst s1) c n i s).state.store c ∧
        ∀ s2, runSecondaries (fun c1 s1 => run ml f c1 recursive secondariesFirst s1) c n i s
            = .done s2 → i + k = numSecondaries s2.store c := by
  intro n
  induction n with
  | zero =>
    intro i s _ hi
    exact ⟨[], 0, by simp [runSecondaries, Result.state], by simp [childRuns],
      by simpa [runSecondaries, Result.state] using hi, by simp [runSecondaries]⟩
  | succ n ih =>
    intro i s hflag hi
    by_cases hlt : i < numSecondaries s.store c
    · cases f with
      | zero =>
        have hr : runSecondaries (fun c1 s1 => run ml 0 c1 recursive secondariesFirst s1) c
            (n + 1) i s = .fuel s := by
          simp [runSecondaries, hlt, hflag, run]
        rw [hr]
        exact ⟨[], 0, by simp [Result.state], by simp [childRuns],
          by simpa [Result.state] using hi, by simp⟩
      | succ f =>
        obtain ⟨evs1, ht1, hc1⟩ := run_childRuns ml recursive secondariesFirst c f i s
        have hf1 := run_flag ml hq (f + 1) (c ++ [i]) recursive secondariesFirst s
        have hg1 := run_grows ml ha (f + 1) (c ++ [i]) recursive secondariesFirst s c
        cases hrun : run ml (f + 1) (c ++ [i]) recursive secondariesFirst s with
        | done s1 =>
          rw [hrun] at ht1 hf1 hg1
          simp only [Result.state] at ht1 hf1 hg1
          have hr : runSecondaries (fun c1 s1 => run ml (f + 1) c1 recursive secondariesFirst s1)
              c (n + 1) i s =
              runSecondaries (fun c1 s1 => run ml (f + 1) c1 recursive secondariesFirst s1)
                c n (i + 1) s1 := by
            rw [runSecondaries, if_pos hlt, if_neg (by simpa using hflag)]
            simp only [hrun]
          obtain ⟨evs2, k2, ht2, hc2, hle2, hd2⟩ := ih (i + 1) s1 (hf1.trans hflag) (by omega)
          rw [hr]
          refine ⟨evs1 ++ evs2, k2 + 1, ?_, ?_, by omega, ?_⟩
          · rw [ht2, ht1, List.append_assoc]
          · rw [childRuns_append, hc1, hc2]
            simp [List.range'_succ]
          · intro s2 h2
            have := hd2 s2 h2
            omega
        | threw e s1 =>
          rw [hrun] at ht1 hf1 hg1
          simp only [Result.state] at ht1 hf1 hg1
          have hr : runSecondaries (fun c1 s1 => run ml (f + 1) c1 recursive secondariesFirst s1)
              c (n + 1) i s = .threw e s1 := by
            rw [runSecondaries, if_pos hlt, if_neg (by simpa using hflag)]
            simp only [hrun]
          rw [hr]
          exact ⟨evs1, 1, ht1, by simpa [List.range'] using hc1,
            by simp only [Result.state]; omega, by simp⟩
        | fuel s1 =>
          rw [hrun] at ht1 hf1 hg1
          simp only [Result.state] at ht1 hf1 hg1
          have hr : runSecondaries (fun c1 s1 => run ml (f + 1) c1 recursive secondariesFirst s1)
              c (n + 1) i s = .fuel s1 := by
            rw [runSecondaries, if_pos hlt, if_neg (by simpa using hflag)]
            simp only [hrun]
          rw [hr]
          exact ⟨evs1, 1, ht1, by simpa [List.range'] using hc1,
            by simp only [Result.state]; omega, by simp⟩
    · have hr : runSecondaries (fun c1 s1 => run ml f c1 recursive secondariesFirst s1) c
          (n + 1) i s = .done s := by
        rw [runSecondaries, if_neg hlt]
      rw [hr]
      refine ⟨[], 0, by simp [Result.state], by simp [childRuns],
        by simpa [Result.state] using hi, ?_⟩
      intro s2 h2
      cases h2
      omega

/-- The loop `for (i = 0; i < candidate->secondaries.size(); i++)` of `run(candidate,
true, true)` taken by itself, started with the token 0 and run while no signal arrives and the vectors of
secondaries are append-only.  The candidates on which it calls `run` are `secondaries[0]`,
`secondaries[1]`, ..., `secondaries[k-1]`, in increasing order and each once; `k` never
exceeds the current length of the vector, and when the loop completes `k` is the length of
the vector at that moment, so the secondaries appended to it while earlier ones were being
run have been run in the same pass.  (A snapshot of the length taken before the loop would
stop at the initial length.) -/
theorem secondaries_loop_rereads_bound (ml : ModuleList) (hq : Quiet ml) (ha : AppendOnly ml)
    (f n : Nat) (c : Ptr) (s : State) (hflag : s.g_cancel_signal_flag = 0) :
    ∃ evs k,
      (runSecondaries (fun c1 s1 => run ml f c1 true true s1) c n 0 s).state.trace
        = s.trace ++ evs ∧
      childRuns c evs = (List.range k).map (fun i => c ++ [i]) ∧
      k ≤ numSecondaries
        (runSecondaries (fun c1 s1 => run ml f c1 true true s1) c n 0 s).state.store c ∧
      ∀ s2, runSecondaries (fun c1 s1 => run ml f c1 true true s1) c n 0 s = .done s2 →
        k = numSecondaries s2.store c := by
  obtain ⟨evs, k, h1, h2, h3, h4⟩ :=
    runSecondaries_childRuns ml hq ha true true c f n 0 s hflag (Nat.zero_le _)
  refine ⟨evs, k, h1, ?_, by simpa using h3, fun s2 hs2 => by simpa using h4 s2 hs2⟩
  rw [h2, List.range_eq_range']

/-! ## The fixture `handOver` is quiet and append-only -/

theorem numSecondaries_append_le (cs ds : List Candidate) (r : Ptr) :
    numSecondaries cs r ≤ numSecondaries (cs ++ ds) r := by
  cases r with
  | nil => simp [numSecondaries]
  | cons i r =>
    by_cases hi : i < cs.length
    · have h : (cs ++ ds)[i]? = cs[i]? := List.getElem?_append_left hi
      cases r with
      | nil => simp [numSecondaries, h]
      | cons j r => simp [numSecondaries, lookup_cons_cons, h]
    · have h : cs[i]? = none := List.getElem?_eq_none (by omega)
      cases r with
      | nil => simp [numSecondaries, h]
      | cons j r => simp [numSecondaries, lookup_cons_cons, h]

theorem numSecondaries_modifyAt_le (f : Candidate → Candidate)
    (hlen : ∀ x, x.secondaries.length ≤ (f x).secondaries.length)
    (hf : ∀ x r, numSecondaries x.secondaries r ≤ numSecondaries (f x).secondaries r) :
    ∀ (c : Ptr) (cs : List Candidate) (q : Ptr),
      numSecondaries cs q ≤ numSecondaries (modifyAt f c cs) q := by
  intro c
  induction c with
  | nil => intro cs q; simp [modifyAt]
  | cons i p ih =>
    intro cs q
    cases q with
    | nil => simp [numSecondaries]
    | cons j r =>
      by_cases hji : j = i
      · subst hji
        cases p with
        | nil =>
          rw [modifyAt_single]
          cases r with
          | nil =>
            simp only [numSecondaries, lookup_single, List.getElem?_modify_eq]
            cases cs[j]? with
            | none => simp
            | some x => simpa using hlen x
          | cons k r =>
            simp only [numSecondaries, lookup_cons_cons, List.getElem?_modify_eq]
            cases cs[j]? with
            | none => simp
            | some x => simpa [numSecondaries] using hf x (k :: r)
        | cons p0 p =>
          rw [modifyAt_cons_cons]
          cases r with
          | nil =>
            simp only [numSecondaries, lookup_single, List.getElem?_modify_eq]
            cases cs[j]? with
            | none => simp
            | some x => simp [length_modifyAt]
          | cons k r =>
            simp only [numSecondaries, lookup_cons_cons, List.getElem?_modify_eq]
            cases cs[j]? with
            | none => simp
            | some x => simpa [numSecondaries] using ih x.secondaries (k :: r)
      · have hne : i ≠ j := fun h => hji h.symm
        apply Nat.le_of_eq
        cases r with
        | nil =>
          cases p with
          | nil => simp [numSecondaries, modifyAt_single, List.getElem?_modify_ne _ _ hne]
          | cons p0 p => simp [numSecondaries, modifyAt_cons_cons, List.getElem?_modify_ne _ _ hne]
        | cons k r =>
          cases p with
          | nil =>
            simp [numSecondaries, modifyAt_single, lookup_cons_cons,
              List.getElem?_modify_ne _ _ hne]
          | cons p0 p =>
            simp [numSecondaries, modifyAt_cons_cons, lookup_cons_cons,
              List.getElem?_modify_ne _ _ hne]

theorem numSecondaries_addSecondary_le (child : Candidate) (st : Store) (c q : Ptr) :
    numSecondaries st q ≤ numSecondaries (addSecondary child st c) q :=
  numSecondaries_modifyAt_le _ (fun x => by simp)
    (fun x r => by simpa using numSecondaries_append_le x.secondaries [child] r) c st q

theorem quiet_handOver (b : Bool) : Quiet ⟨[handOver], b⟩ := by
  intro m hm c st
  simp only [List.mem_singleton] at hm
  subst hm
  rfl

theorem appendOnly_handOver (b : Bool) : AppendOnly ⟨[handOver], b⟩ := by
  intro m hm c st q
  simp only [List.mem_singleton] at hm
  subst hm
  simp only [handOver]
  rw [numSecondaries_setActive]
  split
  · exact numSecondaries_addSecondary_le _ st _ q
  · exact Nat.le_refl _

/-- An instance of the loop: the candidate `[0]` enters the loop with one secondary; while that
secondary is run a second one is appended to `[0]`, and the same pass of the loop runs it
too. -/
theorem secondaries_loop_rereads_bound_witness :
    numSecondaries [.mk false 0 [.mk true 1 []]] [0] = 1 ∧
    ∃ evs,
      (runSecondaries (fun c1 s1 => run ⟨[handOver], false⟩ 2 c1 true true s1) [0] 3 0
        (State.init [.mk false 0 [.mk true 1 []]])).state.trace = [] ++ evs ∧
      childRuns [0] evs = [[0, 0], [0, 1]] := by
  refine ⟨by decide, ?_⟩
  obtain ⟨evs, k, h1, h2, _, h4⟩ := secondaries_loop_rereads_bound ⟨[handOver], false⟩
    (quiet_handOver false) (appendOnly_handOver false) 2 3 [0]
    (State.init [.mk false 0 [.mk true 1 []]]) rfl
  have hk : k = 2 := h4 _ rfl
  subst hk
  exact ⟨evs, h1, h2⟩

/-! ## How the loops of `run` return -/

theorem run_done_inv (ml : ModuleList) (f : Nat) (c : Ptr) (recursive secondariesFirst : Bool)
    (s s2 : State) (h : run ml (f + 1) c recursive secondariesFirst s = .done s2) :
    ∃ s1, runPrimary ml (fun c1 s1 => run ml f c1 recursive secondariesFirst s1)
        recursive secondariesFirst c (f + 1) (f + 1) (s.log (.enter c)) = .done s1 ∧
      ((recursive = true ∧ ¬ secondariesFirst = true) →
        ∃ t, runSecondaries (fun c1 s1 => run ml f c1 recursive secondariesFirst s1)
          c (f + 1) 0 s1 = .done t ∧ s2 = t.log (.leave c)) ∧
      (¬ (recursive = true ∧ ¬ secondariesFirst = true) → s2 = s1.log (.leave c)) := by
  unfold run at h
  split at h
  · rename_i s1 heq
    refine ⟨s1, heq, ?_, ?_⟩
    · intro hc
      rw [if_pos hc] at h
      split at h
      · rename_i t heq2
        cases h
        exact ⟨t, heq2, rfl⟩
      · rename_i hne
        exact absurd h (fun h' => hne _ h')
    · intro hc
      rw [if_neg hc] at h
      cases h
      rfl
  · rename_i hne
    exact absurd h (fun h' => hne _ h')

theorem runSecondaries_done_inv (run1 : Ptr → State → Result) (c : Ptr) (n i : Nat)
    (s s2 : State) (h : runSecondaries run1 c (n + 1) i s = .done s2) :
    (i < numSecondaries s.store c ∧ s.g_cancel_signal_flag = 0 ∧
      ∃ s1, run1 (c ++ [i]) s = .done s1 ∧ runSecondaries run1 c n (i + 1) s1 = .done s2) ∨
    ((¬ i < numSecondaries s.store c ∨ s.g_cancel_signal_flag ≠ 0) ∧ s2 = s) := by
  unfold runSecondaries at h
  split at h
  · rename_i hlt
    split at h
    · rename_i hfl
      cases h
      exact Or.inr ⟨Or.inr hfl, rfl⟩
    · rename_i hfl
      split at h
      · rename_i s1 heq
        exact Or.inl ⟨hlt, by simpa using hfl, s1, heq, h⟩
      · rename_i hne
        exact absurd h (fun h' => hne _ h')
  · rename_i hlt
    cases h
    exact Or.inr ⟨Or.inl hlt, rfl⟩

theorem runPrimary_done_inv (ml : ModuleList) (run1 : Ptr → State → Result)
    (recursive secondariesFirst : Bool) (c : Ptr) (inner n : Nat) (s s1 : State)
    (h : runPrimary ml run1 recursive secondariesFirst c inner (n + 1) s = .done s1) :
    (isActive s.store c = true ∧ s.g_cancel_signal_flag = 0 ∧ ∃ sa, process ml c s = .done sa ∧
      ((recursive = true ∧ secondariesFirst = true) →
        ∃ sb, runSecondaries run1 c inner 0 sa = .done sb ∧
          runPrimary ml run1 recursive secondariesFirst c inner n sb = .done s1) ∧
      (¬ (recursive = true ∧ secondariesFirst = true) →
        runPrimary ml run1 recursive secondariesFirst c inner n sa = .done s1)) ∨
    (¬ (isActive s.store c = true ∧ s.g_cancel_signal_flag = 0) ∧ s1 = s) := by
  unfold runPrimary at h
  split at h
  · rename_i hc
    split at h
    · rename_i sa heq
      refine Or.inl ⟨hc.1, hc.2, sa, heq, ?_, ?_⟩
      · intro hrs
        rw [if_pos hrs] at h
        split at h
        · rename_i sb heq2
          exact ⟨sb, heq2, h⟩
        · rename_i hne
          exact absurd h (fun h' => hne _ h')
      · intro hrs
        rw [if_neg hrs] at h
        exact h
    · rename_i hne
      exact absurd h (fun h' => hne _ h')
  · rename_i hc
    cases h
    exact Or.inr ⟨hc, rfl⟩

theorem runSecondaries_flag (ml : ModuleList) (hq : Quiet ml) (recursive secondariesFirst : Bool)
    (c : Ptr) (f n i : Nat) (s : State) :
    (runSecondaries (fun c1 s1 => run ml f c1 recursive secondariesFirst s1) c n i s).state.g_cancel_signal_flag
      = s.g_cancel_signal_flag :=
  runSecondaries_rel (fun a b => b.g_cancel_signal_flag = a.g_cancel_signal_flag) (fun _ => rfl) (fun _ _ _ h1 h2 => h2.trans h1)
    _ c (fun j t _ => run_flag ml hq f (c ++ [j]) recursive secondariesFirst t) n i s

theorem runPrimary_flag (ml : ModuleList) (hq : Quiet ml) (recursive secondariesFirst : Bool)
    (c : Ptr) (f inner n : Nat) (s : State) :
    (runPrimary ml (fun c1 s1 => run ml f c1 recursive secondariesFirst s1)
      recursive secondariesFirst c inner n s).state.g_cancel_signal_flag = s.g_cancel_signal_flag :=
  runPrimary_rel (fun a b => b.g_cancel_signal_flag = a.g_cancel_signal_flag) (fun _ => rfl) (fun _ _ _ h1 h2 => h2.trans h1)
    ml _ recursive secondariesFirst c inner (fun t _ _ => process_flag ml hq c t)
    (fun _ j t _ => run_flag ml hq f (c ++ [j]) recursive secondariesFirst t) n s

/-! ## C5: what `run` leaves behind -/

/-- When `run` returns with the token still 0, the candidate is inactive. -/
theorem run_inactive_on_return (ml : ModuleList) (hq : Quiet ml) (hone : OneWay ml) (f : Nat)
    (c : Ptr) (recursive secondariesFirst : Bool) (s s2 : State) (hflag : s.g_cancel_signal_flag = 0)
    (hdone : run ml f c recursive secondariesFirst s = .done s2) :
    isActive s2.store c = false := by
  cases f with
  | zero => simp [run] at hdone
  | succ f =>
    obtain ⟨s1, hp, hyes, hno⟩ := run_done_inv ml f c recursive secondariesFirst s s2 hdone
    have hexit := runPrimary_exit _ _ _ _ _ _ _ _ _ hp
    have hf1 : s1.g_cancel_signal_flag = 0 := by
      have := runPrimary_flag ml hq recursive secondariesFirst c f (f + 1) (f + 1)
        (s.log (.enter c))
      rw [hp] at this
      simpa [Result.state, hflag] using this
    have ha1 : isActive s1.store c = false := by
      by_contra hact
      exact hexit ⟨by simpa using hact, hf1⟩
    by_cases hc : recursive = true ∧ ¬ secondariesFirst = true
    · obtain ⟨t, ht, rfl⟩ := hyes hc
      rw [log_store]
      by_cases hn : 0 < numSecondaries s1.store c
      · have hk := runSecondaries_keepsInactive ml hone recursive secondariesFirst c f (f + 1) 0 s1
        rw [ht] at hk
        obtain ⟨_, _, _, _, hlast⟩ := hk
        exact isActive_of_isInactive (hlast c (isInactive_of_numSecondaries hn ha1))
      · have hst := runSecondaries_empty
          (fun c1 s1 => run ml f c1 recursive secondariesFirst s1) c (f + 1) 0 s1 (by omega)
        rw [ht] at hst
        simp only [Result.state] at hst
        rw [hst]
        exact ha1
    · rw [hno hc, log_store]
      exact ha1

theorem process_staysInactive (ml : ModuleList) (hone : OneWay ml) (c : Ptr) (s : State) :
    StaysInactive s.store (process ml c s).state.store := by
  obtain ⟨_, _, _, _, h⟩ := process_keepsInactive ml hone c s
  exact h

/-- A finished tree stays finished during `run`. -/
theorem run_keeps_finished (ml : ModuleList) (hone : OneWay ml) (ht : Tidy ml) (y : Ptr)
    (f : Nat) (c : Ptr) (recursive secondariesFirst : Bool) (s : State)
    (h : isInactive s.store y = true ∧ Terminal s.store y) :
    isInactive (run ml f c recursive secondariesFirst s).state.store y = true ∧
      Terminal (run ml f c recursive secondariesFirst s).state.store y := by
  refine run_rel
    (fun a b => (isInactive a.store y = true ∧ Terminal a.store y) →
      (isInactive b.store y = true ∧ Terminal b.store y))
    (fun _ h => h) (fun _ _ _ h1 h2 h => h2 (h1 h)) ml recursive secondariesFirst
    (fun _ => True) (fun _ _ _ _ => trivial) (fun _ _ _ => ⟨fun h => h, fun h => h⟩) ?_
    f c s trivial h
  intro x t _ hx _ hy
  have hin := process_staysInactive ml hone x t y hy.1
  refine ⟨hin, ?_⟩
  have hne : y ≠ x := by
    intro hyx
    have h1 := isActive_of_isInactive hy.1
    rw [hyx, hx] at h1
    cases h1
  exact ht x t hx y hne (fun _ => hy.2) (isActive_of_isInactive hin)

/-- A settled candidate outside the tree of `c` stays settled during `run` on `c`. -/
theorem run_keeps_settled (ml : ModuleList) (ht : Tidy ml) (y : Ptr) (f : Nat) (c : Ptr)
    (recursive secondariesFirst : Bool) (s : State) (hy : ¬ c <+: y)
    (h : Settled s.store y) :
    Settled (run ml f c recursive secondariesFirst s).state.store y := by
  refine run_rel (fun a b => Settled a.store y → Settled b.store y)
    (fun _ h => h) (fun _ _ _ h1 h2 h => h2 (h1 h)) ml recursive secondariesFirst
    (fun q => c <+: q) (fun _ q i hq => hq.trans (List.prefix_append q [i]))
    (fun _ _ _ => ⟨fun h => h, fun h => h⟩) ?_ f c s (List.prefix_refl c) h
  intro x t hx hact _ hs
  exact ht x t hact y (fun hyx => hy (hyx ▸ hx)) hs

theorem terminal_of_below {st : Store} {c q : Ptr} (h : Terminal st c) (hq : c <+: q) :
    Terminal st q :=
  fun r hr => h r (hq.trans hr)

/-- The loop over the secondaries, once every call of `run` it makes is known to finish the
tree of the secondary it is given: when the loop completes, nothing below `c` is active. -/
theorem runSecondaries_finishes (ml : ModuleList) (hq : Quiet ml) (hone : OneWay ml)
    (ha : AppendOnly ml) (ht : Tidy ml) (secondariesFirst : Bool) (c : Ptr) (hc : c ≠ [])
    (f : Nat)
    (ih : ∀ p s s2, p ≠ [] → s.g_cancel_signal_flag = 0 →
      (secondariesFirst = true → ∀ q, p <+: q → Settled s.store q) →
      run ml f p true secondariesFirst s = .done s2 → Terminal s2.store p) :
    ∀ n i s s2, s.g_cancel_signal_flag = 0 →
      (∀ j, j < i → isInactive s.store (c ++ [j]) = true ∧ Terminal s.store (c ++ [j])) →
      (secondariesFirst = true → ∀ q, c <+: q → q ≠ c → Settled s.store q) →
      runSecondaries (fun c1 s1 => run ml f c1 true secondariesFirst s1) c n i s = .done s2 →
      ∀ q, c <+: q → q ≠ c → isActive s2.store q = false := by
  intro n
  induction n with
  | zero => intro i s s2 _ _ _ h; simp [runSecondaries] at h
  | succ n ihn =>
    intro i s s2 hflag hdone hset h
    rcases runSecondaries_done_inv _ c n i s s2 h with ⟨hlt, _, s1, hrun, hrest⟩ | ⟨hstop, hs2⟩
    · have hterm : Terminal s1.store (c ++ [i]) :=
        ih (c ++ [i]) s s1 (by simp) hflag
          (fun hsf q hq => hset hsf q ((List.prefix_append c [i]).trans hq) (by
            rintro rfl
            have := hq.length_le
            simp at this)) hrun
      have hf1 : s1.g_cancel_signal_flag = 0 := by
        have := run_flag ml hq f (c ++ [i]) true secondariesFirst s
        rw [hrun] at this
        exact this.trans hflag
      have hgrow : numSecondaries s.store c ≤ numSecondaries s1.store c := by
        have := run_grows ml ha f (c ++ [i]) true secondariesFirst s c
        rw [hrun] at this
        exact this
      refine ihn (i + 1) s1 s2 hf1 ?_ ?_ hrest
      · intro j hj
        by_cases hji : j = i
        · subst hji
          exact ⟨isInactive_child s1.store c j hc (by omega)
            (hterm _ (List.prefix_refl _)), hterm⟩
        · have := run_keeps_finished ml hone ht (c ++ [j]) f (c ++ [i]) true secondariesFirst s
            (hdone j (by omega))
          rw [hrun] at this
          exact this
      · intro hsf q hcq hne
        by_cases hiq : c ++ [i] <+: q
        · intro _
          exact terminal_of_below hterm hiq
        · have := run_keeps_settled ml ht q f (c ++ [i]) true secondariesFirst s hiq
            (hset hsf q hcq hne)
          rw [hrun] at this
          exact this
    · have hlen : numSecondaries s.store c ≤ i := by
        rcases hstop with h1 | h1
        · omega
        · exact absurd hflag h1
      rw [hs2]
      intro q hcq hne
      obtain ⟨r, rfl⟩ := hcq
      cases r with
      | nil => simp at hne
      | cons j rest =>
        by_cases hj : j < i
        · exact (hdone j hj).2 _ ⟨rest, by simp⟩
        · exact isActive_past_end s.store c j rest hc (by omega)

theorem terminal_of_parts {st : Store} {c : Ptr} (h1 : isActive st c = false)
    (h2 : ∀ q, c <+: q → q ≠ c → isActive st q = false) : Terminal st c := by
  intro q hq
  by_cases hqc : q = c
  · rw [hqc]; exact h1
  · exact h2 q hq hqc

/-- The primary loop with `secondariesFirst = true`, once every recursive call of `run` is
known to finish the tree it is given: when the loop ends, the tree of `c` is finished. -/
theorem runPrimary_finishes (ml : ModuleList) (hq : Quiet ml) (hone : OneWay ml)
    (ha : AppendOnly ml) (ht : Tidy ml) (c : Ptr) (hc : c ≠ []) (f : Nat)
    (ih : ∀ p s s2, p ≠ [] → s.g_cancel_signal_flag = 0 →
      (true = true → ∀ q, p <+: q → Settled s.store q) →
      run ml f p true true s = .done s2 → Terminal s2.store p) :
    ∀ n s s1, s.g_cancel_signal_flag = 0 → (∀ q, c <+: q → Settled s.store q) →
      runPrimary ml (fun c1 s1 => run ml f c1 true true s1) true true c (f + 1) n s = .done s1 →
      Terminal s1.store c := by
  intro n
  induction n with
  | zero => intro s s1 _ _ h; simp [runPrimary] at h
  | succ n ihn =>
    intro s s1 hflag hset h
    rcases runPrimary_done_inv ml _ true true c (f + 1) n s s1 h with
      ⟨hact, _, sa, hproc, hyes, _⟩ | ⟨hstop, hs1⟩
    · obtain ⟨sb, hsec, hrest⟩ := hyes ⟨rfl, rfl⟩
      have hfa : sa.g_cancel_signal_flag = 0 := by
        have := process_flag ml hq c s
        rw [hproc] at this
        exact this.trans hflag
      have hseta : ∀ q, c <+: q → q ≠ c → Settled sa.store q := by
        intro q hcq hne
        have := ht c s hact q hne (hset q hcq)
        rw [hproc] at this
        exact this
      have hbelow := runSecondaries_finishes ml hq hone ha ht true c hc f ih (f + 1) 0 sa sb hfa
        (fun j hj => absurd hj (Nat.not_lt_zero j)) (fun _ => hseta) hsec
      have hfb : sb.g_cancel_signal_flag = 0 := by
        have := runSecondaries_flag ml hq true true c f (f + 1) 0 sa
        rw [hsec] at this
        exact this.trans hfa
      refine ihn sb s1 hfb ?_ hrest
      intro q hcq hqa r hqr
      by_cases hrc : r = c
      · have hqc : q = c := by
          subst hrc
          exact List.IsPrefix.eq_of_length_le hqr hcq.length_le |>.symm ▸ rfl
        rw [hrc, ← hqc]
        exact hqa
      · exact hbelow r (hcq.trans hqr) hrc
    · rw [hs1]
      have hina : isActive s.store c = false := by
        by_contra hact
        exact hstop ⟨by simpa using hact, hflag⟩
      exact hset c (List.prefix_refl c) hina

/-- When `run(candidate, recursive = true, secondariesFirst)` returns with the token still 0
and the modules follow the conventions, the whole tree of the candidate is finished; with
`secondariesFirst = true` this needs every candidate of the tree to be settled on entry. -/
theorem run_finishes (ml : ModuleList) (hq : Quiet ml) (hone : OneWay ml) (ha : AppendOnly ml)
    (ht : Tidy ml) (secondariesFirst : Bool) :
    ∀ f p s s2, p ≠ [] → s.g_cancel_signal_flag = 0 →
      (secondariesFirst = true → ∀ q, p <+: q → Settled s.store q) →
      run ml f p true secondariesFirst s = .done s2 → Terminal s2.store p := by
  intro f
  induction f with
  | zero => intro p s s2 _ _ _ h; simp [run] at h
  | succ f ih =>
    intro p s s2 hp hflag hset hdone
    have hina := run_inactive_on_return ml hq hone (f + 1) p true secondariesFirst s s2
      hflag hdone
    obtain ⟨s1, hprim, hyes, hno⟩ := run_done_inv ml f p true secondariesFirst s s2 hdone
    have hf1 : s1.g_cancel_signal_flag = 0 := by
      have := runPrimary_flag ml hq true secondariesFirst p f (f + 1) (f + 1) (s.log (.enter p))
      rw [hprim] at this
      simpa [Result.state, hflag] using this
    cases secondariesFirst with
    | false =>
      obtain ⟨t, hsec, hs2⟩ := hyes ⟨rfl, by simp⟩
      have hbelow := runSecondaries_finishes ml hq hone ha ht false p hp f ih (f + 1) 0 s1 t hf1
        (fun j hj => absurd hj (Nat.not_lt_zero j)) (fun h => by cases h) hsec
      refine terminal_of_parts hina ?_
      rw [hs2, log_store]
      exact hbelow
    | true =>
      have hs2 := hno (by simp)
      have := runPrimary_finishes ml hq hone ha ht p hp f ih (f + 1) (s.log (.enter p)) s1
        (by simpa using hflag) (by simpa using hset rfl) hprim
      rw [hs2, log_store]
      exact this

theorem process_deactivate_store (b : Bool) (c : Ptr) (s : State) :
    (process ⟨[deactivate], b⟩ c s).state.store = setActive false s.store c := by
  simp [process, processFrom, deactivate, Result.state]

theorem tidy_deactivate (b : Bool) : Tidy ⟨[deactivate], b⟩ := by
  intro c s _ y hne hs hy q hq
  rw [process_deactivate_store] at hy ⊢
  rw [isActive_setActive_false, if_neg hne] at hy
  rw [isActive_setActive_false]
  split
  · rfl
  · exact hs hy q hq

/-- C5, as amended: when `run` returns, no signal having arrived (token 0 on entry, quiet
modules), and the modules follow the conventions of the data model (no re-activation,
append-only secondaries, a step on an active candidate leaves the other settled candidates
settled), the candidate is inactive on return; and when `recursive` is true no candidate at
or below it is active on return, provided, for `secondariesFirst = true`, that on entry no
inactive candidate of its tree had something active below it.  (The secondaries are then
run from inside the primary loop only, so those of a candidate that is inactive on entry
are never run.) -/
theorem run_drives_to_terminal (ml : ModuleList) (hq : Quiet ml) (hone : OneWay ml)
    (ha : AppendOnly ml) (ht : Tidy ml) (f : Nat) (c : Ptr) (recursive secondariesFirst : Bool)
    (s s2 : State) (hc : c ≠ []) (hflag : s.g_cancel_signal_flag = 0)
    (hdone : run ml f c recursive secondariesFirst s = .done s2) :
    isActive s2.store c = false ∧
    (recursive = true →
      (secondariesFirst = true → ∀ q, c <+: q → Settled s.store q) →
      ∀ q, c <+: q → isActive s2.store q = false) := by
  refine ⟨run_inactive_on_return ml hq hone f c recursive secondariesFirst s s2 hflag hdone, ?_⟩
  intro hr hset
  subst hr
  exact run_finishes ml hq hone ha ht secondariesFirst f c s s2 hc hflag hset hdone

/-- Counterexample to C5 as stated: `recursive = true`, `secondariesFirst = true`, token 0,
a candidate that is inactive on entry and owns an active secondary.  `run` returns at once
and the secondary is still active. -/
theorem run_secondariesFirst_leaves_secondary_active :
    ∃ s2, run ⟨[deactivate], false⟩ 3 [0] true true
        (State.init [.mk false 0 [.mk true 1 []]]) = .done s2 ∧
      s2.g_cancel_signal_flag = 0 ∧ isActive s2.store [0] = false ∧ isActive s2.store [0, 0] = true :=
  ⟨_, rfl, by decide, by decide, by decide⟩

theorem settled_example : ∀ q, [0] <+: q → Settled [.mk true 0 [.mk true 1 []]] q := by
  rintro q ⟨r, rfl⟩ hq
  match r, hq with
  | [], hq => exact absurd hq (by decide)
  | [0], hq => exact absurd hq (by decide)
  | (k + 1) :: rest, _ =>
    rintro q2 ⟨r2, rfl⟩
    have := isActive_past_end [.mk true 0 [.mk true 1 []]] [0] (k + 1) (rest ++ r2)
      (by simp) (by simp [numSecondaries])
    simpa using this
  | 0 :: j :: rest, _ =>
    rintro q2 ⟨r2, rfl⟩
    have := isActive_past_end [.mk true 0 [.mk true 1 []]] [0, 0] j (rest ++ r2)
      (by simp) (by simp [numSecondaries, lookup_cons_cons])
    simpa using this

/-- Witness for the amended C5: an active candidate with an active secondary, the
deactivating pipeline, `recursive = true` and `secondariesFirst = true`. -/
theorem run_drives_to_terminal_witness :
    isActive (run ⟨[deactivate], false⟩ 3 [0] true true
        (State.init [.mk true 0 [.mk true 1 []]])).state.store [0] = false ∧
    ∀ q, [0] <+: q → isActive (run ⟨[deactivate], false⟩ 3 [0] true true
        (State.init [.mk true 0 [.mk true 1 []]])).state.store q = false := by
  have h := run_drives_to_terminal ⟨[deactivate], false⟩ (quiet_deactivate false)
    (oneWay_deactivate false) (appendOnly_deactivate false) (tidy_deactivate false) 3 [0]
    true true (State.init [.mk true 0 [.mk true 1 []]])
    (run ⟨[deactivate], false⟩ 3 [0] true true (State.init [.mk true 0 [.mk true 1 []]])).state
    (by simp) rfl rfl
  exact ⟨h.1, h.2 rfl (fun _ => settled_example)⟩

/-! ## C8: the population-level run and a token set beforehand -/

theorem foldl_callback_flag (sigs : List Int) (s : State) :
    (sigs.foldl (fun t sig => g_cancel_signal_callback sig t) s).g_cancel_signal_flag =
      sigs.getLast?.getD s.g_cancel_signal_flag := by
  induction sigs generalizing s with
  | nil => rfl
  | cons a l ih =>
    rw [List.foldl_cons, ih, List.getLast?_cons]
    rfl

/-- Once the token is set, every remaining iteration of the collection loop is skipped. -/
theorem runCollectionLoop_cancelled (ml : ModuleList) (dflt : Bool) (f : Nat) (recursive : Bool)
    (cands : List Ptr) (s : State) (n : Nat) (h : s.g_cancel_signal_flag ≠ 0) :
    runCollectionLoop ml dflt f recursive cands s n = some (s, n) := by
  induction cands with
  | nil => rfl
  | cons c cs ih => rw [runCollectionLoop, if_pos h, ih]

/-- C8, as amended: the population-level run over a collection sets the token to 0 on
entry, so the value the token has when the call is made plays no part in its result.
Candidates are skipped for a token that is non-zero after that reset: if signals delivered
to the installed handler before the first iteration leave a non-zero signal number in the
token, the call returns with zero candidates processed: no module is called (the trace
is what it was), every candidate is unchanged, and no progress is reported. -/
theorem runCollection_token_on_entry (ml : ModuleList) (dflt : Bool) (f : Nat)
    (candidates : List Ptr) (recursive secondariesFirst : Bool) (early : List Int) (s : State) :
    (∀ x, runCollection ml dflt f candidates recursive secondariesFirst early
        { s with g_cancel_signal_flag := x } =
      runCollection ml dflt f candidates recursive secondariesFirst early s) ∧
    (∀ sig, early.getLast? = some sig → sig ≠ 0 →
      ∃ r, runCollection ml dflt f candidates recursive secondariesFirst early s = some r ∧
        r.state.store = s.store ∧ r.state.trace = s.trace ∧ r.state.g_cancel_signal_flag = sig ∧
        r.progress = 0) := by
  refine ⟨fun _ => rfl, ?_⟩
  intro sig hlast hsig
  have hflag : (deliver early { s with g_cancel_signal_flag := 0, handler := true }).g_cancel_signal_flag = sig := by
    simp [deliver, foldl_callback_flag, hlast]
  have hloop := runCollectionLoop_cancelled ml dflt f recursive candidates
    (deliver early { s with g_cancel_signal_flag := 0, handler := true }) 0 (by rw [hflag]; exact hsig)
  simp only [runCollection, hloop]
  exact ⟨_, rfl, by simp, by simp, by simpa using hflag, rfl⟩

/-- Counterexample to C8 as stated: the token is 2 when the population-level run is called;
the call resets it and the candidate is processed all the same. -/
theorem runCollection_resets_token :
    ∃ r, runCollection ⟨[deactivate], false⟩ true 3 [[0]] true true []
        ⟨[.mk true 0 []], 2, false, []⟩ = some r ∧
      r.state.trace.map Step.ev = [.enter [0], .call 0 [0], .leave [0]] ∧
      isActive r.state.store [0] = false :=
  ⟨_, rfl, by decide, by decide⟩

/-- Witness for the amended C8: SIGINT (2) arrives after the handlers are installed and
before the loop starts; none of the two candidates is processed. -/
theorem runCollection_token_on_entry_witness :
    ∃ r, runCollection ⟨[deactivate], false⟩ true 3 [[0], [1]] true true [2]
        (State.init [.mk true 0 [], .mk true 1 []]) = some r ∧
      r.state.store = [.mk true 0 [], .mk true 1 []] ∧ r.state.trace = [] ∧
      r.state.g_cancel_signal_flag = 2 ∧ r.progress = 0 :=
  (runCollection_token_on_entry ⟨[deactivate], false⟩ true 3 [[0], [1]] true true [2]
    (State.init [.mk true 0 [], .mk true 1 []])).2 2 rfl (by decide)

/-! ## C9: a failing iteration of the collection run does not mark the token -/

/-- C9, the code at the failing input: one candidate, a module that throws, no signal.  The
collection run catches the exception and returns with the token still 0, not negative. -/
theorem runCollection_failure_leaves_token_zero :
    ∃ r, runCollection ⟨[faulty], false⟩ true 3 [[0]] true true []
        (State.init [.mk true 0 []]) = some r ∧
      r.state.trace.map Step.ev = [.enter [0], .call 0 [0], .caught "faulty module"] ∧
      r.state.g_cancel_signal_flag = 0 ∧ r.raised = none :=
  ⟨_, rfl, by decide, by decide, by decide⟩

/-! ## Runs on different top-level trees do not interfere -/

theorem lookup_congr (st st2 : Store) (r : Nat) (p : Ptr) (h : st[r]? = st2[r]?) :
    lookup st (r :: p) = lookup st2 (r :: p) := by
  rw [lookup, lookup, h]

theorem isActive_congr (st st2 : Store) (r : Nat) (p : Ptr) (h : st[r]? = st2[r]?) :
    isActive st (r :: p) = isActive st2 (r :: p) := by
  rw [isActive, isActive, lookup_congr st st2 r p h]

theorem numSecondaries_congr (st st2 : Store) (r : Nat) (p : Ptr) (h : st[r]? = st2[r]?) :
    numSecondaries st (r :: p) = numSecondaries st2 (r :: p) := by
  rw [numSecondaries, numSecondaries, lookup_congr st st2 r p h]

theorem deliver_flag (sigs : List Int) (s : State) :
    (deliver sigs s).g_cancel_signal_flag = if s.handler then sigs.getLast?.getD s.g_cancel_signal_flag else s.g_cancel_signal_flag := by
  unfold deliver
  split
  · exact foldl_callback_flag sigs s
  · rfl

theorem agree_log (r : Nat) (a b : State) (e e2 : Event) (h : Agree r a b) :
    Agree r (a.log e) (b.log e2) := h

theorem agree_invoke (ml : ModuleList) (hloc : Local ml) (m : Module) (hm : m ∈ ml.modules)
    (k : Nat) (r : Nat) (p : Ptr) (a b : State) (h : Agree r a b) :
    Agree r (invoke m k (r :: p) a) (invoke m k (r :: p) b) := by
  obtain ⟨h1, h2, h3⟩ := (hloc m hm r p a.store b.store).2 h.1
  refine ⟨by simpa using h1, ?_, by simpa using h.2.2⟩
  simp only [invoke, deliver_flag, log_handler, log_flag]
  rw [h2, h.2.1, h.2.2]

theorem processFrom_agree (ml : ModuleList) (hloc : Local ml) (r : Nat) (p : Ptr)
    (ms : List Module) (hms : ∀ m ∈ ms, m ∈ ml.modules) :
    ∀ k a b, Agree r a b →
      ResAgree r (processFrom (r :: p) ms k a) (processFrom (r :: p) ms k b) := by
  induction ms with
  | nil => intro k a b h; exact h
  | cons m ms ih =>
    intro k a b h
    have hm := hms m (List.mem_cons_self _ _)
    have hi := agree_invoke ml hloc m hm k r p a b h
    have he := ((hloc m hm r p a.store b.store).2 h.1).2.2
    unfold processFrom
    rw [he]
    cases m.process (r :: p) b.store |>.error with
    | some e => exact ⟨rfl, hi⟩
    | none => exact ih (fun m' hm' => hms m' (List.mem_cons_of_mem _ hm')) (k + 1) _ _ hi

theorem runSecondaries_agree (r : Nat) (p : Ptr) (run1 : Ptr → State → Result)
    (hrun : ∀ i a b, Agree r a b → ResAgree r (run1 (r :: p ++ [i]) a) (run1 (r :: p ++ [i]) b)) :
    ∀ n i a b, Agree r a b →
      ResAgree r (runSecondaries run1 (r :: p) n i a) (runSecondaries run1 (r :: p) n i b) := by
  intro n
  induction n with
  | zero => intro i a b h; exact h
  | succ n ih =>
    intro i a b h
    unfold runSecondaries
    rw [numSecondaries_congr a.store b.store r p h.1, h.2.1]
    split
    · split
      · exact h
      · have hr := hrun i a b h
        cases ha : run1 (r :: p ++ [i]) a <;> cases hb : run1 (r :: p ++ [i]) b <;>
          rw [ha, hb] at hr <;> simp only [ResAgree] at hr
        · exact ih (i + 1) _ _ hr
        · exact hr
        · exact hr
    · exact h

theorem runPrimary_agree (ml : ModuleList) (hloc : Local ml) (r : Nat) (p : Ptr)
    (run1 : Ptr → State → Result) (recursive secondariesFirst : Bool) (inner : Nat)
    (hrun : ∀ i a b, Agree r a b → ResAgree r (run1 (r :: p ++ [i]) a) (run1 (r :: p ++ [i]) b)) :
    ∀ n a b, Agree r a b →
      ResAgree r (runPrimary ml run1 recursive secondariesFirst (r :: p) inner n a)
        (runPrimary ml run1 recursive secondariesFirst (r :: p) inner n b) := by
  intro n
  induction n with
  | zero => intro a b h; exact h
  | succ n ih =>
    intro a b h
    unfold runPrimary
    rw [isActive_congr a.store b.store r p h.1, h.2.1]
    split
    · have hp := processFrom_agree ml hloc r p ml.modules (fun _ hm => hm) 0 a b h
      unfold process
      cases ha : processFrom (r :: p) ml.modules 0 a <;>
        cases hb : processFrom (r :: p) ml.modules 0 b <;>
        rw [ha, hb] at hp <;> simp only [ResAgree] at hp
      · rename_i a1 b1
        simp only []
        split
        · have hs := runSecondaries_agree r p run1 hrun inner 0 a1 b1 hp
          cases hsa : runSecondaries run1 (r :: p) inner 0 a1 <;>
            cases hsb : runSecondaries run1 (r :: p) inner 0 b1 <;>
            rw [hsa, hsb] at hs <;> simp only [ResAgree] at hs
          · exact ih _ _ hs
          · exact hs
          · exact hs
        · exact ih _ _ hp
      · exact hp
      · exact hp
    · exact h

/-- Two runs on the same candidate of tree `r`, from states that agree on tree `r`, end the
same way in states that agree on tree `r`. -/
theorem run_agree (ml : ModuleList) (hloc : Local ml) (r : Nat)
    (recursive secondariesFirst : Bool) :
    ∀ f p a b, Agree r a b →
      ResAgree r (run ml f (r :: p) recursive secondariesFirst a)
        (run ml f (r :: p) recursive secondariesFirst b) := by
  intro f
  induction f with
  | zero => intro p a b h; exact h
  | succ f ih =>
    intro p a b h
    have hrun : ∀ i a b, Agree r a b →
        ResAgree r ((fun c1 s1 => run ml f c1 recursive secondariesFirst s1) (r :: p ++ [i]) a)
          ((fun c1 s1 => run ml f c1 recursive secondariesFirst s1) (r :: p ++ [i]) b) :=
      fun i a b hab => ih (p ++ [i]) a b hab
    have hp := runPrimary_agree ml hloc r p
      (fun c1 s1 => run ml f c1 recursive secondariesFirst s1) recursive secondariesFirst
      (f + 1) hrun (f + 1)
      (a.log (.enter (r :: p))) (b.log (.enter (r :: p))) (agree_log r a b _ _ h)
    unfold run
    cases ha : runPrimary ml (fun c1 s1 => run ml f c1 recursive secondariesFirst s1)
        recursive secondariesFirst (r :: p) (f + 1) (f + 1) (a.log (.enter (r :: p))) <;>
      cases hb : runPrimary ml (fun c1 s1 => run ml f c1 recursive secondariesFirst s1)
        recursive secondariesFirst (r :: p) (f + 1) (f + 1) (b.log (.enter (r :: p))) <;>
      rw [ha, hb] at hp <;> simp only [ResAgree] at hp
    · rename_i a1 b1
      simp only []
      split
      · have hs := runSecondaries_agree r p
          (fun c1 s1 => run ml f c1 recursive secondariesFirst s1) hrun (f + 1) 0 a1 b1 hp
        cases hsa : runSecondaries (fun c1 s1 => run ml f c1 recursive secondariesFirst s1)
            (r :: p) (f + 1) 0 a1 <;>
          cases hsb : runSecondaries (fun c1 s1 => run ml f c1 recursive secondariesFirst s1)
            (r :: p) (f + 1) 0 b1 <;>
          rw [hsa, hsb] at hs <;> simp only [ResAgree] at hs
        · exact agree_log r _ _ _ _ hs
        · exact hs
        · exact hs
      · exact agree_log r _ _ _ _ hp
    · exact hp
    · exact hp

/-- A run on a candidate of tree `r` leaves every other top-level tree as it was. -/
theorem run_frame (ml : ModuleList) (hloc : Local ml) (r j : Nat) (hj : j ≠ r) (f : Nat)
    (p : Ptr) (recursive secondariesFirst : Bool) (s : State) :
    (run ml f (r :: p) recursive secondariesFirst s).state.store[j]? = s.store[j]? := by
  refine run_rel (fun a b => b.store[j]? = a.store[j]?) (fun _ => rfl)
    (fun _ _ _ h1 h2 => h2.trans h1) ml recursive secondariesFirst
    (fun q => ∃ p, q = r :: p) (fun _ q i ⟨p, hp⟩ => ⟨p ++ [i], by rw [hp]; rfl⟩)
    (fun _ _ _ => ⟨rfl, rfl⟩) ?_ f (r :: p) s ⟨p, rfl⟩
  rintro q t ⟨p, rfl⟩ _ _
  unfold process
  exact processFrom_rel (fun a b => b.store[j]? = a.store[j]?) (fun _ => rfl)
    (fun _ _ _ h1 h2 => h2.trans h1) (r :: p) ml.modules
    (fun m hm k u => by
      show (invoke m k (r :: p) u).store[j]? = u.store[j]?
      rw [invoke_store]
      exact (hloc m hm r p u.store u.store).1 j hj) 0 t

theorem run_handler (ml : ModuleList) (f : Nat) (c : Ptr) (recursive secondariesFirst : Bool)
    (s : State) : (run ml f c recursive secondariesFirst s).state.handler = s.handler := by
  refine run_rel (fun a b => b.handler = a.handler) (fun _ => rfl)
    (fun _ _ _ h1 h2 => h2.trans h1) ml recursive secondariesFirst (fun _ => True)
    (fun _ _ _ _ => trivial) (fun _ _ _ => ⟨rfl, rfl⟩) ?_ f c s trivial
  intro q t _ _ _
  unfold process
  exact processFrom_rel (fun a b => b.handler = a.handler) (fun _ => rfl)
    (fun _ _ _ h1 h2 => h2.trans h1) q ml.modules (fun m _ k u => invoke_handler m k q u) 0 t

/-- The loop of the collection run over distinct top-level candidates, from a state that
shows each of them as the reference state `s0` does: every iteration ends as the stand-alone
run from `s0` does, and leaves the tree of its candidate as that run does. -/
theorem runCollectionLoop_isolated (ml : ModuleList) (hq : Quiet ml) (hloc : Local ml)
    (dflt : Bool) (f : Nat) (recursive : Bool) (s0 : State) (h0 : s0.g_cancel_signal_flag = 0) :
    ∀ (roots : List Nat) (s : State) (n : Nat), roots.Nodup → s.g_cancel_signal_flag = 0 →
      s.handler = s0.handler → (∀ r ∈ roots, s.store[r]? = s0.store[r]?) →
      (∀ r ∈ roots, ∀ t, run ml f [r] recursive dflt s0 ≠ .fuel t) →
      ∃ s2 n2, runCollectionLoop ml dflt f recursive (roots.map fun r => [r]) s n
          = some (s2, n2) ∧
        (∀ r ∈ roots,
          s2.store[r]? = (run ml f [r] recursive dflt s0).state.store[r]?) ∧
        (∀ j, j ∉ roots → s2.store[j]? = s.store[j]?) := by
  intro roots
  induction roots with
  | nil => intro s n _ _ _ _ _; exact ⟨s, n, rfl, by simp, fun _ _ => rfl⟩
  | cons r rs ih =>
    intro s n hnd hflag hh hst hfuel
    have hr : r ∉ rs := (List.nodup_cons.1 hnd).1
    have hag : Agree r s s0 := ⟨hst r (List.mem_cons_self _ _), hflag.trans h0.symm, hh⟩
    have hra := run_agree ml hloc r recursive dflt f [] s s0 hag
    have hf1 := run_flag ml hq f [r] recursive dflt s
    have hh1 := run_handler ml f [r] recursive dflt s
    have hfr : ∀ j, j ≠ r → (run ml f [r] recursive dflt s).state.store[j]? = s.store[j]? :=
      fun j hj => run_frame ml hloc r j hj f [] recursive dflt s
    have key : ∀ (s1 : State) (n1 : Nat),
        s1.store = (run ml f [r] recursive dflt s).state.store →
        s1.g_cancel_signal_flag = (run ml f [r] recursive dflt s).state.g_cancel_signal_flag →
        s1.handler = (run ml f [r] recursive dflt s).state.handler →
        (run ml f [r] recursive dflt s).state.store[r]? =
          (run ml f [r] recursive dflt s0).state.store[r]? →
        ∃ s2 n2, runCollectionLoop ml dflt f recursive (rs.map fun r => [r]) s1 n1
            = some (s2, n2) ∧
          (∀ x ∈ r :: rs,
            s2.store[x]? = (run ml f [x] recursive dflt s0).state.store[x]?) ∧
          (∀ j, j ∉ r :: rs → s2.store[j]? = s.store[j]?) := by
      intro s1 n1 e1 e2 e3 e4
      obtain ⟨s2, n2, hl, htree, hrest⟩ := ih s1 n1 (List.nodup_cons.1 hnd).2
        (by rw [e2, hf1, hflag]) (by rw [e3, hh1, hh])
        (fun x hx => by
          rw [e1, hfr x (fun h => hr (h ▸ hx))]
          exact hst x (List.mem_cons_of_mem _ hx))
        (fun x hx => hfuel x (List.mem_cons_of_mem _ hx))
      refine ⟨s2, n2, hl, ?_, ?_⟩
      · intro x hx
        rcases List.mem_cons.1 hx with rfl | hx
        · rw [hrest x hr, e1, e4]
        · exact htree x hx
      · intro j hj
        rw [hrest j (fun h => hj (List.mem_cons_of_mem _ h)), e1]
        exact hfr j (fun h => hj (h ▸ List.mem_cons_self _ _))
    simp only [List.map_cons]
    rw [runCollectionLoop, if_neg (by simpa using hflag)]
    cases ha : run ml f [r] recursive dflt s <;> cases hb : run ml f [r] recursive dflt s0 <;>
      rw [ha, hb] at hra <;> simp only [ResAgree] at hra
    · rw [ha] at key
      exact key _ _ rfl rfl rfl (by rw [hb]; exact hra.1)
    · rw [ha] at key
      exact key _ _ rfl rfl rfl (by rw [hb]; exact hra.2.1)
    · exact absurd hb (hfuel r (List.mem_cons_self _ _) _)

/-! ## C10: one failing candidate does not disturb the others -/

/-- C10: the collection run over distinct top-level candidates, with no signal arriving and
modules that act on the tree of the candidate they are given.  If the stand-alone run
`run(candidate, recursive)` throws for the candidate `k` and returns for every other one,
then the collection run returns (the exception is caught in its iteration), and every other
candidate ends as its stand-alone run leaves it: its tree is the tree that run produces,
and it is inactive. -/
theorem runCollection_isolates_failure (ml : ModuleList) (hq : Quiet ml) (hone : OneWay ml)
    (hloc : Local ml) (dflt : Bool) (f : Nat) (roots : List Nat) (hnd : roots.Nodup) (k : Nat)
    (recursive secondariesFirst : Bool) (s : State)
    (hfail : ∃ e t, run ml f [k] recursive dflt { s with g_cancel_signal_flag := 0, handler := true }
      = .threw e t)
    (hok : ∀ r ∈ roots, r ≠ k →
      ∃ t, run ml f [r] recursive dflt { s with g_cancel_signal_flag := 0, handler := true } = .done t) :
    ∃ res, runCollection ml dflt f (roots.map fun r => [r]) recursive secondariesFirst [] s
        = some res ∧
      ∀ r ∈ roots, r ≠ k →
        res.state.store[r]? =
          (run ml f [r] recursive dflt { s with g_cancel_signal_flag := 0, handler := true }).state.store[r]? ∧
        isActive res.state.store [r] = false := by
  obtain ⟨s2, n2, hl, htree, _⟩ := runCollectionLoop_isolated ml hq hloc dflt f recursive
    { s with g_cancel_signal_flag := 0, handler := true } rfl roots { s with g_cancel_signal_flag := 0, handler := true } 0
    hnd rfl rfl (fun _ _ => rfl) (by
      intro r hr t ht
      by_cases hrk : r = k
      · obtain ⟨e, t2, h2⟩ := hfail
        rw [hrk, h2] at ht
        cases ht
      · obtain ⟨t2, h2⟩ := hok r hr hrk
        rw [h2] at ht
        cases ht)
  have hrc : runCollection ml dflt f (roots.map fun r => [r]) recursive secondariesFirst [] s =
      some { state := { s2 with handler := s.handler }, progress := n2,
             raised := if s2.g_cancel_signal_flag > 0 then some s2.g_cancel_signal_flag else none } := by
    simp only [runCollection, deliver_nil, hl]
  refine ⟨_, hrc, ?_⟩
  intro r hr hrk
  refine ⟨htree r hr, ?_⟩
  show isActive s2.store [r] = false
  obtain ⟨t, ht⟩ := hok r hr hrk
  have hina := run_inactive_on_return ml hq hone f [r] recursive dflt _ t rfl ht
  have h1 := htree r hr
  rw [ht] at h1
  rw [isActive_congr _ t.store r [] h1]
  exact hina

/-! ## The fixture `fragile` is quiet, one-way and local -/

theorem getElem?_modifyAt_ne (f : Candidate → Candidate) (r j : Nat) (p : Ptr)
    (cs : List Candidate) (h : j ≠ r) : (modifyAt f (r :: p) cs)[j]? = cs[j]? := by
  cases p with
  | nil => rw [modifyAt_single, List.getElem?_modify_ne _ _ (Ne.symm h)]
  | cons i p => rw [modifyAt_cons_cons, List.getElem?_modify_ne _ _ (Ne.symm h)]

theorem getElem?_modifyAt_congr (f : Candidate → Candidate) (r : Nat) (p : Ptr)
    (cs ds : List Candidate) (h : cs[r]? = ds[r]?) :
    (modifyAt f (r :: p) cs)[r]? = (modifyAt f (r :: p) ds)[r]? := by
  cases p with
  | nil => rw [modifyAt_single, modifyAt_single, List.getElem?_modify_eq,
      List.getElem?_modify_eq, h]
  | cons i p => rw [modifyAt_cons_cons, modifyAt_cons_cons, List.getElem?_modify_eq,
      List.getElem?_modify_eq, h]

theorem quiet_fragile (b : Bool) : Quiet ⟨[fragile], b⟩ := by
  intro m hm c st
  simp only [List.mem_singleton] at hm
  subst hm
  simp only [fragile]
  split <;> rfl

theorem oneWay_fragile (b : Bool) : OneWay ⟨[fragile], b⟩ := by
  intro m hm c st q h
  simp only [List.mem_singleton] at hm
  subst hm
  simp only [fragile]
  split
  · exact h
  · exact isInactive_setActive_false st c q h

theorem local_fragile (b : Bool) : Local ⟨[fragile], b⟩ := by
  intro m hm r p st st2
  simp only [List.mem_singleton] at hm
  subst hm
  refine ⟨?_, ?_⟩
  · intro j hj
    simp only [fragile]
    split
    · rfl
    · exact getElem?_modifyAt_ne _ r j p st hj
  · intro h
    have hc : currentOf st (r :: p) = currentOf st2 (r :: p) := by
      rw [currentOf, currentOf, lookup_congr st st2 r p h]
    simp only [fragile, hc]
    split
    · exact ⟨h, rfl, rfl⟩
    · exact ⟨getElem?_modifyAt_congr _ r p st st2 h, rfl, rfl⟩

/-- Witness for C10: three candidates, the pipeline throws for the second one; the first
and the third (which owns a secondary) end as their stand-alone runs leave them. -/
theorem runCollection_isolates_failure_witness :
    ∃ res, runCollection ⟨[fragile], false⟩ true 3 ([0, 1, 2].map fun r => [r]) true true []
        (State.init [.mk true 0 [], .mk true 13 [], .mk true 0 [.mk true 1 []]]) = some res ∧
      ∀ r ∈ [0, 1, 2], r ≠ 1 →
        res.state.store[r]? =
          (run ⟨[fragile], false⟩ 3 [r] true true
            { State.init [.mk true 0 [], .mk true 13 [], .mk true 0 [.mk true 1 []]] with
              g_cancel_signal_flag := 0, handler := true }).state.store[r]? ∧
        isActive res.state.store [r] = false :=
  runCollection_isolates_failure ⟨[fragile], false⟩ (quiet_fragile false) (oneWay_fragile false)
    (local_fragile false) true 3 [0, 1, 2] (by decide) 1 true true
    (State.init [.mk true 0 [], .mk true 13 [], .mk true 0 [.mk true 1 []]])
    ⟨_, _, rfl⟩
    (by
      intro r hr hne
      simp only [List.mem_cons, List.mem_singleton, List.not_mem_nil, or_false] at hr
      rcases hr with rfl | rfl | rfl
      · exact ⟨_, rfl⟩
      · exact absurd rfl hne
      · exact ⟨_, rfl⟩)

/-- The collection run of the C10 witness, event by event. -/
theorem runCollection_isolates_failure_example :
    ∃ res, runCollection ⟨[fragile], false⟩ true 3 [[0], [1], [2]] true true []
        (State.init [.mk true 0 [], .mk true 13 [], .mk true 0 [.mk true 1 []]]) = some res ∧
      res.state.trace.map Step.ev =
        [.enter [0], .call 0 [0], .leave [0],
         .enter [1], .call 0 [1], .caught "fragile module",
         .enter [2], .call 0 [2], .enter [2, 0], .call 0 [2, 0], .leave [2, 0], .leave [2]] ∧
      res.state.g_cancel_signal_flag = 0 :=
  ⟨_, rfl, by decide, by decide⟩

/-! ## C15, C16, C17: `add`, `remove`, `size` and `operator[]` -/

/-- C15: for a module list of size `n` and an index `i < n`, `remove(i)` returns; afterwards
`size()` is `n - 1`, `operator[](j)` is unchanged for `j < i`, and for `i <= j < n - 1` it is
what `operator[](j + 1)` was: the modules after the erased one move down by one. -/
theorem remove_shifts_followers (ml : ModuleList) (i : Nat) (hi : i < ml.size) :
    ∃ ml2, ml.remove i = .returns ml2 ∧
      ml2.size = ml.size - 1 ∧
      (∀ j, j < i → ml2.get j = ml.get j) ∧
      (∀ j, i ≤ j → j < ml.size - 1 → ml2.get j = ml.get (j + 1)) := by
  have hi2 : i < ml.modules.length := hi
  refine ⟨{ ml with modules := ml.modules.eraseIdx i }, by simp [ModuleList.remove, hi2], ?_, ?_, ?_⟩
  · simp [ModuleList.size, List.length_eraseIdx, hi2]
  · intro j hj
    simp [ModuleList.get, List.getElem?_eraseIdx_of_lt _ _ _ hj]
  · intro j hj _
    simp [ModuleList.get, List.getElem?_eraseIdx_of_ge _ _ _ hj]

/-- Witness for C15: the middle one of three modules is removed. -/
theorem remove_shifts_followers_witness :
    ∃ ml2, (ModuleList.mk [deactivate, spawn, faulty] false).remove 1 = .returns ml2 ∧
      ml2.size = (ModuleList.mk [deactivate, spawn, faulty] false).size - 1 ∧
      (∀ j, j < 1 → ml2.get j = (ModuleList.mk [deactivate, spawn, faulty] false).get j) ∧
      (∀ j, 1 ≤ j → j < (ModuleList.mk [deactivate, spawn, faulty] false).size - 1 →
        ml2.get j = (ModuleList.mk [deactivate, spawn, faulty] false).get (j + 1)) :=
  remove_shifts_followers ⟨[deactivate, spawn, faulty], false⟩ 1 (by decide)

/-- C16, as amended: `remove` makes no range check and has no path that throws.  For an
index `i >= n` it erases at or past the end of the list, which is outside the defined
behaviour of the code: no error is raised at the call site, and nothing is promised about
the module list; for no index at all does `remove` raise an error. -/
theorem remove_out_of_range_unchecked (ml : ModuleList) (i : Nat) :
    (ml.size ≤ i → ml.remove i = .undefined) ∧ (∀ what, ml.remove i ≠ .raises what) := by
  constructor
  · intro h
    have : ¬ i < ml.modules.length := Nat.not_lt.2 h
    simp [ModuleList.remove, this]
  · intro what h
    unfold ModuleList.remove at h
    split at h <;> cases h

/-- Counterexample to C16 as stated: a list of one module and the index 3; `remove` raises
no error. -/
theorem remove_out_of_range_raises_nothing :
    (ModuleList.mk [deactivate] false).size ≤ 3 ∧
    ∀ what, (ModuleList.mk [deactivate] false).remove 3 ≠ .raises what := by
  refine ⟨by decide, ?_⟩
  intro what h
  simp [ModuleList.remove] at h

/-- Witness for the amended C16. -/
theorem remove_out_of_range_unchecked_witness :
    (ModuleList.mk [deactivate] false).remove 3 = .undefined :=
  (remove_out_of_range_unchecked ⟨[deactivate], false⟩ 3).1 (by decide)

theorem modules_foldl_add (ms : List Module) (ml : ModuleList) :
    (ms.foldl ModuleList.add ml).modules = ml.modules ++ ms ∧
      (ms.foldl ModuleList.add ml).showProgress = ml.showProgress := by
  induction ms generalizing ml with
  | nil => simp
  | cons m ms ih =>
    rw [List.foldl_cons]
    obtain ⟨h1, h2⟩ := ih (ml.add m)
    rw [h1, h2]
    simp [ModuleList.add]

/-- C17: `add` appends.  After `add(m)` on a list of size `n` the size is `n + 1`,
`operator[](n)` is `m` and `operator[](j)` is what it was for every `j < n`.  Hence after
`add(m0)`, ..., `add(m(k-1))` on an empty list `operator[](j)` is `mj`, and `process` calls
the modules in that insertion order. -/
theorem add_appends (ml : ModuleList) (m : Module) (ms : List Module) :
    (ml.add m).size = ml.size + 1 ∧
    (ml.add m).get ml.size = .returns m ∧
    (∀ j, j < ml.size → (ml.add m).get j = ml.get j) ∧
    (∀ j (h : j < ms.length), (ms.foldl ModuleList.add ModuleList.empty).get j = .returns ms[j]) ∧
    (∀ c s, process (ms.foldl ModuleList.add ModuleList.empty) c s = processFrom c ms 0 s) := by
  have hfold := (modules_foldl_add ms ModuleList.empty).1
  simp only [ModuleList.empty, List.nil_append] at hfold
  refine ⟨by simp [ModuleList.add, ModuleList.size], ?_, ?_, ?_, ?_⟩
  · simp [ModuleList.add, ModuleList.size, ModuleList.get]
  · intro j hj
    have hj2 : j < ml.modules.length := hj
    simp [ModuleList.add, ModuleList.get, List.getElem?_append_left hj2]
  · intro j h
    simp [ModuleList.get, ModuleList.empty, hfold, List.getElem?_eq_getElem h]
  · intro c s
    simp [process, ModuleList.empty, hfold]

/-! ## C18: `getDescription` -/

theorem foldl_description_data (ms : List Module) (start : String) :
    (ms.foldl (fun ss m => ss ++ "  " ++ m.getDescription ++ "\n") start).data =
      start.data ++ (ms.map (fun m => "  ".data ++ m.getDescription.data ++ "\n".data)).flatten := by
  induction ms generalizing start with
  | nil => simp
  | cons m ms ih =>
    rw [List.foldl_cons, ih]
    simp [String.data_append, List.append_assoc]

theorem count_join_descriptions (ms : List Module) :
    ((ms.map (fun m => "  ".data ++ m.getDescription.data ++ "\n".data)).flatten).count '\n' =
      ms.length + (ms.map (fun m => newlines m.getDescription)).sum := by
  induction ms with
  | nil => rfl
  | cons m ms ih =>
    simp only [List.map_cons, List.flatten_cons, List.count_append, ih, List.length_cons,
      List.sum_cons, newlines]
    have h1 : "  ".data.count '\n' = 0 := by decide
    have h2 : "\n".data.count '\n' = 1 := by decide
    rw [h1, h2]
    omega

/-- C18, as amended: `ModuleList::getDescription()` returns the header line `ModuleList`
followed, for each module in insertion order, by two blanks, that module's
`getDescription()` and a newline.  The number of newline-terminated lines of the string is
`n + 1` plus the number of newlines inside the descriptions of the modules: it is exactly
`n + 1` when no description contains a newline (the description of a `ModuleListRunner`
contains some). -/
theorem getDescription_lines (ml : ModuleList) :
    ml.getDescription.data =
      "ModuleList\n".data ++
        (ml.modules.map (fun m => "  ".data ++ m.getDescription.data ++ "\n".data)).flatten ∧
    newlines ml.getDescription =
      ml.size + 1 + (ml.modules.map (fun m => newlines m.getDescription)).sum ∧
    ((∀ m ∈ ml.modules, newlines m.getDescription = 0) →
      newlines ml.getDescription = ml.size + 1) := by
  have hdata := foldl_description_data ml.modules "ModuleList\n"
  have hcount : newlines ml.getDescription =
      ml.size + 1 + (ml.modules.map (fun m => newlines m.getDescription)).sum := by
    unfold newlines ModuleList.getDescription
    rw [hdata, List.count_append, count_join_descriptions]
    have h1 : "ModuleList\n".data.count '\n' = 1 := by decide
    rw [h1]
    simp only [newlines, ModuleList.size]
    omega
  refine ⟨hdata, hcount, ?_⟩
  intro h
  rw [hcount]
  have hz : (ml.modules.map (fun m => newlines m.getDescription)).sum = 0 := by
    apply List.sum_eq_zero
    intro x hx
    obtain ⟨m, hm, rfl⟩ := List.mem_map.1 hx
    exact h m hm
  omega

/-- Counterexample to C18 as stated: a pipeline of one module, a `ModuleListRunner` that
holds an empty module list.  Its description has four newline-terminated lines, not two. -/
theorem getDescription_runner_lines :
    (ModuleList.mk [⟨fun _ st => ⟨st, [], none⟩,
        (ModuleListRunner.mk (some ModuleList.empty)).getDescription⟩] false).getDescription
      = "ModuleList\n  ModuleListRunner\nModuleList\n\n" ∧
    newlines (ModuleList.mk [⟨fun _ st => ⟨st, [], none⟩,
        (ModuleListRunner.mk (some ModuleList.empty)).getDescription⟩] false).getDescription
      = 4 := by
  decide

/-- Witness for the amended C18: pipelines of zero, one and three modules with one-line
descriptions. -/
theorem getDescription_lines_witness :
    ModuleList.empty.getDescription = "ModuleList\n" ∧
    (ModuleList.mk [deactivate] false).getDescription = "ModuleList\n  Deactivate\n" ∧
    (ModuleList.mk [deactivate, spawn, faulty] false).getDescription =
      "ModuleList\n  Deactivate\n  Spawn\n  Faulty\n" ∧
    newlines (ModuleList.mk [deactivate, spawn, faulty] false).getDescription =
      (ModuleList.mk [deactivate, spawn, faulty] false).size + 1 :=
  ⟨by decide, by decide, by decide,
    (getDescription_lines ⟨[deactivate, spawn, faulty], false⟩).2.2 (by
      intro m hm
      simp only [List.mem_cons, List.mem_singleton, List.not_mem_nil, or_false] at hm
      rcases hm with rfl | rfl | rfl <;> decide)⟩

/-! ## C19: `SourceList::getCandidate` -/

/-- C19: on a `SourceList` without sources `getCandidate()` throws "SourceList: no sources
set" for every state of the random number generator and returns no candidate; with at
least one source it draws an index `i` from the cumulative weights and hands back what
`sources[i].getCandidate()` produces (the candidate, or the exception of that call). -/
theorem sourceList_getCandidate (randBin : List Double → Rng → Nat × Rng) (sl : SourceList)
    (rng : Rng) :
    (sl.sources = [] →
      sl.getCandidate randBin rng = .raises "SourceList: no sources set") ∧
    (sl.sources ≠ [] → ∀ src, sl.sources[(randBin sl.cdf rng).1]? = some src →
      sl.getCandidate randBin rng =
        match src.getCandidate (randBin sl.cdf rng).2 with
        | .ok r => .returns r
        | .error e => .raises e) := by
  constructor
  · intro h
    simp [SourceList.getCandidate, h]
  · intro h src hsrc
    have hlen : ¬ sl.sources.length = 0 := fun h0 => h (List.length_eq_zero.1 h0)
    simp only [SourceList.getCandidate, hlen, if_false, hsrc]

/-- Witness for C19: the empty list throws; a list with one source that has no feature
returns the fresh candidate of that source. -/
theorem sourceList_getCandidate_witness :
    SourceList.empty.getCandidate (fun _ rng => (0, rng + 1)) 5 =
      .raises "SourceList: no sources set" ∧
    (SourceList.empty.add ⟨[]⟩ (.finite 1)).getCandidate (fun _ rng => (0, rng + 1)) 5 =
      .returns (Candidate.fresh, 6) :=
  ⟨(sourceList_getCandidate (fun _ rng => (0, rng + 1)) SourceList.empty 5).1 rfl,
   (sourceList_getCandidate (fun _ rng => (0, rng + 1)) (SourceList.empty.add ⟨[]⟩ (.finite 1)) 5).2
     (by simp [SourceList.add, SourceList.empty]) ⟨[]⟩ rfl⟩

/-! ## C11: failures in the run from a source -/

/-- Once the token is set, every remaining iteration of the source loop is skipped: no
candidate is requested and nothing is run. -/
theorem runSourceLoop_cancelled (ml : ModuleList) (src : SourceInterface) (dflt : Bool)
    (f : Nat) (recursive : Bool) (n : Nat) (a : SourceRun)
    (h : a.state.g_cancel_signal_flag ≠ 0) :
    runSourceLoop ml src dflt f recursive n a = some a := by
  induction n with
  | zero => rfl
  | succ n ih => rw [runSourceLoop, if_pos h, ih]

/-- The iterations of the source loop follow one another. -/
theorem runSourceLoop_add (ml : ModuleList) (src : SourceInterface) (dflt : Bool) (f : Nat)
    (recursive : Bool) (m : Nat) :
    ∀ k a, runSourceLoop ml src dflt f recursive (k + m) a =
      (runSourceLoop ml src dflt f recursive k a).bind (runSourceLoop ml src dflt f recursive m) := by
  intro k
  induction k with
  | zero => intro a; simp [runSourceLoop]
  | succ k ih =>
    intro a
    have hkm : k + 1 + m = (k + m) + 1 := by omega
    rw [hkm, runSourceLoop, runSourceLoop]
    split
    · exact ih a
    · split
      · exact ih _
      · exact ih _
      · split
        · exact ih _
        · exact ih _
        · rfl

theorem runSource_of_loop (ml : ModuleList) (src : SourceInterface) (dflt : Bool) (f : Nat)
    (count : Nat) (recursive secondariesFirst : Bool) (early : List Int) (s : State) (rng : Rng)
    (a : SourceRun)
    (h : runSourceLoop ml src dflt f recursive count (SourceRun.start early s rng) = some a) :
    runSource ml src dflt f count recursive secondariesFirst early s rng =
      some { loop := { a with state := { a.state with handler := s.handler } },
             raised := if a.state.g_cancel_signal_flag > 0
                       then some a.state.g_cancel_signal_flag else none } := by
  simp only [runSource, h]

/-- C11: the run from a source, with `k` iterations done and the token still 0.  If
`source->getCandidate()` throws in iteration `k`, no module is called in that iteration (the
trace grows by the report of the caught exception only), the token is set to -1, and none
of the `m` later iterations requests a candidate or runs anything: the call returns with the
token -1 (so nothing is raised), with the store of iteration `k` and with one more call of
`getCandidate` than before.  If instead the per-candidate run of iteration `k` throws, its
exception is caught and the token is set to -1 in the same way, and the later iterations
are skipped as well. -/
theorem runSource_failure_stops_dispatch (ml : ModuleList) (src : SourceInterface)
    (dflt : Bool) (f k m : Nat) (recursive secondariesFirst : Bool) (early : List Int)
    (s : State) (rng : Rng) (ak : SourceRun)
    (hpre : runSourceLoop ml src dflt f recursive k (SourceRun.start early s rng) = some ak)
    (h0 : ak.state.g_cancel_signal_flag = 0) :
    (∀ e, (src.getCandidate ak.rng).result = .error e →
      ∃ res, runSource ml src dflt f (k + (m + 1)) recursive secondariesFirst early s rng
          = some res ∧
        res.loop.state.g_cancel_signal_flag = -1 ∧ res.raised = none ∧
        res.loop.state.store = ak.state.store ∧
        res.loop.state.trace.map Step.ev = ak.state.trace.map Step.ev ++ [.caught e] ∧
        res.loop.draws = ak.draws + 1) ∧
    (∀ cand e s1, (src.getCandidate ak.rng).result = .ok (some cand) →
      run ml f [ak.state.store.length] recursive dflt
        { (deliver (src.getCandidate ak.rng).signals ak.state) with
          store := ak.state.store ++ [cand] } = .threw e s1 →
      ∃ res, runSource ml src dflt f (k + (m + 1)) recursive secondariesFirst early s rng
          = some res ∧
        res.loop.state.g_cancel_signal_flag = -1 ∧ res.raised = none ∧
        res.loop.state.store = s1.store ∧
        res.loop.state.trace.map Step.ev = s1.trace.map Step.ev ++ [.caught e] ∧
        res.loop.draws = ak.draws + 1) := by
  have hsplit : runSourceLoop ml src dflt f recursive (k + (m + 1)) (SourceRun.start early s rng)
      = runSourceLoop ml src dflt f recursive (m + 1) ak := by
    rw [runSourceLoop_add, hpre]
    rfl
  constructor
  · intro e he
    have hloop : runSourceLoop ml src dflt f recursive (m + 1) ak =
        some { state := { ((deliver (src.getCandidate ak.rng).signals ak.state).log
                            (.caught e)) with g_cancel_signal_flag := -1 },
               rng := (src.getCandidate ak.rng).rng,
               progress := if ml.showProgress then ak.progress + 1 else ak.progress,
               draws := ak.draws + 1,
               heard := ak.heard ++ (src.getCandidate ak.rng).signals } := by
      rw [runSourceLoop, if_neg (by simpa using h0)]
      simp only [he]
      exact runSourceLoop_cancelled ml src dflt f recursive m _ (by simp)
    refine ⟨_, runSource_of_loop ml src dflt f _ recursive secondariesFirst early s rng _
      (hsplit.trans hloop), ?_, ?_, ?_, ?_, ?_⟩ <;> simp
  · intro cand e s1 hc hrun
    have hloop : runSourceLoop ml src dflt f recursive (m + 1) ak =
        some { state := { (s1.log (.caught e)) with g_cancel_signal_flag := -1 },
               rng := (src.getCandidate ak.rng).rng,
               progress := if ml.showProgress then ak.progress + 1 else ak.progress,
               draws := ak.draws + 1,
               heard := ak.heard ++ (src.getCandidate ak.rng).signals ++
                 received ml (s1.trace.drop ak.state.trace.length) } := by
      rw [runSourceLoop, if_neg (by simpa using h0)]
      simp only [hc, hrun]
      exact runSourceLoop_cancelled ml src dflt f recursive m _ (by simp)
    refine ⟨_, runSource_of_loop ml src dflt f _ recursive secondariesFirst early s rng _
      (hsplit.trans hloop), ?_, ?_, ?_, ?_, ?_⟩ <;> simp

/-- Witness for C11: five iterations requested; the source throws at its call number 1. -/
theorem runSource_failure_stops_dispatch_witness :
    ∃ res, runSource ⟨[deactivate], false⟩ failingSource true 3 (1 + (3 + 1)) true true []
        (State.init []) 0 = some res ∧
      res.loop.state.g_cancel_signal_flag = -1 ∧ res.raised = none ∧
      res.loop.state.trace.map Step.ev =
        [.enter [0], .call 0 [0], .leave [0]] ++ [.caught "source failed"] ∧
      res.loop.draws = 1 + 1 := by
  obtain ⟨res, h1, h2, h3, _, h5, h6⟩ :=
    (runSource_failure_stops_dispatch ⟨[deactivate], false⟩ failingSource true 3 1 3 true true []
      (State.init []) 0
      ((runSourceLoop ⟨[deactivate], false⟩ failingSource true 3 true 1
        (SourceRun.start [] (State.init []) 0)).getD (SourceRun.start [] (State.init []) 0))
      rfl rfl).1 "source failed" rfl
  exact ⟨res, h1, h2, h3, h5, h6⟩

/-- The run from a source of C11 when the pipeline throws: the first candidate fails, the
token is set to -1 and the two later iterations request nothing. -/
theorem runSource_module_failure_example :
    ∃ res, runSource ⟨[faulty], false⟩ steadySource true 3 3 true true [] (State.init []) 0
        = some res ∧
      res.loop.state.trace.map Step.ev =
        [.enter [0], .call 0 [0], .caught "faulty module"] ∧
      res.loop.state.g_cancel_signal_flag = -1 ∧ res.loop.draws = 1 ∧ res.raised = none :=
  ⟨_, rfl, by decide, by decide, by decide, by decide⟩

/-! ## C12: the population-level runs and `secondariesFirst` -/

/-- C12, the code at the failing input: a collection of one candidate that is inactive
and owns an active secondary, `recursive = true`, and the caller's `secondariesFirst` set to
the opposite of the default of the single-lineage `run`.  Whatever that default is, the
collection run leaves the secondary in another state than `run(candidate, recursive,
secondariesFirst)` with the caller's flags does: the per-candidate call passes `recursive`
only. -/
theorem runCollection_ignores_secondariesFirst :
    ∀ dflt : Bool,
      ∃ res, runCollection ⟨[deactivate], false⟩ dflt 3 [[0]] true (!dflt) []
          (State.init [.mk false 0 [.mk true 1 []]]) = some res ∧
        isActive res.state.store [0, 0] ≠
          isActive (run ⟨[deactivate], false⟩ 3 [0] true (!dflt)
            (State.init [.mk false 0 [.mk true 1 []]])).state.store [0, 0] := by
  intro dflt
  cases dflt
  · exact ⟨_, rfl, by decide⟩
  · exact ⟨_, rfl, by decide⟩

/-- The same defect seen in the order of the calls, for a default of `true`: the caller asks
for `secondariesFirst = false`, yet the secondary `[0, 0]` is run while its primary `[0]` is
still active.  The single-lineage run with `secondariesFirst = false` runs it after the
last step of the primary. -/
theorem runCollection_ignores_secondariesFirst_order :
    ∃ res, runCollection ⟨[cascade], false⟩ true 4 [[0]] true false []
        (State.init [.mk true 1 []]) = some res ∧
      res.state.trace.map Step.ev =
        [.enter [0], .call 0 [0], .enter [0, 0], .call 0 [0, 0], .leave [0, 0],
         .call 0 [0], .enter [0, 0], .leave [0, 0], .leave [0]] ∧
      (∃ x ∈ res.state.trace, x.ev = .enter [0, 0] ∧ isActive x.store [0] = true) ∧
      (run ⟨[cascade], false⟩ 4 [0] true false (State.init [.mk true 1 []])).state.trace.map
          Step.ev =
        [.enter [0], .call 0 [0], .call 0 [0], .enter [0, 0], .call 0 [0, 0], .leave [0, 0],
         .leave [0]] :=
  ⟨_, rfl, by decide, by decide, by decide⟩

/-- The run from a source drops the caller's `secondariesFirst` in the same way. -/
theorem runSource_ignores_secondariesFirst :
    ∀ secondariesFirst : Bool,
      runSource ⟨[cascade], false⟩ steadySource true 4 1 true secondariesFirst []
          (State.init []) 0 =
        runSource ⟨[cascade], false⟩ steadySource true 4 1 true true [] (State.init []) 0 :=
  fun _ => rfl

/-! ## C13: the token, once set, stays set -/

theorem tokenKept_refl (s : State) : TokenKept s s :=
  ⟨[], by simp, List.Pairwise.nil, by simp, fun h => h⟩

theorem tokenKept_trans (a b d : State) (h1 : TokenKept a b) (h2 : TokenKept b d) :
    TokenKept a d := by
  obtain ⟨e1, t1, p1, m1, l1⟩ := h1
  obtain ⟨e2, t2, p2, m2, l2⟩ := h2
  refine ⟨e1 ++ e2, by rw [t2, t1, List.append_assoc], ?_, ?_, fun h => l2 (l1 h)⟩
  · rw [List.pairwise_append]
    exact ⟨p1, p2, fun x hx y hy h => (m2 y hy).1 ((m1 x hx).2 h)⟩
  · intro x hx
    rcases List.mem_append.1 hx with h | h
    · exact ⟨(m1 x h).1, fun hx0 => l2 ((m1 x h).2 hx0)⟩
    · exact ⟨fun ha => (m2 x h).1 (l1 ha), (m2 x h).2⟩

/-- A step that records nothing and does not clear the token. -/
theorem tokenKept_silent (s s1 : State) (ht : s1.trace = s.trace)
    (hf : s.g_cancel_signal_flag ≠ 0 → s1.g_cancel_signal_flag ≠ 0) : TokenKept s s1 :=
  ⟨[], by simp [ht], List.Pairwise.nil, by simp, hf⟩

/-- A step that records one entry, showing the token of `s`, and does not clear the
token. -/
theorem tokenKept_step (s s1 : State) (e : Event)
    (ht : s1.trace = s.trace ++ [⟨e, s.store, s.g_cancel_signal_flag⟩])
    (hf : s.g_cancel_signal_flag ≠ 0 → s1.g_cancel_signal_flag ≠ 0) : TokenKept s s1 := by
  refine ⟨[⟨e, s.store, s.g_cancel_signal_flag⟩], ht, List.pairwise_singleton _ _, ?_, hf⟩
  intro x hx
  simp only [List.mem_singleton] at hx
  subst hx
  exact ⟨fun h => h, hf⟩

theorem deliver_flag_ne_zero (sigs : List Int) (s : State) (hs : ∀ sig ∈ sigs, sig ≠ 0)
    (h : s.g_cancel_signal_flag ≠ 0) : (deliver sigs s).g_cancel_signal_flag ≠ 0 := by
  rw [deliver_flag]
  split
  · cases hl : sigs.getLast? with
    | none => simpa using h
    | some x => simpa using hs x (List.mem_of_getLast?_eq_some hl)
  · exact h

theorem process_tokenKept (ml : ModuleList) (hsig : NonzeroSignals ml) (c : Ptr) (s : State) :
    TokenKept s (process ml c s).state := by
  unfold process
  refine processFrom_rel _ tokenKept_refl tokenKept_trans c ml.modules ?_ 0 s
  intro m hm k t
  refine tokenKept_step t _ (.call k c) (by simp) ?_
  intro h
  unfold invoke
  exact deliver_flag_ne_zero _ _ (hsig m hm c t.store) (by simpa using h)

theorem run_tokenKept (ml : ModuleList) (hsig : NonzeroSignals ml) (f : Nat) (c : Ptr)
    (recursive secondariesFirst : Bool) (s : State) :
    TokenKept s (run ml f c recursive secondariesFirst s).state :=
  run_rel _ tokenKept_refl tokenKept_trans ml recursive secondariesFirst (fun _ => True)
    (fun _ _ _ _ => trivial)
    (fun _ t _ => ⟨tokenKept_step t _ _ rfl (fun h => h), tokenKept_step t _ _ rfl (fun h => h)⟩)
    (fun q t _ _ _ => process_tokenKept ml hsig q t) f c s trivial

theorem runCollectionLoop_tokenKept (ml : ModuleList) (hsig : NonzeroSignals ml) (dflt : Bool)
    (f : Nat) (recursive : Bool) :
    ∀ (cands : List Ptr) (s s2 : State) (n n2 : Nat),
      runCollectionLoop ml dflt f recursive cands s n = some (s2, n2) → TokenKept s s2 := by
  intro cands
  induction cands with
  | nil =>
    intro s s2 n n2 h
    simp only [runCollectionLoop, Option.some.injEq, Prod.mk.injEq] at h
    rw [← h.1]
    exact tokenKept_refl s
  | cons c cs ih =>
    intro s s2 n n2 h
    rw [runCollectionLoop] at h
    split at h
    · exact ih _ _ _ _ h
    · have hr := run_tokenKept ml hsig f c recursive dflt s
      split at h
      · rename_i s1 heq
        rw [heq] at hr
        exact tokenKept_trans _ _ _ hr (ih _ _ _ _ h)
      · rename_i e s1 heq
        rw [heq] at hr
        exact tokenKept_trans _ _ _ hr
          (tokenKept_trans _ _ _
            (tokenKept_step s1 (s1.log (.caught e)) (.caught e) rfl (fun h => h))
            (ih _ _ _ _ h))
      · cases h

theorem runSourceLoop_tokenKept (ml : ModuleList) (hsig : NonzeroSignals ml)
    (src : SourceInterface) (hsrc : NonzeroDraws src) (dflt : Bool) (f : Nat) (recursive : Bool) :
    ∀ (n : Nat) (a a2 : SourceRun),
      runSourceLoop ml src dflt f recursive n a = some a2 → TokenKept a.state a2.state := by
  intro n
  induction n with
  | zero =>
    intro a a2 h
    simp only [runSourceLoop, Option.some.injEq] at h
    rw [← h]
    exact tokenKept_refl _
  | succ n ih =>
    intro a a2 h
    rw [runSourceLoop] at h
    have hd : TokenKept a.state (deliver (src.getCandidate a.rng).signals a.state) :=
      tokenKept_silent _ _ (by simp)
        (deliver_flag_ne_zero _ _ (hsrc a.rng))
    split at h
    · exact ih _ _ h
    · split at h
      · rename_i e _
        refine tokenKept_trans _ _ _ hd (tokenKept_trans _ _ _ ?_ (ih _ _ h))
        exact tokenKept_step _ _ (.caught e) rfl (fun _ => by simp)
      · exact tokenKept_trans _ _ _ hd (ih _ _ h)
      · rename_i cand _
        have hst : TokenKept (deliver (src.getCandidate a.rng).signals a.state)
            { (deliver (src.getCandidate a.rng).signals a.state) with
              store := a.state.store ++ [cand] } :=
          tokenKept_silent _ _ rfl (fun h => h)
        have hr := run_tokenKept ml hsig f [a.state.store.length] recursive dflt
          { (deliver (src.getCandidate a.rng).signals a.state) with
            store := a.state.store ++ [cand] }
        split at h
        · rename_i s1 heq
          rw [heq] at hr
          exact tokenKept_trans _ _ _ hd (tokenKept_trans _ _ _ hst
            (tokenKept_trans _ _ _ hr (ih _ _ h)))
        · rename_i e s1 heq
          rw [heq] at hr
          refine tokenKept_trans _ _ _ hd (tokenKept_trans _ _ _ hst
            (tokenKept_trans _ _ _ hr (tokenKept_trans _ _ _ ?_ (ih _ _ h))))
          exact tokenKept_step _ _ (.caught e) rfl (fun _ => by simp)
        · cases h

/-- C13: both population-level runs set the token to 0 before their first iteration (the
value it has when the call is made plays no part), and, the signals delivered having
non-zero numbers, every later write stores a non-zero value: the handler stores the signal
number, a worker that catches an exception stores -1.  Hence along the calls that a run
adds to the trace, a token that is non-zero at one call is non-zero at every later call and
when the run returns. -/
theorem population_token_stays_set (ml : ModuleList) (hsig : NonzeroSignals ml)
    (src : SourceInterface) (hsrc : NonzeroDraws src) (dflt : Bool) (f : Nat)
    (candidates : List Ptr) (count : Nat) (recursive secondariesFirst : Bool)
    (early : List Int) (s : State) (rng : Rng) :
    (∀ v, runCollection ml dflt f candidates recursive secondariesFirst early
        { s with g_cancel_signal_flag := v } =
      runCollection ml dflt f candidates recursive secondariesFirst early s) ∧
    (∀ v, runSource ml src dflt f count recursive secondariesFirst early
        { s with g_cancel_signal_flag := v } rng =
      runSource ml src dflt f count recursive secondariesFirst early s rng) ∧
    (∀ res, runCollection ml dflt f candidates recursive secondariesFirst early s = some res →
      ∃ evs, res.state.trace = s.trace ++ evs ∧
        List.Pairwise
          (fun x y => x.g_cancel_signal_flag ≠ 0 → y.g_cancel_signal_flag ≠ 0) evs ∧
        ∀ x ∈ evs, x.g_cancel_signal_flag ≠ 0 → res.state.g_cancel_signal_flag ≠ 0) ∧
    (∀ res, runSource ml src dflt f count recursive secondariesFirst early s rng = some res →
      ∃ evs, res.loop.state.trace = s.trace ++ evs ∧
        List.Pairwise
          (fun x y => x.g_cancel_signal_flag ≠ 0 → y.g_cancel_signal_flag ≠ 0) evs ∧
        ∀ x ∈ evs, x.g_cancel_signal_flag ≠ 0 → res.loop.state.g_cancel_signal_flag ≠ 0) := by
  refine ⟨fun _ => rfl, fun _ => rfl, ?_, ?_⟩
  · intro res hres
    unfold runCollection at hres
    split at hres
    · cases hres
    · rename_i s1 n heq
      cases hres
      obtain ⟨evs, h1, h2, h3, _⟩ := runCollectionLoop_tokenKept ml hsig dflt f recursive
        candidates _ s1 0 n heq
      exact ⟨evs, by simpa using h1, h2, fun x hx => (h3 x hx).2⟩
  · intro res hres
    unfold runSource at hres
    split at hres
    · cases hres
    · rename_i a heq
      cases hres
      obtain ⟨evs, h1, h2, h3, _⟩ := runSourceLoop_tokenKept ml hsig src hsrc dflt f recursive
        count _ a heq
      exact ⟨evs, by simpa [SourceRun.start] using h1, h2, fun x hx => (h3 x hx).2⟩

theorem nonzeroSignals_interrupted (b : Bool) : NonzeroSignals ⟨[interrupted], b⟩ := by
  intro m hm c st sig hs
  simp only [List.mem_singleton] at hm
  subst hm
  simp only [interrupted, List.mem_singleton] at hs
  subst hs
  decide

theorem nonzeroDraws_steadySource : NonzeroDraws steadySource := by
  intro rng sig hs
  simp [steadySource] at hs

/-- Witness for C13: SIGINT arrives while the first of three candidates from the source is
processed; the token is 2 from then on and the later iterations are skipped. -/
theorem population_token_stays_set_witness :
    ∃ res, runSource ⟨[interrupted], false⟩ steadySource true 3 3 true true []
        (State.init []) 0 = some res ∧
      res.loop.state.g_cancel_signal_flag = 2 ∧ res.loop.draws = 1 ∧
      ∃ evs, res.loop.state.trace = [] ++ evs ∧
        List.Pairwise
          (fun x y => x.g_cancel_signal_flag ≠ 0 → y.g_cancel_signal_flag ≠ 0) evs ∧
        ∀ x ∈ evs, x.g_cancel_signal_flag ≠ 0 → res.loop.state.g_cancel_signal_flag ≠ 0 :=
  ⟨_, rfl, by decide, by decide,
    (population_token_stays_set ⟨[interrupted], false⟩ (nonzeroSignals_interrupted false)
      steadySource nonzeroDraws_steadySource true 3 [] 3 true true [] (State.init []) 0).2.2.2
      _ rfl⟩

/-! ## C14: the signal raised after the loop -/

theorem received_append (ml : ModuleList) (a b : List Step) :
    received ml (a ++ b) = received ml a ++ received ml b := by
  simp [received]

theorem getLast_append_getD (a b : List Int) (x : Int) :
    (a ++ b).getLast?.getD x = b.getLast?.getD (a.getLast?.getD x) := by
  rw [List.getLast?_append]
  cases b.getLast? <;> rfl

theorem lastHeard_refl (ml : ModuleList) (s : State) : LastHeard ml s s :=
  ⟨[], by simp, rfl, fun _ => rfl⟩

theorem lastHeard_trans (ml : ModuleList) (a b d : State) (h1 : LastHeard ml a b)
    (h2 : LastHeard ml b d) : LastHeard ml a d := by
  obtain ⟨e1, t1, k1, f1⟩ := h1
  obtain ⟨e2, t2, k2, f2⟩ := h2
  refine ⟨e1 ++ e2, by rw [t2, t1, List.append_assoc], k2.trans k1, fun h => ?_⟩
  rw [received_append, getLast_append_getD, f2 (k1.trans h), f1 h]

theorem lastHeard_log (ml : ModuleList) (s : State) (e : Event)
    (he : ∀ k c, e ≠ .call k c) : LastHeard ml s (s.log e) := by
  refine ⟨[⟨e, s.store, s.g_cancel_signal_flag⟩], rfl, rfl, fun _ => ?_⟩
  cases e with
  | call k c => exact absurd rfl (he k c)
  | enter c => rfl
  | leave c => rfl
  | caught w => rfl

theorem lastHeard_invoke (ml : ModuleList) (m : Module) (k : Nat) (c : Ptr) (s : State)
    (hm : ml.modules[k]? = some m) : LastHeard ml s (invoke m k c s) := by
  refine ⟨[⟨.call k c, s.store, s.g_cancel_signal_flag⟩], by simp, by simp, fun h => ?_⟩
  unfold invoke
  rw [deliver_flag]
  simp [received, hm, h]

theorem processFrom_lastHeard (ml : ModuleList) (c : Ptr) :
    ∀ (ms : List Module) (k : Nat) (s : State), (∀ j, ms[j]? = ml.modules[k + j]?) →
      LastHeard ml s (processFrom c ms k s).state := by
  intro ms
  induction ms with
  | nil => intro k s _; exact lastHeard_refl ml s
  | cons m ms ih =>
    intro k s hk
    have h1 : LastHeard ml s (invoke m k c s) :=
      lastHeard_invoke ml m k c s (by simpa using (hk 0).symm)
    have hk1 : ∀ j, ms[j]? = ml.modules[k + 1 + j]? := by
      intro j
      have := hk (j + 1)
      rw [List.getElem?_cons_succ] at this
      rw [this]
      congr 1
      omega
    unfold processFrom
    split
    · exact h1
    · exact lastHeard_trans ml _ _ _ h1 (ih (k + 1) _ hk1)

theorem process_lastHeard (ml : ModuleList) (c : Ptr) (s : State) :
    LastHeard ml s (process ml c s).state :=
  processFrom_lastHeard ml c ml.modules 0 s (fun j => by rw [Nat.zero_add])

theorem run_lastHeard (ml : ModuleList) (f : Nat) (c : Ptr) (recursive secondariesFirst : Bool)
    (s : State) : LastHeard ml s (run ml f c recursive secondariesFirst s).state :=
  run_rel _ (lastHeard_refl ml) (lastHeard_trans ml) ml recursive secondariesFirst
    (fun _ => True) (fun _ _ _ _ => trivial)
    (fun _ t _ => ⟨lastHeard_log ml t _ (fun _ _ h => by cases h),
      lastHeard_log ml t _ (fun _ _ h => by cases h)⟩)
    (fun q t _ _ _ => process_lastHeard ml q t) f c s trivial

theorem runCollectionLoop_lastHeard (ml : ModuleList) (dflt : Bool) (f : Nat)
    (recursive : Bool) :
    ∀ (cands : List Ptr) (s s2 : State) (n n2 : Nat),
      runCollectionLoop ml dflt f recursive cands s n = some (s2, n2) → LastHeard ml s s2 := by
  intro cands
  induction cands with
  | nil =>
    intro s s2 n n2 h
    simp only [runCollectionLoop, Option.some.injEq, Prod.mk.injEq] at h
    rw [← h.1]
    exact lastHeard_refl ml s
  | cons c cs ih =>
    intro s s2 n n2 h
    rw [runCollectionLoop] at h
    split at h
    · exact ih _ _ _ _ h
    · have hr := run_lastHeard ml f c recursive dflt s
      split at h
      · rename_i s1 heq
        rw [heq] at hr
        exact lastHeard_trans ml _ _ _ hr (ih _ _ _ _ h)
      · rename_i e s1 heq
        rw [heq] at hr
        exact lastHeard_trans ml _ _ _ hr
          (lastHeard_trans ml _ _ _
            (lastHeard_log ml s1 (.caught e) (fun _ _ h => by cases h))
            (ih _ _ _ _ h))
      · cases h

theorem runSourceLoop_lastHeard (ml : ModuleList) (src : SourceInterface) (dflt : Bool)
    (f : Nat) (recursive : Bool) :
    ∀ (n : Nat) (a a2 : SourceRun),
      runSourceLoop ml src dflt f recursive n a = some a2 → a.state.handler = true →
      a.state.g_cancel_signal_flag = a.heard.getLast?.getD 0 →
      a2.state.handler = true ∧ ∃ evs, a2.state.trace = a.state.trace ++ evs ∧
        (a2.state.g_cancel_signal_flag = a2.heard.getLast?.getD 0 ∨
          (a2.state.g_cancel_signal_flag = -1 ∧ ∃ x ∈ evs, ∃ e, x.ev = .caught e)) := by
  intro n
  induction n with
  | zero =>
    intro a a2 h hh hf
    simp only [runSourceLoop, Option.some.injEq] at h
    subst h
    exact ⟨hh, [], by simp, Or.inl hf⟩
  | succ n ih =>
    intro a a2 h hh hf
    rw [runSourceLoop] at h
    have hdf : (deliver (src.getCandidate a.rng).signals a.state).g_cancel_signal_flag =
        (a.heard ++ (src.getCandidate a.rng).signals).getLast?.getD 0 := by
      rw [deliver_flag, if_pos hh, getLast_append_getD, hf]
    split at h
    · exact ih _ _ h hh hf
    · split at h
      · rename_i e _
        rw [runSourceLoop_cancelled _ _ _ _ _ _ _ (by simp)] at h
        simp only [Option.some.injEq] at h
        subst h
        exact ⟨by simpa using hh,
          [⟨.caught e, (deliver (src.getCandidate a.rng).signals a.state).store,
            (deliver (src.getCandidate a.rng).signals a.state).g_cancel_signal_flag⟩],
          by simp, Or.inr ⟨rfl, _, List.mem_singleton_self _, e, rfl⟩⟩
      · obtain ⟨h1, evs, h2, h3⟩ := ih _ _ h (by simpa using hh) hdf
        exact ⟨h1, evs, by simpa using h2, h3⟩
      · rename_i cand _
        have hr := run_lastHeard ml f [a.state.store.length] recursive dflt
          { (deliver (src.getCandidate a.rng).signals a.state) with
            store := a.state.store ++ [cand] }
        split at h
        · rename_i s1 heq
          rw [heq] at hr
          obtain ⟨ev1, t1, k1, f1⟩ := hr
          simp only [Result.state, deliver_trace, deliver_handler] at t1 k1 f1
          have hdrop : s1.trace.drop a.state.trace.length = ev1 := by
            rw [t1, List.drop_left]
          obtain ⟨h1, evs, h2, h3⟩ := ih _ _ h (k1.trans hh) (by
            dsimp only
            rw [hdrop, getLast_append_getD, f1 hh, hdf])
          refine ⟨h1, ev1 ++ evs, ?_, ?_⟩
          · rw [h2]
            dsimp only
            rw [t1, List.append_assoc]
          · rcases h3 with h3 | ⟨h3, x, hx, hc⟩
            · exact Or.inl h3
            · exact Or.inr ⟨h3, x, List.mem_append_right _ hx, hc⟩
        · rename_i e s1 heq
          rw [heq] at hr
          obtain ⟨ev1, t1, k1, _⟩ := hr
          simp only [Result.state, deliver_trace, deliver_handler] at t1 k1
          rw [runSourceLoop_cancelled _ _ _ _ _ _ _ (by simp)] at h
          simp only [Option.some.injEq] at h
          subst h
          refine ⟨by simpa using k1.trans hh,
            ev1 ++ [⟨.caught e, s1.store, s1.g_cancel_signal_flag⟩], ?_, Or.inr ⟨rfl, _,
            List.mem_append_right _ (List.mem_singleton_self _), e, rfl⟩⟩
          simp [t1]
        · cases h

/-- C14, as amended: the token holds one value, so what a population-level run re-raises
after its loop is the last signal delivered to the installed handler during the run (its
number being positive), unless, in the run from a source, a worker caught an error, which
sets the token to -1.  If no signal was delivered, nothing is raised: a token of 0 or of -1
raises nothing. -/
theorem population_raises_last_signal (ml : ModuleList) (src : SourceInterface) (dflt : Bool)
    (f : Nat) (candidates : List Ptr) (count : Nat) (recursive secondariesFirst : Bool)
    (early : List Int) (s : State) (rng : Rng) :
    (∀ res, runCollection ml dflt f candidates recursive secondariesFirst early s = some res →
      ∃ evs, res.state.trace = s.trace ++ evs ∧
        res.state.g_cancel_signal_flag = (early ++ received ml evs).getLast?.getD 0 ∧
        res.raised = (if res.state.g_cancel_signal_flag > 0
          then some res.state.g_cancel_signal_flag else none) ∧
        (∀ sig, (early ++ received ml evs).getLast? = some sig → 0 < sig →
          res.raised = some sig) ∧
        (early ++ received ml evs = [] → res.raised = none)) ∧
    (∀ res, runSource ml src dflt f count recursive secondariesFirst early s rng = some res →
      ∃ evs, res.loop.state.trace = s.trace ++ evs ∧
        res.raised = (if res.loop.state.g_cancel_signal_flag > 0
          then some res.loop.state.g_cancel_signal_flag else none) ∧
        ((∀ x ∈ evs, ∀ e, x.ev ≠ .caught e) → ∀ sig, res.loop.heard.getLast? = some sig →
          0 < sig → res.raised = some sig) ∧
        (res.loop.heard = [] → res.raised = none)) := by
  constructor
  · intro res hres
    unfold runCollection at hres
    split at hres
    · cases hres
    · rename_i s1 n heq
      cases hres
      obtain ⟨evs, h1, _, h3⟩ := runCollectionLoop_lastHeard ml dflt f recursive candidates _ s1
        0 n heq
      have hk : (deliver early { s with g_cancel_signal_flag := 0, handler := true }).handler
          = true := by simp
      have hfl : s1.g_cancel_signal_flag = (early ++ received ml evs).getLast?.getD 0 := by
        rw [h3 hk, deliver_flag, getLast_append_getD]
        rfl
      refine ⟨evs, by simpa using h1, hfl, rfl, ?_, ?_⟩
      · intro sig hsig hpos
        have hv : s1.g_cancel_signal_flag = sig := by rw [hfl, hsig]; rfl
        simp [hv, hpos]
      · intro hnil
        have hv : s1.g_cancel_signal_flag = 0 := by rw [hfl, hnil]; rfl
        simp [hv]
  · intro res hres
    unfold runSource at hres
    split at hres
    · cases hres
    · rename_i a heq
      cases hres
      have hk : (SourceRun.start early s rng).state.handler = true := by
        simp [SourceRun.start]
      have hf0 : (SourceRun.start early s rng).state.g_cancel_signal_flag =
          (SourceRun.start early s rng).heard.getLast?.getD 0 := by
        simp only [SourceRun.start]
        rw [deliver_flag]
        rfl
      obtain ⟨_, evs, h2, h3⟩ := runSourceLoop_lastHeard ml src dflt f recursive count _ a heq
        hk hf0
      refine ⟨evs, by simpa [SourceRun.start] using h2, rfl, ?_, ?_⟩
      · intro hno sig hsig hpos
        rcases h3 with h3 | ⟨_, x, hx, e, he⟩
        · have hv : a.state.g_cancel_signal_flag = sig := by
            rw [h3]
            simp only at hsig
            rw [hsig]
            rfl
          simp [hv, hpos]
        · exact absurd he (hno x hx e)
      · intro hnil
        simp only at hnil
        rcases h3 with h3 | ⟨h3, _⟩
        · have hv : a.state.g_cancel_signal_flag = 0 := by rw [h3, hnil]; rfl
          simp [hv]
        · simp [h3]

/-- Witness for C14: SIGINT and then SIGTERM arrive while the only candidate of a
collection is processed; SIGTERM, the last one, is raised after the loop. -/
theorem population_raises_last_signal_witness :
    ∃ res, runCollection ⟨[interruptedTwice], false⟩ true 3 [[0]] true true []
        (State.init [.mk true 0 []]) = some res ∧ res.raised = some 15 ∧
      ∃ evs, res.state.trace = (State.init [.mk true 0 []]).trace ++ evs ∧
        res.state.g_cancel_signal_flag =
          (([] : List Int) ++ received ⟨[interruptedTwice], false⟩ evs).getLast?.getD 0 ∧
        res.raised = (if res.state.g_cancel_signal_flag > 0
          then some res.state.g_cancel_signal_flag else none) ∧
        (∀ sig, (([] : List Int) ++ received ⟨[interruptedTwice], false⟩ evs).getLast?
            = some sig → 0 < sig → res.raised = some sig) ∧
        ((([] : List Int) ++ received ⟨[interruptedTwice], false⟩ evs) = [] →
          res.raised = none) :=
  ⟨_, rfl, rfl,
    (population_raises_last_signal ⟨[interruptedTwice], false⟩ steadySource true 3 [[0]] 0
      true true [] (State.init [.mk true 0 []]) 0).1 _ rfl⟩

/-- C14 as stated fails: SIGINT (2) is delivered to the installed handler during the loop,
then SIGTERM (15); after the loop the engine raises 15 and never raises 2. -/
theorem population_raises_one_signal_only :
    ∃ res, runCollection ⟨[interruptedTwice], false⟩ true 3 [[0]] true true []
        (State.init [.mk true 0 []]) = some res ∧
      received ⟨[interruptedTwice], false⟩ res.state.trace = [2, 15] ∧
      res.raised = some 15 ∧ res.raised ≠ some 2 :=
  ⟨_, rfl, by decide, rfl, by decide⟩

/-- In the run from a source a signal delivered during a module call that then throws is not
raised either: the `catch` block overwrites the token with -1. -/
theorem runSource_error_hides_signal :
    ∃ res, runSource ⟨[interruptedFaulty], false⟩ steadySource true 3 1 true true []
        (State.init []) 0 = some res ∧
      res.loop.heard = [2] ∧ res.loop.state.g_cancel_signal_flag = -1 ∧ res.raised = none :=
  ⟨_, rfl, by decide, by decide, rfl⟩

/-! ## C20: the order of the calls within one lineage -/

theorem processFrom_calls (c : Ptr) :
    ∀ (ms : List Module) (k : Nat) (s : State),
      ∃ calls m, (processFrom c ms k s).state.trace = s.trace ++ calls ∧ m ≤ ms.length ∧
        ((processFrom c ms k s).isDone = true → m = ms.length) ∧
        ((processFrom c ms k s).isDone = false → ∃ e t, processFrom c ms k s = .threw e t) ∧
        calls.map Step.ev = (List.range m).map (fun j => Event.call (k + j) c) := by
  intro ms
  induction ms with
  | nil =>
    intro k s
    exact ⟨[], 0, by simp [processFrom, Result.state], by simp, fun _ => rfl,
      fun h => by simp [processFrom, Result.isDone] at h, rfl⟩
  | cons m ms ih =>
    intro k s
    unfold processFrom
    split
    · rename_i e _
      exact ⟨[⟨.call k c, s.store, s.g_cancel_signal_flag⟩], 1, by simp [Result.state],
        by simp, fun h => by simp [Result.isDone] at h, fun _ => ⟨_, _, rfl⟩, rfl⟩
    · obtain ⟨calls, m1, h1, h2, h3, h4, h5⟩ := ih (k + 1) (invoke m k c s)
      refine ⟨⟨.call k c, s.store, s.g_cancel_signal_flag⟩ :: calls, m1 + 1, ?_, ?_, ?_, h4, ?_⟩
      · rw [h1]; simp
      · simpa using h2
      · intro h; rw [h3 h]; rfl
      · rw [List.map_cons, h5, List.range_succ_eq_map, List.map_cons, List.map_map]
        refine congrArg₂ _ rfl (List.map_congr_left ?_)
        intro j _
        simp only [Function.comp]
        congr 1
        omega

theorem body_weaken (n : Nat) : ∀ (b : Bool) (c : Ptr) (l : List Step),
    Body n b c l → Body n false c l := by
  intro b c l h
  induction h with
  | nil b c => exact .nil false c
  | pass b c calls rest hc _ ih => exact .pass false c calls rest hc ih
  | child b c i x inner y rest hx hg hin hy _ _ ih =>
    exact .child false c i x inner y rest hx hg hin hy ih
  | cutPass c calls m hm hc => exact .cutPass c calls m hm hc
  | cutChild c i x inner hx hg hin _ => exact .cutChild c i x inner hx hg hin

theorem body_append (n : Nat) : ∀ (b0 : Bool) (c : Ptr) (l1 : List Step),
    Body n b0 c l1 → b0 = true → ∀ (b : Bool) (l2 : List Step), Body n b c l2 →
      Body n b c (l1 ++ l2) := by
  intro b0 c l1 h
  induction h with
  | nil b c => intro _ b l2 h2; simpa using h2
  | pass b0 c calls rest hc _ ih =>
    intro hb b l2 h2
    rw [List.append_assoc]
    exact .pass b c calls _ hc (ih hb b l2 h2)
  | child b0 c i x inner y rest hx hg hin hy _ _ ih =>
    intro hb b l2 h2
    have : (x :: (inner ++ y :: rest)) ++ l2 = x :: (inner ++ y :: (rest ++ l2)) := by simp
    rw [this]
    exact .child b c i x inner y _ hx hg hin hy (ih hb b l2 h2)
  | cutPass c calls m hm hc => intro hb; cases hb
  | cutChild c i x inner hx hg hin _ => intro hb; cases hb

theorem runSecondaries_body (n : Nat) (run1 : Ptr → State → Result) (c : Ptr)
    (h1 : ∀ i t, RunTrace n (c ++ [i]) t (run1 (c ++ [i]) t)) :
    ∀ (fuel i : Nat) (s : State),
      ∃ items, (runSecondaries run1 c fuel i s).state.trace = s.trace ++ items ∧
        Body n (runSecondaries run1 c fuel i s).isDone c items := by
  intro fuel
  induction fuel with
  | zero => intro i s; exact ⟨[], by simp [runSecondaries, Result.state], .nil _ _⟩
  | succ fuel ih =>
    intro i s
    unfold runSecondaries
    split
    · rename_i hg
      split
      · exact ⟨[], by simp [Result.state], .nil _ _⟩
      · have hr := h1 i s
        generalize run1 (c ++ [i]) s = r at hr
        cases r with
        | done s1 =>
          dsimp only
          rcases hr with ⟨hd, _⟩ | ⟨body, hb, ht⟩
          · simp [Result.isDone] at hd
          · obtain ⟨items, h2, h3⟩ := ih (i + 1) s1
            simp only [Result.isDone, Result.state, if_true] at hb ht
            refine ⟨⟨.enter (c ++ [i]), s.store, s.g_cancel_signal_flag⟩ ::
              (body ++ ⟨.leave (c ++ [i]), s1.store, s1.g_cancel_signal_flag⟩ :: items), ?_, ?_⟩
            · rw [h2, ht]; simp
            · exact .child _ c i _ body _ items rfl hg hb rfl h3
        | threw e s1 =>
          dsimp only
          rcases hr with ⟨_, ht⟩ | ⟨body, hb, ht⟩
          · exact ⟨[], by simpa using ht, .nil _ _⟩
          · simp only [Result.isDone, Result.state] at hb ht
            refine ⟨⟨.enter (c ++ [i]), s.store, s.g_cancel_signal_flag⟩ :: body, ?_, ?_⟩
            · simpa using ht
            · exact .cutChild c i _ body rfl hg hb
        | fuel s1 =>
          dsimp only
          rcases hr with ⟨_, ht⟩ | ⟨body, hb, ht⟩
          · exact ⟨[], by simpa using ht, .nil _ _⟩
          · simp only [Result.isDone, Result.state] at hb ht
            refine ⟨⟨.enter (c ++ [i]), s.store, s.g_cancel_signal_flag⟩ :: body, ?_, ?_⟩
            · simpa using ht
            · exact .cutChild c i _ body rfl hg hb
    · exact ⟨[], by simp [Result.state], .nil _ _⟩

theorem process_calls (ml : ModuleList) (c : Ptr) (s : State) :
    ∃ calls m, (process ml c s).state.trace = s.trace ++ calls ∧ m ≤ ml.modules.length ∧
      ((process ml c s).isDone = true → m = ml.modules.length) ∧
      calls.map Step.ev = (List.range m).map (fun j => Event.call j c) := by
  obtain ⟨calls, m, h1, h2, h3, _, h5⟩ := processFrom_calls c ml.modules 0 s
  exact ⟨calls, m, h1, h2, h3, by simpa using h5⟩

theorem runPrimary_body (ml : ModuleList) (run1 : Ptr → State → Result)
    (recursive secondariesFirst : Bool) (c : Ptr) (inner : Nat)
    (h1 : ∀ i t, RunTrace ml.modules.length (c ++ [i]) t (run1 (c ++ [i]) t)) :
    ∀ (fuel : Nat) (s : State),
      ∃ items,
        (runPrimary ml run1 recursive secondariesFirst c inner fuel s).state.trace =
          s.trace ++ items ∧
        Body ml.modules.length
          (runPrimary ml run1 recursive secondariesFirst c inner fuel s).isDone c items := by
  intro fuel
  induction fuel with
  | zero => intro s; exact ⟨[], by simp [runPrimary, Result.state], .nil _ _⟩
  | succ fuel ih =>
    intro s
    unfold runPrimary
    split
    · obtain ⟨calls, m, hp1, hp2, hp3, hp4⟩ := process_calls ml c s
      generalize process ml c s = r at hp1 hp3
      cases r with
      | done s1 =>
        dsimp only
        have hm := hp3 rfl
        subst hm
        simp only [Result.state] at hp1
        split
        · obtain ⟨items2, hs1, hs2⟩ := runSecondaries_body ml.modules.length run1 c h1 inner 0 s1
          generalize runSecondaries run1 c inner 0 s1 = r2 at hs1 hs2
          cases r2 with
          | done s2 =>
            dsimp only
            obtain ⟨items3, hq1, hq2⟩ := ih s2
            simp only [Result.state] at hs1
            refine ⟨calls ++ (items2 ++ items3), ?_, ?_⟩
            · rw [hq1, hs1, hp1]; simp
            · exact .pass _ c calls _ hp4 (body_append _ _ c items2 hs2 rfl _ items3 hq2)
          | threw e s2 =>
            dsimp only
            simp only [Result.state] at hs1
            exact ⟨calls ++ items2, by simp only [Result.state]; rw [hs1, hp1]; simp,
              .pass _ c calls _ hp4 hs2⟩
          | fuel s2 =>
            dsimp only
            simp only [Result.state] at hs1
            exact ⟨calls ++ items2, by simp only [Result.state]; rw [hs1, hp1]; simp,
              .pass _ c calls _ hp4 hs2⟩
        · obtain ⟨items3, hq1, hq2⟩ := ih s1
          refine ⟨calls ++ items3, ?_, ?_⟩
          · rw [hq1, hp1]; simp
          · exact .pass _ c calls _ hp4 hq2
      | threw e s1 =>
        dsimp only
        exact ⟨calls, hp1, .cutPass c calls m hp2 hp4⟩
      | fuel s1 =>
        dsimp only
        exact ⟨calls, hp1, .cutPass c calls m hp2 hp4⟩
    · exact ⟨[], by simp [Result.state], .nil _ _⟩

theorem run_runTrace (ml : ModuleList) (recursive secondariesFirst : Bool) :
    ∀ (f : Nat) (c : Ptr) (s : State),
      RunTrace ml.modules.length c s (run ml f c recursive secondariesFirst s) := by
  intro f
  induction f with
  | zero => intro c s; exact Or.inl ⟨rfl, rfl⟩
  | succ f ih =>
    intro c s
    have h1 : ∀ i t, RunTrace ml.modules.length (c ++ [i]) t
        ((fun c1 s1 => run ml f c1 recursive secondariesFirst s1) (c ++ [i]) t) :=
      fun i t => ih (c ++ [i]) t
    obtain ⟨items1, ht1, hb1⟩ := runPrimary_body ml
      (fun c1 s1 => run ml f c1 recursive secondariesFirst s1) recursive secondariesFirst c
      (f + 1) h1 (f + 1) (s.log (.enter c))
    rw [run]
    generalize runPrimary ml (fun c1 s1 => run ml f c1 recursive secondariesFirst s1)
      recursive secondariesFirst c (f + 1) (f + 1) (s.log (.enter c)) = r1 at ht1 hb1
    cases r1 with
    | done s1 =>
      dsimp only
      simp only [Result.state, log_trace] at ht1
      simp only [Result.isDone] at hb1
      split
      · obtain ⟨items2, hs1, hs2⟩ := runSecondaries_body ml.modules.length
          (fun c1 s1 => run ml f c1 recursive secondariesFirst s1) c h1 (f + 1) 0 s1
        generalize runSecondaries (fun c1 s1 => run ml f c1 recursive secondariesFirst s1) c
          (f + 1) 0 s1 = r2 at hs1 hs2
        cases r2 with
        | done s2 =>
          dsimp only
          simp only [Result.state] at hs1
          refine Or.inr ⟨items1 ++ items2, body_append _ _ c items1 hb1 rfl _ items2 hs2, ?_⟩
          simp [Result.state, Result.isDone, hs1, ht1]
        | threw e s2 =>
          dsimp only
          simp only [Result.state] at hs1
          refine Or.inr ⟨items1 ++ items2, body_append _ _ c items1 hb1 rfl _ items2 hs2, ?_⟩
          simp [Result.state, Result.isDone, hs1, ht1]
        | fuel s2 =>
          dsimp only
          simp only [Result.state] at hs1
          refine Or.inr ⟨items1 ++ items2, body_append _ _ c items1 hb1 rfl _ items2 hs2, ?_⟩
          simp [Result.state, Result.isDone, hs1, ht1]
      · refine Or.inr ⟨items1, hb1, ?_⟩
        simp [Result.state, Result.isDone, ht1]
    | threw e s1 =>
      dsimp only
      simp only [Result.state, log_trace] at ht1
      exact Or.inr ⟨items1, hb1, by simp [Result.state, Result.isDone, ht1]⟩
    | fuel s1 =>
      dsimp only
      simp only [Result.state, log_trace] at ht1
      exact Or.inr ⟨items1, hb1, by simp [Result.state, Result.isDone, ht1]⟩

theorem isBelow_of_child (c : Ptr) (i : Nat) (e : Event)
    (h : e.isOn (c ++ [i]) ∨ e.isBelow (c ++ [i])) : e.isBelow c := by
  cases e with
  | call k q =>
    rcases h with h | ⟨j, rest, h⟩
    · exact ⟨i, [], h⟩
    · exact ⟨i, j :: rest, by rw [h, List.append_assoc]; rfl⟩
  | enter q =>
    rcases h with h | ⟨j, rest, h⟩
    · exact ⟨i, [], h⟩
    · exact ⟨i, j :: rest, by rw [h, List.append_assoc]; rfl⟩
  | leave q =>
    rcases h with h | ⟨j, rest, h⟩
    · exact ⟨i, [], h⟩
    · exact ⟨i, j :: rest, by rw [h, List.append_assoc]; rfl⟩
  | caught w => rcases h with h | h <;> exact h

theorem isOn_of_mem_calls (c : Ptr) (m : Nat) (calls : List Step)
    (h : calls.map Step.ev = (List.range m).map (fun k => Event.call k c)) :
    ∀ x ∈ calls, x.ev.isOn c := by
  intro x hx
  have hmem : x.ev ∈ calls.map Step.ev := List.mem_map_of_mem _ hx
  rw [h, List.mem_map] at hmem
  obtain ⟨k, _, hk⟩ := hmem
  rw [← hk]
  rfl

/-- Everything in a body of `c` is a call for `c` itself or for a candidate below `c`. -/
theorem body_within (n : Nat) : ∀ (b : Bool) (c : Ptr) (l : List Step), Body n b c l →
    ∀ x ∈ l, x.ev.isOn c ∨ x.ev.isBelow c := by
  intro b c l h
  induction h with
  | nil b c => intro x hx; cases hx
  | pass b c calls rest hc _ ih =>
    intro x hx
    rcases List.mem_append.1 hx with hx | hx
    · exact Or.inl (isOn_of_mem_calls c n calls hc x hx)
    · exact ih x hx
  | child b c i x0 inner y rest hx0 hg _ hy _ ih1 ih2 =>
    intro x hx
    rcases List.mem_cons.1 hx with hx | hx
    · subst hx
      exact Or.inr (isBelow_of_child c i _ (Or.inl (by rw [hx0]; rfl)))
    · rcases List.mem_append.1 hx with hx | hx
      · exact Or.inr (isBelow_of_child c i _ (ih1 x hx))
      · rcases List.mem_cons.1 hx with hx | hx
        · subst hx
          exact Or.inr (isBelow_of_child c i _ (Or.inl (by rw [hy]; rfl)))
        · exact ih2 x hx
  | cutPass c calls m hm hc =>
    intro x hx
    exact Or.inl (isOn_of_mem_calls c m calls hc x hx)
  | cutChild c i x0 inner hx0 hg _ ih =>
    intro x hx
    rcases List.mem_cons.1 hx with hx | hx
    · subst hx
      exact Or.inr (isBelow_of_child c i _ (Or.inl (by rw [hx0]; rfl)))
    · exact Or.inr (isBelow_of_child c i _ (ih x hx))

/-- Every run of a secondary recorded in a body started when the vector of secondaries of
its parent held that secondary. -/
theorem body_enter_held (n : Nat) : ∀ (b : Bool) (c : Ptr) (l : List Step), Body n b c l →
    ∀ x ∈ l, ∀ q, x.ev = .enter q → ∃ p i, q = p ++ [i] ∧ i < numSecondaries x.store p := by
  intro b c l h
  induction h with
  | nil b c => intro x hx; cases hx
  | pass b c calls rest hc _ ih =>
    intro x hx q hq
    rcases List.mem_append.1 hx with hx | hx
    · have := isOn_of_mem_calls c n calls hc x hx
      have hmem : x.ev ∈ calls.map Step.ev := List.mem_map_of_mem _ hx
      rw [hc, List.mem_map] at hmem
      obtain ⟨k, _, hk⟩ := hmem
      rw [hq] at hk
      cases hk
    · exact ih x hx q hq
  | child b c i x0 inner y rest hx0 hg _ hy _ ih1 ih2 =>
    intro x hx q hq
    rcases List.mem_cons.1 hx with hx | hx
    · subst hx
      rw [hx0] at hq
      cases hq
      exact ⟨c, i, rfl, hg⟩
    · rcases List.mem_append.1 hx with hx | hx
      · exact ih1 x hx q hq
      · rcases List.mem_cons.1 hx with hx | hx
        · subst hx
          rw [hy] at hq
          cases hq
        · exact ih2 x hx q hq
  | cutPass c calls m hm hc =>
    intro x hx q hq
    have hmem : x.ev ∈ calls.map Step.ev := List.mem_map_of_mem _ hx
    rw [hc, List.mem_map] at hmem
    obtain ⟨k, _, hk⟩ := hmem
    rw [hq] at hk
    cases hk
  | cutChild c i x0 inner hx0 hg _ ih =>
    intro x hx q hq
    rcases List.mem_cons.1 hx with hx | hx
    · subst hx
      rw [hx0] at hq
      cases hq
      exact ⟨c, i, rfl, hg⟩
    · exact ih x hx q hq

/-- C20: what `run(candidate, recursive = true, secondariesFirst)` adds to the trace, for
either value of `secondariesFirst`, whatever the modules do and however the call ends, is
the entry of `run` on the candidate, a body, and the exit if the call returned.  In a body
the complete passes of `ModuleList::process` over the candidate and the complete runs of
its secondaries follow one another: the run of a secondary starts only between such items,
when the parent's vector of secondaries already holds it (so the call that appended it has
returned), it contains nothing but calls for that secondary and its descendants, and it has
reached its exit before the next sibling's run or the parent's next pass starts. -/
theorem run_order_within_lineage (ml : ModuleList) (f : Nat) (c : Ptr)
    (secondariesFirst : Bool) (s : State) :
    RunTrace ml.modules.length c s (run ml f c true secondariesFirst s) ∧
    (∀ (b : Bool) (q : Ptr) (l : List Step), Body ml.modules.length b q l →
      (∀ x ∈ l, x.ev.isOn q ∨ x.ev.isBelow q) ∧
      (∀ x ∈ l, ∀ p, x.ev = .enter p → ∃ p0 i, p = p0 ++ [i] ∧
        i < numSecondaries x.store p0)) :=
  ⟨run_runTrace ml true secondariesFirst f c s,
    fun b q l h => ⟨body_within _ b q l h, body_enter_held _ b q l h⟩⟩

/-- An example of the order: with `secondariesFirst = true` a candidate that appends one
secondary in its first pass sees that secondary run to its end before its own second pass,
and run again (to no effect) after it. -/
theorem run_order_example :
    (run ⟨[cascade], false⟩ 5 [0] true true (State.init [.mk true 1 []])).state.trace.map
        Step.ev =
      [.enter [0], .call 0 [0], .enter [0, 0], .call 0 [0, 0], .leave [0, 0], .call 0 [0],
        .enter [0, 0], .leave [0, 0], .leave [0]] := by
  decide

/-! ## Arithmetic of `double` -/

theorem roundEven_intCast (n : ℤ) : roundEven (n : ℚ) = n := by
  simp [roundEven]

theorem floor_le_roundEven (x : ℚ) : ⌊x⌋ ≤ roundEven x := by
  unfold roundEven
  split
  · exact le_refl _
  · split
    · omega
    · split <;> omega

theorem le_roundEven (n : ℤ) (x : ℚ) (h : (n : ℚ) ≤ x) : n ≤ roundEven x :=
  le_trans (Int.le_floor.2 h) (floor_le_roundEven x)

theorem roundEven_le (n : ℤ) (x : ℚ) (h : x ≤ (n : ℚ)) : roundEven x ≤ n := by
  have hfl : ⌊x⌋ ≤ n := Int.floor_le_iff.2 (by linarith)
  by_cases hx : x - ⌊x⌋ < 1 / 2
  · simp only [roundEven, hx, if_true]
    exact hfl
  · have hlt : (⌊x⌋ : ℚ) < x := by linarith
    have h1 : (⌊x⌋ : ℚ) < (n : ℚ) := lt_of_lt_of_le hlt h
    have h2 : ⌊x⌋ < n := by exact_mod_cast h1
    unfold roundEven
    rw [if_neg hx]
    split
    · omega
    · split <;> omega

theorem two_zpow_pos (e : ℤ) : (0 : ℚ) < 2 ^ e := zpow_pos (by norm_num) e

theorem nearest_zero : nearest 0 = 0 := by
  simp [nearest, roundEven]

theorem nearest_nonneg (y : ℚ) (hy : 0 ≤ y) : 0 ≤ nearest y := by
  unfold nearest
  have h0 : (0 : ℤ) ≤ roundEven (y / 2 ^ ulpExp y) :=
    le_roundEven 0 _ (by simpa using div_nonneg hy (le_of_lt (two_zpow_pos _)))
  have h1 : (0 : ℚ) ≤ (roundEven (y / 2 ^ ulpExp y) : ℚ) := by exact_mod_cast h0
  exact mul_nonneg h1 (le_of_lt (two_zpow_pos _))

/-- A multiple of its own unit in the last place is left as it is. -/
theorem nearest_of_multiple (q : ℚ) (n : ℤ) (h : q = n * 2 ^ ulpExp q) : nearest q = q := by
  have hdiv : q / 2 ^ ulpExp q = (n : ℚ) := by
    rw [div_eq_iff (ne_of_gt (two_zpow_pos _))]
    exact h
  unfold nearest
  rw [hdiv, roundEven_intCast]
  exact h.symm

theorem lt_zpow_ulpExp (q : ℚ) : |q| < 2 ^ (ulpExp q + 53) := by
  have h1 : |q| < ((2 : ℕ) : ℚ) ^ (Int.log 2 |q| + 1) := Int.lt_zpow_succ_log_self (by norm_num) _
  have h2 : Int.log 2 |q| + 1 ≤ ulpExp q + 53 := by
    have := le_max_left (Int.log 2 |q| - 52) (-1074)
    unfold ulpExp
    omega
  have h3 : ((2 : ℕ) : ℚ) ^ (Int.log 2 |q| + 1) ≤ (2 : ℚ) ^ (ulpExp q + 53) := by
    rw [Nat.cast_ofNat]
    exact zpow_le_zpow_right₀ (by norm_num) h2
  exact lt_of_lt_of_le h1 h3

theorem zpow_ulpExp_le (q : ℚ) (hq : q ≠ 0) (h : -1074 < ulpExp q) :
    (2 : ℚ) ^ (ulpExp q + 52) ≤ |q| := by
  have he : ulpExp q = Int.log 2 |q| - 52 := by
    unfold ulpExp at h ⊢
    rcases max_cases (Int.log 2 |q| - 52) (-1074) with ⟨h1, _⟩ | ⟨h1, _⟩
    · exact h1
    · rw [h1] at h
      exact absurd h (lt_irrefl _)
  have h1 : ((2 : ℕ) : ℚ) ^ Int.log 2 |q| ≤ |q| :=
    Int.zpow_log_le_self (by norm_num) (abs_pos.2 hq)
  rw [Nat.cast_ofNat] at h1
  rw [he]
  simpa using h1

theorem ulpExp_mono (c y : ℚ) (hc : 0 < c) (h : c ≤ y) : ulpExp c ≤ ulpExp y := by
  have hy : 0 < y := lt_of_lt_of_le hc h
  unfold ulpExp
  rw [abs_of_pos hc, abs_of_pos hy]
  have := Int.log_mono_right (b := 2) hc h
  exact max_le_max (by omega) (le_refl _)

/-- Rounding does not go below a `double` that the exact value is not below. -/
theorem le_nearest (c y : ℚ) (n : ℤ) (hc : 0 < c) (hcy : c ≤ y)
    (hn : c = n * 2 ^ ulpExp c) : c ≤ nearest y := by
  have hy : 0 < y := lt_of_lt_of_le hc hcy
  have hle := ulpExp_mono c y hc hcy
  rcases eq_or_lt_of_le hle with heq | hlt
  · have hdiv : (n : ℚ) ≤ y / 2 ^ ulpExp y := by
      rw [le_div_iff₀ (two_zpow_pos _), ← heq, ← hn]
      exact hcy
    have h1 : (n : ℚ) ≤ (roundEven (y / 2 ^ ulpExp y) : ℚ) := by
      exact_mod_cast le_roundEven n _ hdiv
    unfold nearest
    calc c = n * 2 ^ ulpExp y := by rw [← heq]; exact hn
      _ ≤ roundEven (y / 2 ^ ulpExp y) * 2 ^ ulpExp y :=
        mul_le_mul_of_nonneg_right h1 (le_of_lt (two_zpow_pos _))
  · have hbig : -1074 < ulpExp y := lt_of_le_of_lt (le_max_right _ _) hlt
    have h1 := zpow_ulpExp_le y (ne_of_gt hy) hbig
    rw [abs_of_pos hy] at h1
    have hdiv : (((2 : ℤ) ^ 52 : ℤ) : ℚ) ≤ y / 2 ^ ulpExp y := by
      rw [le_div_iff₀ (two_zpow_pos _)]
      have : (((2 : ℤ) ^ 52 : ℤ) : ℚ) * 2 ^ ulpExp y = 2 ^ (ulpExp y + 52) := by
        rw [zpow_add₀ (by norm_num : (2 : ℚ) ≠ 0)]
        push_cast
        rw [mul_comm]
        norm_num
      rw [this]
      exact h1
    have h2 : (((2 : ℤ) ^ 52 : ℤ) : ℚ) ≤ (roundEven (y / 2 ^ ulpExp y) : ℚ) := by
      exact_mod_cast le_roundEven _ _ hdiv
    have h3 : (2 : ℚ) ^ (ulpExp y + 52) ≤ nearest y := by
      unfold nearest
      calc (2 : ℚ) ^ (ulpExp y + 52) = (((2 : ℤ) ^ 52 : ℤ) : ℚ) * 2 ^ ulpExp y := by
            rw [zpow_add₀ (by norm_num : (2 : ℚ) ≠ 0)]
            push_cast
            rw [mul_comm]
            norm_num
        _ ≤ roundEven (y / 2 ^ ulpExp y) * 2 ^ ulpExp y :=
          mul_le_mul_of_nonneg_right h2 (le_of_lt (two_zpow_pos _))
    have h4 := lt_zpow_ulpExp c
    rw [abs_of_pos hc] at h4
    have h5 : (2 : ℚ) ^ (ulpExp c + 53) ≤ 2 ^ (ulpExp y + 52) :=
      zpow_le_zpow_right₀ (by norm_num) (by omega)
    linarith

/-- What rounding produces is a multiple of its own unit in the last place. -/
theorem nearest_multiple (y : ℚ) (hy : 0 < y) :
    ∃ m : ℤ, nearest y = m * 2 ^ ulpExp (nearest y) := by
  have hr0 := nearest_nonneg y (le_of_lt hy)
  rcases eq_or_lt_of_le hr0 with hz | hpos
  · exact ⟨0, by rw [← hz]; simp⟩
  · have hup : y / 2 ^ ulpExp y ≤ (((2 : ℤ) ^ 53 : ℤ) : ℚ) := by
      rw [div_le_iff₀ (two_zpow_pos _)]
      have h1 := lt_zpow_ulpExp y
      rw [abs_of_pos hy] at h1
      have : (((2 : ℤ) ^ 53 : ℤ) : ℚ) * 2 ^ ulpExp y = 2 ^ (ulpExp y + 53) := by
        rw [zpow_add₀ (by norm_num : (2 : ℚ) ≠ 0)]
        push_cast
        rw [mul_comm]
        norm_num
      rw [this]
      exact le_of_lt h1
    have hn : (roundEven (y / 2 ^ ulpExp y) : ℚ) ≤ (((2 : ℤ) ^ 53 : ℤ) : ℚ) := by
      exact_mod_cast roundEven_le _ _ hup
    have hrle : nearest y ≤ 2 ^ (ulpExp y + 53) := by
      unfold nearest
      calc (roundEven (y / 2 ^ ulpExp y) : ℚ) * 2 ^ ulpExp y
          ≤ (((2 : ℤ) ^ 53 : ℤ) : ℚ) * 2 ^ ulpExp y :=
            mul_le_mul_of_nonneg_right hn (le_of_lt (two_zpow_pos _))
        _ = 2 ^ (ulpExp y + 53) := by
            rw [zpow_add₀ (by norm_num : (2 : ℚ) ≠ 0)]
            push_cast
            rw [mul_comm]
            norm_num
    rcases le_or_lt (ulpExp (nearest y)) (ulpExp y) with hle | hgt
    · refine ⟨roundEven (y / 2 ^ ulpExp y) * 2 ^ (ulpExp y - ulpExp (nearest y)).toNat, ?_⟩
      have hsplit : (2 : ℚ) ^ ulpExp y =
          2 ^ (ulpExp y - ulpExp (nearest y)).toNat * 2 ^ ulpExp (nearest y) := by
        rw [← zpow_natCast, ← zpow_add₀ (by norm_num : (2 : ℚ) ≠ 0)]
        congr 1
        rw [Int.toNat_of_nonneg (by omega)]
        omega
      push_cast
      rw [mul_assoc, ← hsplit]
      rfl
    · have hbig : -1074 < ulpExp (nearest y) :=
        lt_of_le_of_lt (le_max_right _ _) hgt
      have h1 := zpow_ulpExp_le (nearest y) (ne_of_gt hpos) hbig
      rw [abs_of_pos hpos] at h1
      have h2 : (2 : ℚ) ^ (ulpExp (nearest y) + 52) ≤ 2 ^ (ulpExp y + 53) := le_trans h1 hrle
      have h3 : ulpExp (nearest y) + 52 ≤ ulpExp y + 53 :=
        (zpow_le_zpow_iff_right₀ (by norm_num : (1 : ℚ) < 2)).1 h2
      have h4 : ulpExp (nearest y) = ulpExp y + 1 := by omega
      have h5 : nearest y = 2 ^ (ulpExp y + 53) := by
        apply le_antisymm hrle
        rw [h4] at h1
        have : ulpExp y + 1 + 52 = ulpExp y + 53 := by omega
        rw [this] at h1
        exact h1
      refine ⟨(2 : ℤ) ^ 52, ?_⟩
      rw [h4]
      rw [h5] at h4 ⊢
      have : ulpExp y + 53 = 52 + (ulpExp y + 1) := by omega
      rw [this, zpow_add₀ (by norm_num : (2 : ℚ) ≠ 0)]
      push_cast
      norm_num

/-- A value obtained by rounding is one that a `double` holds. -/
theorem isValue_round (y : ℚ) (hy : 0 ≤ y) : (Double.round y).IsValue := by
  unfold Double.round
  split
  · trivial
  · rename_i hov
    have hfix : nearest (nearest y) = nearest y := by
      rcases eq_or_lt_of_le hy with hz | hpos
      · rw [← hz, nearest_zero, nearest_zero]
      · obtain ⟨m, hm⟩ := nearest_multiple y hpos
        exact nearest_of_multiple _ m hm
    show Double.round (nearest y) = .finite (nearest y)
    unfold Double.round
    rw [hfix, if_neg hov]

/-- Adding a non-negative number to a `double` that is not negative does not give a smaller
`double`. -/
theorem le_round_add (c w : ℚ) (hc : 0 ≤ c) (hw : 0 ≤ w)
    (hv : (Double.finite c).IsValue) :
    Double.le (.finite c) (Double.round (w + c)) = true := by
  have hcy : c ≤ w + c := by linarith
  have hle : c ≤ nearest (w + c) := by
    rcases eq_or_lt_of_le hc with hz | hpos
    · rw [← hz]
      exact nearest_nonneg _ (by linarith)
    · have hv2 : Double.round c = .finite c := hv
      unfold Double.round at hv2
      split at hv2
      · cases hv2
      · have hfix : nearest c = c := by
          simpa using hv2
        refine le_nearest c (w + c) (roundEven (c / 2 ^ ulpExp c)) hpos hcy ?_
        exact hfix.symm
  unfold Double.round
  split
  · have : ¬ (w + c < 0) := by linarith
    simp [Double.le, this]
  · simpa [Double.le] using hle

/-! ## C23: the cumulative weights of a `SourceList` -/

theorem addAll_snoc (sl : SourceList) (entries : List (Source × Double))
    (e : Source × Double) :
    sl.addAll (entries ++ [e]) = (sl.addAll entries).add e.1 e.2 := by
  simp [SourceList.addAll, List.foldl_append]

theorem add_cdf (sl : SourceList) (source : Source) (weight : Double) :
    (sl.add source weight).cdf = sl.cdf ++
      [match sl.cdf.getLast? with
        | some c => Double.add weight c
        | none => weight] := by
  unfold SourceList.add
  cases hl : sl.cdf.getLast? with
  | none =>
    have hnil : sl.cdf = [] := List.getLast?_eq_none_iff.1 hl
    simp [hnil]
  | some c =>
    have hne : sl.cdf ≠ [] := by
      intro hnil
      rw [hnil] at hl
      cases hl
    have hpos : sl.cdf.length > 0 := List.length_pos.2 hne
    simp [hpos]

theorem addAll_sources (entries : List (Source × Double)) :
    (SourceList.empty.addAll entries).sources = entries.map Prod.fst ∧
    (SourceList.empty.addAll entries).cdf.length = entries.length := by
  induction entries using List.reverseRecOn with
  | nil => exact ⟨rfl, rfl⟩
  | append_singleton es e ih =>
    rw [addAll_snoc]
    refine ⟨by simp [SourceList.add, ih.1], ?_⟩
    rw [add_cdf, List.length_append, ih.2]
    simp

/-- Each entry of the table is the sum, as a `double`, of the weight and the entry before. -/
theorem addAll_cdf_step (entries : List (Source × Double)) :
    (∀ e, entries[0]? = some e → (SourceList.empty.addAll entries).cdf[0]? = some e.2) ∧
    (∀ i e, entries[i + 1]? = some e →
      ∃ prev, (SourceList.empty.addAll entries).cdf[i]? = some prev ∧
        (SourceList.empty.addAll entries).cdf[i + 1]? = some (Double.add e.2 prev)) := by
  induction entries using List.reverseRecOn with
  | nil => exact ⟨fun e h => by simp at h, fun i e h => by simp at h⟩
  | append_singleton es e0 ih =>
    obtain ⟨ih0, ih1⟩ := ih
    have hlen := (addAll_sources es).2
    rw [addAll_snoc, add_cdf]
    constructor
    · intro e he
      cases es with
      | nil =>
        simp only [List.nil_append, List.getElem?_cons_zero, Option.some.injEq] at he
        subst he
        rfl
      | cons a as =>
        have h0 := ih0 a (by simp)
        have he2 : a = e := by simpa using he
        subst he2
        rw [List.getElem?_append_left (by rw [hlen]; simp)]
        exact h0
    · intro i e he
      rcases Nat.lt_trichotomy (i + 1) es.length with hlt | heq | hgt
      · rw [List.getElem?_append_left hlt] at he
        obtain ⟨prev, hp1, hp2⟩ := ih1 i e he
        refine ⟨prev, ?_, ?_⟩
        · rw [List.getElem?_append_left (by rw [hlen]; omega)]
          exact hp1
        · rw [List.getElem?_append_left (by rw [hlen]; omega)]
          exact hp2
      · have he2 : e0 = e := by
          rw [List.getElem?_append_right (by omega), heq] at he
          simpa using he
        subst he2
        have hne : (SourceList.empty.addAll es).cdf ≠ [] := by
          intro hnil
          rw [hnil] at hlen
          simp at hlen
          omega
        obtain ⟨prev, hprev⟩ : ∃ prev, (SourceList.empty.addAll es).cdf.getLast? = some prev := by
          cases hl : (SourceList.empty.addAll es).cdf.getLast? with
          | none => exact absurd (List.getLast?_eq_none_iff.1 hl) hne
          | some c => exact ⟨c, rfl⟩
        refine ⟨prev, ?_, ?_⟩
        · rw [List.getElem?_append_left (by rw [hlen]; omega)]
          rw [List.getLast?_eq_getElem?] at hprev
          rw [← hprev]
          congr 1
          omega
        · rw [List.getElem?_append_right (by rw [hlen]; omega), hprev]
          have : i + 1 - (SourceList.empty.addAll es).cdf.length = 0 := by rw [hlen]; omega
          rw [this]
          rfl
      · rw [List.getElem?_eq_none (by simp; omega)] at he
        cases he

/-- The table holds the exact partial sums as long as no addition rounds. -/
theorem addAll_cdf_exact (entries : List (Source × Double)) (qs : List ℚ)
    (hq : entries.map Prod.snd = qs.map Double.finite)
    (hex : ∀ i, 0 < i → i < qs.length →
      Double.round ((qs.take (i + 1)).sum) = .finite ((qs.take (i + 1)).sum)) :
    ∀ i, i < qs.length →
      (SourceList.empty.addAll entries).cdf[i]? = some (.finite ((qs.take (i + 1)).sum)) := by
  have hget : ∀ i (h : i < qs.length), ∃ e, entries[i]? = some e ∧ e.2 = .finite qs[i] := by
    intro i h
    have h1 : (entries.map Prod.snd)[i]? = (qs.map Double.finite)[i]? := by rw [hq]
    rw [List.getElem?_map, List.getElem?_map, List.getElem?_eq_getElem h] at h1
    cases he : entries[i]? with
    | none => rw [he] at h1; simp at h1
    | some e =>
      rw [he] at h1
      exact ⟨e, rfl, by simpa using h1⟩
  obtain ⟨h0, hstep⟩ := addAll_cdf_step entries
  intro i
  induction i with
  | zero =>
    intro h
    obtain ⟨e, he1, he2⟩ := hget 0 h
    rw [h0 e he1, he2]
    congr 2
    cases qs with
    | nil => simp at h
    | cons q qs => simp
  | succ i ih =>
    intro h
    obtain ⟨e, he1, he2⟩ := hget (i + 1) h
    obtain ⟨prev, hp1, hp2⟩ := hstep i e he1
    rw [ih (by omega)] at hp1
    have hprev : prev = .finite ((qs.take (i + 1)).sum) := by
      simpa using hp1.symm
    have hsum : (qs.take (i + 1 + 1)).sum = qs[i + 1] + (qs.take (i + 1)).sum := by
      rw [List.sum_take_succ qs (i + 1) h, add_comm]
    rw [hp2, he2, hprev]
    show some (Double.round (qs[i + 1] + (qs.take (i + 1)).sum)) = _
    rw [← hsum, hex (i + 1) (by omega) h]

theorem double_le_trans (a b c : Double) (h1 : Double.le a b = true)
    (h2 : Double.le b c = true) : Double.le a c = true := by
  rcases a with x | (_ | _) | _ <;> rcases b with y | (_ | _) | _ <;>
    rcases c with z | (_ | _) | _ <;> simp only [Double.le] at h1 h2 ⊢ <;>
    first
    | exact decide_eq_true (le_trans (of_decide_eq_true h1) (of_decide_eq_true h2))
    | rfl
    | exact absurd h1 (by decide)
    | exact absurd h2 (by decide)

theorem double_le_refl (x : Double) (hx : Double.le (.finite 0) x = true) :
    Double.le x x = true := by
  rcases x with q | (_ | _) | _
  · simp [Double.le]
  · rfl
  · rfl
  · exact absurd hx (by simp [Double.le])

/-- Adding a weight that is a `double` and is not negative to an entry that is a `double`
and is not negative gives such a `double` again, and not a smaller one. -/
theorem double_add_nonneg (w l : Double)
    (hw : w.IsValue ∧ Double.le (.finite 0) w = true)
    (hl : l.IsValue ∧ Double.le (.finite 0) l = true) :
    ((Double.add w l).IsValue ∧ Double.le (.finite 0) (Double.add w l) = true) ∧
      Double.le l (Double.add w l) = true := by
  rcases w with v | (_ | _) | _
  · have hv : 0 ≤ v := of_decide_eq_true hw.2
    rcases l with c | (_ | _) | _
    · have hc : 0 ≤ c := of_decide_eq_true hl.2
      have h1 := le_round_add c v hc hv hl.1
      exact ⟨⟨isValue_round (v + c) (by linarith), double_le_trans _ _ _ hl.2 h1⟩, h1⟩
    · exact ⟨⟨trivial, rfl⟩, rfl⟩
    · exact absurd hl.2 (by simp [Double.le])
    · exact absurd hl.2 (by simp [Double.le])
  · rcases l with c | (_ | _) | _
    · exact ⟨⟨trivial, rfl⟩, rfl⟩
    · exact ⟨⟨trivial, rfl⟩, rfl⟩
    · exact absurd hl.2 (by simp [Double.le])
    · exact absurd hl.2 (by simp [Double.le])
  · exact absurd hw.2 (by simp [Double.le])
  · exact absurd hw.2 (by simp [Double.le])

theorem addAll_cdf_sorted (entries : List (Source × Double))
    (hw : ∀ e ∈ entries, e.2.IsValue ∧ Double.le (.finite 0) e.2 = true) :
    List.Pairwise (fun a b => Double.le a b = true) (SourceList.empty.addAll entries).cdf ∧
    (∀ x ∈ (SourceList.empty.addAll entries).cdf,
      x.IsValue ∧ Double.le (.finite 0) x = true) ∧
    (∀ l, (SourceList.empty.addAll entries).cdf.getLast? = some l →
      ∀ a ∈ (SourceList.empty.addAll entries).cdf, Double.le a l = true) := by
  induction entries using List.reverseRecOn with
  | nil =>
    refine ⟨List.Pairwise.nil, ?_, ?_⟩
    · intro x hx
      cases hx
    · intro l hl
      cases hl
  | append_singleton es e ih =>
    have hes : ∀ x ∈ es, x.2.IsValue ∧ Double.le (.finite 0) x.2 = true :=
      fun x hx => hw x (List.mem_append_left _ hx)
    have he := hw e (List.mem_append_right _ (List.mem_singleton_self _))
    obtain ⟨h1, h2, h3⟩ := ih hes
    rw [addAll_snoc, add_cdf]
    have hrefl := double_le_refl
    cases hl : (SourceList.empty.addAll es).cdf.getLast? with
    | none =>
      have hnil : (SourceList.empty.addAll es).cdf = [] := List.getLast?_eq_none_iff.1 hl
      rw [hnil]
      refine ⟨by simp, ?_, ?_⟩
      · intro x hx
        simp only [List.nil_append, List.mem_singleton] at hx
        subst hx
        exact he
      · intro l hl2 a ha
        simp only [List.nil_append, List.mem_singleton] at ha
        simp only [List.nil_append, List.getLast?_singleton, Option.some.injEq] at hl2
        subst ha
        subst hl2
        exact hrefl _ he.2
    | some l =>
      have hlmem : l ∈ (SourceList.empty.addAll es).cdf := List.mem_of_getLast?_eq_some hl
      obtain ⟨hgood, hle⟩ := double_add_nonneg e.2 l he (h2 l hlmem)
      have hall : ∀ a ∈ (SourceList.empty.addAll es).cdf,
          Double.le a (Double.add e.2 l) = true :=
        fun a ha => double_le_trans _ _ _ (h3 l hl a ha) hle
      refine ⟨?_, ?_, ?_⟩
      · rw [List.pairwise_append]
        refine ⟨h1, List.pairwise_singleton _ _, ?_⟩
        intro a ha b hb
        rw [List.mem_singleton] at hb
        subst hb
        exact hall a ha
      · intro x hx
        rcases List.mem_append.1 hx with hx | hx
        · exact h2 x hx
        · rw [List.mem_singleton] at hx
          subst hx
          exact hgood
      · intro l2 hl2 a ha
        have hl3 : Double.add e.2 l = l2 := by
          simpa [List.getLast?_append, Option.or] using hl2
        subst hl3
        rcases List.mem_append.1 ha with ha | ha
        · exact hall a ha
        · rw [List.mem_singleton] at ha
          subst ha
          exact hrefl _ hgood.2

theorem round_of_multiple (q : ℚ) (n : ℤ) (h : q = n * 2 ^ ulpExp q)
    (hlt : |q| < 2 ^ 1024) : Double.round q = .finite q := by
  unfold Double.round
  rw [nearest_of_multiple q n h, if_neg (not_le.2 hlt)]

theorem ulpExp_of_bounds (q : ℚ) (k : ℤ) (hk : -1022 ≤ k) (h1 : 2 ^ k ≤ |q|)
    (h2 : |q| < 2 ^ (k + 1)) : ulpExp q = k - 52 := by
  have hpos : 0 < |q| := lt_of_lt_of_le (two_zpow_pos k) h1
  have hlog : Int.log 2 |q| = k := by
    apply le_antisymm
    · have := (Int.lt_zpow_iff_log_lt (b := 2) (by norm_num) hpos).1
        (by rw [Nat.cast_ofNat]; exact h2)
      omega
    · exact (Int.zpow_le_iff_le_log (b := 2) (by norm_num) hpos).1
        (by rw [Nat.cast_ofNat]; exact h1)
  unfold ulpExp
  rw [hlog]
  exact max_eq_left (by omega)

theorem roundEven_tie_even (n : ℤ) (hn : n % 2 = 0) : roundEven ((n : ℚ) + 1 / 2) = n := by
  have hfl : ⌊(n : ℚ) + 1 / 2⌋ = n := by
    rw [Int.floor_eq_iff]
    constructor <;> linarith
  unfold roundEven
  rw [hfl]
  have h1 : ¬ ((n : ℚ) + 1 / 2 - n < 1 / 2) := by
    intro h
    linarith
  have h2 : ¬ ((1 : ℚ) / 2 < (n : ℚ) + 1 / 2 - n) := by
    intro h
    linarith
  rw [if_neg h1, if_neg h2, if_pos hn]

theorem isValue_one : (Double.finite 1).IsValue := by
  have he : ulpExp 1 = 0 - 52 :=
    ulpExp_of_bounds 1 0 (by norm_num) (by norm_num) (by norm_num)
  refine round_of_multiple 1 ((2 : ℤ) ^ 52) ?_ (by norm_num)
  rw [he]
  norm_num

theorem round_two : Double.round 2 = .finite 2 := by
  have he : ulpExp 2 = 1 - 52 :=
    ulpExp_of_bounds 2 1 (by norm_num) (by norm_num) (by norm_num)
  refine round_of_multiple 2 ((2 : ℤ) ^ 52) ?_ (by norm_num)
  rw [he]
  norm_num

theorem isValue_two_pow_53 : (Double.finite (2 ^ 53)).IsValue := by
  have he : ulpExp (2 ^ 53) = 53 - 52 :=
    ulpExp_of_bounds (2 ^ 53) 53 (by norm_num) (by norm_num) (by norm_num)
  refine round_of_multiple (2 ^ 53) ((2 : ℤ) ^ 52) ?_ (by norm_num)
  rw [he]
  norm_num

/-- The sum of 1 and `2 ^ 53` is half-way between two doubles and is rounded to `2 ^ 53`. -/
theorem round_one_add_two_pow_53 : Double.round (1 + 2 ^ 53) = .finite (2 ^ 53) := by
  have he : ulpExp (1 + 2 ^ 53) = 53 - 52 :=
    ulpExp_of_bounds (1 + 2 ^ 53) 53 (by norm_num) (by norm_num) (by norm_num)
  have hn : nearest (1 + 2 ^ 53) = 2 ^ 53 := by
    unfold nearest
    rw [he]
    have hx : ((1 : ℚ) + 2 ^ 53) / 2 ^ ((53 : ℤ) - 52) = (((2 : ℤ) ^ 52 : ℤ) : ℚ) + 1 / 2 := by
      norm_num
    rw [hx, roundEven_tie_even _ (by norm_num)]
    norm_num
  unfold Double.round
  rw [hn, if_neg (by norm_num)]

/-- C23, as amended: after `add(s0, w0)`, ..., `add(s(n-1), w(n-1))` on an empty
`SourceList`, the sources are `s0`, ..., `s(n-1)`, and `sources` and `cdf` both have length
`n`; `cdf[0]` is `w0` and `cdf[i]` is `wi + cdf[i-1]`, added as doubles, each sum rounded to
the nearest `double`.  So `cdf[i]` is `w0 + ... + wi` for every `i < n`, and the last entry
the total weight, as long as none of these sums is rounded; and `cdf` is non-decreasing
whenever all weights are non-negative. -/
theorem sourceList_cdf_in_step (entries : List (Source × Double)) :
    (SourceList.empty.addAll entries).sources = entries.map Prod.fst ∧
    (SourceList.empty.addAll entries).sources.length = entries.length ∧
    (SourceList.empty.addAll entries).cdf.length = entries.length ∧
    (∀ e, entries[0]? = some e → (SourceList.empty.addAll entries).cdf[0]? = some e.2) ∧
    (∀ i e, entries[i + 1]? = some e →
      ∃ prev, (SourceList.empty.addAll entries).cdf[i]? = some prev ∧
        (SourceList.empty.addAll entries).cdf[i + 1]? = some (Double.add e.2 prev)) ∧
    (∀ qs : List ℚ, entries.map Prod.snd = qs.map Double.finite →
      (∀ i, 0 < i → i < qs.length →
        Double.round ((qs.take (i + 1)).sum) = .finite ((qs.take (i + 1)).sum)) →
      (∀ i, i < qs.length →
        (SourceList.empty.addAll entries).cdf[i]? =
          some (.finite ((qs.take (i + 1)).sum))) ∧
      (entries ≠ [] →
        (SourceList.empty.addAll entries).cdf.getLast? = some (.finite qs.sum))) ∧
    ((∀ e ∈ entries, e.2.IsValue ∧ Double.le (.finite 0) e.2 = true) →
      List.Pairwise (fun a b => Double.le a b = true)
        (SourceList.empty.addAll entries).cdf) := by
  obtain ⟨h1, h2⟩ := addAll_sources entries
  obtain ⟨h3, h4⟩ := addAll_cdf_step entries
  refine ⟨h1, by rw [h1, List.length_map], h2, h3, h4, ?_,
    fun hw => (addAll_cdf_sorted entries hw).1⟩
  intro qs hq hex
  have hexact := addAll_cdf_exact entries qs hq hex
  refine ⟨hexact, ?_⟩
  intro hne
  have hlen : entries.length = qs.length := by
    have := congrArg List.length hq
    simpa using this
  have hpos : 0 < qs.length := by
    rw [← hlen]
    exact List.length_pos.2 hne
  rw [List.getLast?_eq_getElem?, h2, hlen, hexact (qs.length - 1) (by omega)]
  have hn : qs.length - 1 + 1 = qs.length := by omega
  rw [hn, List.take_length]

/-- Witness for the amended C23: two sources of weight 1; the sum 2 is a `double`. -/
theorem sourceList_cdf_in_step_witness :
    (SourceList.empty.addAll [(⟨[]⟩, .finite 1), (⟨[]⟩, .finite 1)]).cdf[1]? =
      some (.finite ((([1, 1] : List ℚ).take (1 + 1)).sum)) ∧
    List.Pairwise (fun a b => Double.le a b = true)
      (SourceList.empty.addAll [(⟨[]⟩, .finite 1), (⟨[]⟩, .finite 1)]).cdf :=
  ⟨((sourceList_cdf_in_step [(⟨[]⟩, .finite 1), (⟨[]⟩, .finite 1)]).2.2.2.2.2.1 [1, 1] rfl
      (by
        intro i h0 h1
        have hi : i = 1 := by
          simp only [List.length_cons, List.length_nil] at h1
          omega
        subst hi
        have h2 : ((([1, 1] : List ℚ).take (1 + 1)).sum) = 2 := by norm_num
        rw [h2]
        exact round_two)).1 1 (by decide),
    (sourceList_cdf_in_step [(⟨[]⟩, .finite 1), (⟨[]⟩, .finite 1)]).2.2.2.2.2.2 (by
      intro e he
      simp only [List.mem_cons, List.mem_singleton, List.not_mem_nil, or_false] at he
      rcases he with rfl | rfl
      · exact ⟨isValue_one, by simp [Double.le]⟩
      · exact ⟨isValue_one, by simp [Double.le]⟩)⟩

/-- C23 as stated fails: the weights `2 ^ 53` and 1 are doubles; the second entry of the
table is their sum as a `double`, which is `2 ^ 53` again, not the exact sum `2 ^ 53 + 1`,
and the last entry is not the total weight. -/
theorem sourceList_cdf_rounds :
    (Double.finite (2 ^ 53)).IsValue ∧ (Double.finite 1).IsValue ∧
    (SourceList.empty.addAll [(⟨[]⟩, .finite (2 ^ 53)), (⟨[]⟩, .finite 1)]).cdf =
      [.finite (2 ^ 53), .finite (2 ^ 53)] ∧
    (SourceList.empty.addAll [(⟨[]⟩, .finite (2 ^ 53)), (⟨[]⟩, .finite 1)]).cdf[1]? ≠
      some (.finite (2 ^ 53 + 1)) ∧
    (SourceList.empty.addAll [(⟨[]⟩, .finite (2 ^ 53)), (⟨[]⟩, .finite 1)]).cdf.getLast? ≠
      some (.finite (2 ^ 53 + 1)) := by
  have hcdf : (SourceList.empty.addAll [(⟨[]⟩, .finite (2 ^ 53)), (⟨[]⟩, .finite 1)]).cdf =
      [.finite (2 ^ 53), .finite (2 ^ 53)] := by
    simp only [SourceList.addAll, List.foldl_cons, List.foldl_nil, SourceList.add,
      SourceList.empty, List.length_nil, gt_iff_lt, lt_self_iff_false, if_false,
      List.nil_append, List.length_singleton, Nat.lt_one_iff, Nat.zero_lt_one, if_true,
      List.getLast?_singleton, Option.getD_some, Double.add, List.singleton_append]
    rw [round_one_add_two_pow_53]
  refine ⟨isValue_two_pow_53, isValue_one, hcdf, ?_, ?_⟩
  · rw [hcdf]
    intro h
    simp only [List.getElem?_cons_succ, List.getElem?_cons_zero, Option.some.injEq,
      Double.finite.injEq] at h
    norm_num at h
  · rw [hcdf]
    intro h
    simp only [List.getLast?_cons_cons, List.getLast?_singleton, Option.some.injEq,
      Double.finite.injEq] at h
    norm_num at h

/-! ## C22: `declare_version` -/

theorem split_version_GIT_DESC : split_version GIT_DESC = ["3.2.1", "22", "gbc174184"] := by
  decide

/-- The version that `git describe --dirty` prints for a modified working tree. -/
theorem split_version_dirty :
    split_version "3.2.1-22-gbc174184-dirty" = ["3.2.1", "22", "gbc174184", "dirty"] := by
  decide

/-- C22, the code at the failing input: the declared version has the three parts of the
built-in version and a fourth one.  The loop runs while `i < input_parts.size()`, finds no
mismatch at the indices 0, 1 and 2, and reads `git_parts[3]` in a vector of 3 elements. -/
theorem declare_version_reads_past_end :
    (split_version GIT_DESC).length = 3 ∧
    (split_version "3.2.1-22-gbc174184-dirty").length = 4 ∧
    declare_version "3.2.1-22-gbc174184-dirty" = .undefined :=
  ⟨by decide, by decide, rfl⟩

/-- The loop of `declare_version` leaves the defined behaviour exactly when the declared
parts are the built-in parts from index `i` on, followed by at least one more part. -/
theorem compareFrom_undefined_iff (git_parts : List String) :
    ∀ (remaining : List String) (i : Nat) (reads : List Nat),
      compareFrom git_parts remaining i reads = .undefined ↔
        ∃ extra, extra ≠ [] ∧ remaining = git_parts.drop i ++ extra := by
  intro remaining
  induction remaining with
  | nil =>
    intro i reads
    constructor
    · intro h
      simp [compareFrom] at h
    · rintro ⟨extra, hne, h⟩
      have := List.append_eq_nil.1 h.symm
      exact absurd this.2 hne
  | cons part remaining ih =>
    intro i reads
    unfold compareFrom
    cases hg : git_parts[i]? with
    | none =>
      have hi : git_parts.length ≤ i := List.getElem?_eq_none_iff.1 hg
      simp only [true_iff]
      exact ⟨part :: remaining, by simp, by rw [List.drop_of_length_le hi]; rfl⟩
    | some g =>
      have hi : i < git_parts.length := (List.getElem?_eq_some.1 hg).1
      have hdrop : git_parts.drop i = g :: git_parts.drop (i + 1) := by
        rw [List.drop_eq_getElem_cons hi]
        congr 1
        exact (List.getElem?_eq_some.1 hg).2
      dsimp only
      by_cases hne : g ≠ part
      · rw [if_pos hne]
        constructor
        · intro h
          cases h
        · rintro ⟨extra, _, h⟩
          rw [hdrop] at h
          simp only [List.cons_append, List.cons.injEq] at h
          exact absurd h.1.symm hne
      · rw [if_neg hne, ih]
        have heq : g = part := by
          by_contra hcon
          exact hne hcon
        constructor
        · rintro ⟨extra, he, h⟩
          exact ⟨extra, he, by rw [hdrop, h, heq]; rfl⟩
        · rintro ⟨extra, he, h⟩
          rw [hdrop] at h
          simp only [List.cons_append, List.cons.injEq] at h
          exact ⟨extra, he, h.2⟩

/-- When the loop of `declare_version` stays within the defined behaviour, every read of
`git_parts` it makes from index `i` on is at an index that `git_parts` has. -/
theorem compareFrom_reads_in_range (git_parts : List String) :
    ∀ (remaining : List String) (i : Nat) (reads : List Nat) (v : VersionCheck),
      compareFrom git_parts remaining i reads = .returns v →
        ∃ more, v.reads = reads ++ more ∧ ∀ j ∈ more, j < git_parts.length := by
  intro remaining
  induction remaining with
  | nil =>
    intro i reads v h
    simp only [compareFrom, Behaviour.returns.injEq] at h
    subst h
    exact ⟨[], by simp, fun j hj => by cases hj⟩
  | cons part remaining ih =>
    intro i reads v h
    unfold compareFrom at h
    cases hg : git_parts[i]? with
    | none =>
      rw [hg] at h
      cases h
    | some g =>
      have hi : i < git_parts.length := (List.getElem?_eq_some.1 hg).1
      rw [hg] at h
      dsimp only at h
      by_cases hne : g ≠ part
      · rw [if_pos hne] at h
        simp only [Behaviour.returns.injEq] at h
        subst h
        exact ⟨[i], rfl, fun j hj => by rw [List.mem_singleton.1 hj]; exact hi⟩
      · rw [if_neg hne] at h
        obtain ⟨more, h1, h2⟩ := ih (i + 1) (reads ++ [i]) v h
        refine ⟨i :: more, by rw [h1, List.append_assoc]; rfl, ?_⟩
        intro j hj
        rcases List.mem_cons.1 hj with hj | hj
        · rw [hj]; exact hi
        · exact h2 j hj

/-- The inputs on which `declare_version` reads `git_parts` out of range are those whose
parts are the three parts of the built-in version followed by at least one more; on every
other input all reads are at the indices 0, 1 and 2. -/
theorem declare_version_range (input_version : String) :
    (declare_version input_version = .undefined ↔
      ∃ extra, extra ≠ [] ∧
        split_version input_version = ["3.2.1", "22", "gbc174184"] ++ extra) ∧
    (∀ v, declare_version input_version = .returns v → ∀ j ∈ v.reads, j < 3) := by
  constructor
  · unfold declare_version
    rw [compareFrom_undefined_iff, split_version_GIT_DESC]
    rfl
  · intro v h
    unfold declare_version at h
    obtain ⟨more, h1, h2⟩ := compareFrom_reads_in_range _ _ 0 [] v h
    intro j hj
    rw [h1] at hj
    have := h2 j (by simpa using hj)
    rw [split_version_GIT_DESC] at this
    exact this

/-- Inputs on which `declare_version` is safe: the built-in version itself (no warning),
and a version with four parts that differs in the first one (warning after one read). -/
theorem declare_version_examples :
    declare_version "3.2.1-22-gbc174184" = .returns ⟨[0, 1, 2], false⟩ ∧
    declare_version "3.1.0-1-gabc-dirty" = .returns ⟨[0], true⟩ ∧
    declare_version "" = .returns ⟨[], false⟩ :=
  ⟨rfl, rfl, rfl⟩

/-! ## C21: the activity flag while a `Source` builds a candidate -/

theorem prepare_append (pre rest : List SourceFeature) (cand : Candidate) (rng : Rng) :
    Source.prepare (pre ++ rest) cand rng =
      match Source.prepare pre cand rng with
      | .ok (cand1, rng1) => Source.prepare rest cand1 rng1
      | .error e => .error e := by
  induction pre generalizing cand rng with
  | nil => rfl
  | cons ft pre ih =>
    rw [List.cons_append, Source.prepare, Source.prepare]
    cases hft : ft.prepareCandidate cand rng with
    | error e => rfl
    | ok r =>
      obtain ⟨cand1, rng1⟩ := r
      exact ih cand1 rng1

theorem prepare_keepsRejected (rest : List SourceFeature)
    (hrest : ∀ ft ∈ rest, KeepsRejected ft) :
    ∀ cand rng cand1 rng1, cand.active = false →
      Source.prepare rest cand rng = .ok (cand1, rng1) → cand1.active = false := by
  induction rest with
  | nil =>
    intro cand rng cand1 rng1 ha h
    simp only [Source.prepare, Except.ok.injEq, Prod.mk.injEq] at h
    rw [← h.1]
    exact ha
  | cons ft rest ih =>
    intro cand rng cand1 rng1 ha h
    rw [Source.prepare] at h
    cases hft : ft.prepareCandidate cand rng with
    | error e =>
      rw [hft] at h
      cases h
    | ok r =>
      obtain ⟨cand2, rng2⟩ := r
      rw [hft] at h
      exact ih (fun x hx => hrest x (List.mem_cons_of_mem _ hx)) cand2 rng2 cand1 rng1
        (hrest ft (List.mem_cons_self _ _) cand rng cand2 rng2 ha hft) h

/-- The `prepareCandidate` of the base class keeps a rejected candidate rejected. -/
theorem keepsRejected_ofParticle (prepareParticle : Nat → Nat) (description : String) :
    KeepsRejected (SourceFeature.ofParticle prepareParticle description) := by
  intro cand rng cand1 rng1 ha h
  simp only [SourceFeature.ofParticle, Except.ok.injEq, Prod.mk.injEq] at h
  rw [← h.1]
  exact ha

/-- A `SourceEmissionMap` without a map keeps a rejected candidate rejected. -/
theorem keepsRejected_noMap : KeepsRejected (SourceEmissionMap none) := by
  intro cand rng cand1 rng1 ha h
  simp only [SourceEmissionMap, Except.ok.injEq, Prod.mk.injEq] at h
  rw [← h.1]
  exact ha

/-- C21, as amended: `Source::getCandidate` applies the features in order, and once the
candidate is inactive it stays inactive through every later feature that leaves an inactive
candidate inactive.  So a candidate whose direction a `SourceEmissionMap` feature rejects
is returned inactive when only such features follow.  `SourceEmissionMap::prepareCandidate`
itself stores the verdict of its map whatever the flag was. -/
theorem getCandidate_keeps_rejected (pre rest : List SourceFeature)
    (hrest : ∀ ft ∈ rest, KeepsRejected ft) (rng : Rng) (cand0 : Candidate) (rng0 : Rng)
    (hpre : Source.prepare pre Candidate.fresh rng = .ok (cand0, rng0)) :
    (cand0.active = false → ∀ cand1 rng1,
      Source.getCandidate ⟨pre ++ rest⟩ rng = .ok (cand1, rng1) → cand1.active = false) ∧
    (∀ checkDirection : Nat → Bool, checkDirection cand0.current = false →
      Source.getCandidate ⟨pre ++ SourceEmissionMap (some checkDirection) :: rest⟩ rng =
        Source.prepare rest (.mk false cand0.current cand0.secondaries) rng0 ∧
      ∀ cand1 rng1,
        Source.getCandidate ⟨pre ++ SourceEmissionMap (some checkDirection) :: rest⟩ rng =
          .ok (cand1, rng1) → cand1.active = false) ∧
    (∀ (checkDirection : Nat → Bool) (cand : Candidate) (r : Rng),
      (SourceEmissionMap (some checkDirection)).prepareCandidate cand r =
        .ok (.mk (checkDirection cand.current) cand.current cand.secondaries, r)) := by
  refine ⟨?_, ?_, fun _ _ _ => rfl⟩
  · intro ha cand1 rng1 h
    unfold Source.getCandidate at h
    rw [prepare_append, hpre] at h
    exact prepare_keepsRejected rest hrest cand0 rng0 cand1 rng1 ha h
  · intro checkDirection hrej
    have heq : Source.getCandidate ⟨pre ++ SourceEmissionMap (some checkDirection) :: rest⟩ rng =
        Source.prepare rest (.mk false cand0.current cand0.secondaries) rng0 := by
      unfold Source.getCandidate
      rw [prepare_append, hpre]
      dsimp only
      rw [Source.prepare]
      simp only [SourceEmissionMap, hrej]
    refine ⟨heq, ?_⟩
    intro cand1 rng1 h
    rw [heq] at h
    exact prepare_keepsRejected rest hrest (.mk false cand0.current cand0.secondaries) rng0
      cand1 rng1 rfl h

/-- Witness for the amended C21: the direction 7 is rejected by a map that accepts the
directions below 5; a base-class feature and a `SourceEmissionMap` without a map follow. -/
theorem getCandidate_keeps_rejected_witness :
    ∃ cand1 rng1,
      Source.getCandidate ⟨[SourceFeature.ofParticle (fun _ => 7) "SourceDirection\n"] ++
        SourceEmissionMap (some (fun d => decide (d < 5))) ::
          [SourceFeature.ofParticle (fun d => d + 1) "SourceParticleType\n",
            SourceEmissionMap none]⟩ 0 = .ok (cand1, rng1) ∧
      cand1.active = false :=
  ⟨_, _, rfl,
    ((getCandidate_keeps_rejected [SourceFeature.ofParticle (fun _ => 7) "SourceDirection\n"]
      [SourceFeature.ofParticle (fun d => d + 1) "SourceParticleType\n", SourceEmissionMap none]
      (by
        intro ft hft
        simp only [List.mem_cons, List.mem_singleton, List.not_mem_nil, or_false] at hft
        rcases hft with rfl | rfl
        · exact keepsRejected_ofParticle _ _
        · exact keepsRejected_noMap)
      0 (.mk true 7 []) 0 rfl).2.1 (fun d => decide (d < 5)) (by decide)).2 _ _ rfl⟩

/-- C21 as stated fails: the first `SourceEmissionMap` rejects the direction and sets the
candidate inactive; a second one, whose map accepts the direction, sets it active again,
and `Source::getCandidate` returns an active candidate.  The same happens with one map
used twice when a feature in between changes the direction. -/
theorem getCandidate_later_map_reactivates :
    Source.prepare [SourceEmissionMap (some (fun _ => false))] Candidate.fresh 0 =
      .ok (.mk false 0 [], 0) ∧
    Source.getCandidate ⟨[SourceEmissionMap (some (fun _ => false)),
      SourceEmissionMap (some (fun _ => true))]⟩ 0 = .ok (.mk true 0 [], 0) ∧
    Source.getCandidate ⟨[SourceEmissionMap (some (fun d => decide (d = 1))),
      SourceFeature.ofParticle (fun _ => 1) "SourceDirection\n",
      SourceEmissionMap (some (fun d => decide (d = 1)))]⟩ 0 = .ok (.mk true 1 [], 0) :=
  ⟨rfl, rfl, rfl⟩

/-! ## C4: the outer steps of `run(candidate, true, true)` -/

theorem stepwise_storeAt (s s1 : State) (evs : List Step) (h : Stepwise s s1)
    (ht : s1.trace = s.trace ++ evs) : storeAt evs s1.store = s.store := by
  obtain ⟨evs1, t1, h1, h2⟩ := h
  have heq : evs1 = evs := List.append_cancel_left (t1.symm.trans ht)
  subst heq
  cases evs1 with
  | nil => exact (h1 rfl).1
  | cons x rest => exact (h2 x rfl).1

theorem runPrimary_stepwise (ml : ModuleList) (recursive secondariesFirst : Bool) (c : Ptr)
    (f inner n : Nat) (s : State) :
    Stepwise s (runPrimary ml (fun c1 s1 => run ml f c1 recursive secondariesFirst s1)
      recursive secondariesFirst c inner n s).state :=
  runPrimary_rel _ stepwise_refl stepwise_trans ml _ recursive secondariesFirst c inner
    (fun t _ _ => process_stepwise ml c t)
    (fun _ j t _ => run_stepwise ml f (c ++ [j]) recursive secondariesFirst t) n s

/-- The loop of `run(c, true, true)`: a sequence of outer steps. -/
theorem runPrimary_outerSteps (ml : ModuleList) (hq : Quiet ml) (ha : AppendOnly ml)
    (f inner : Nat) (c : Ptr) :
    ∀ (fuel : Nat) (s : State), s.g_cancel_signal_flag = 0 →
      ∃ evs,
        (runPrimary ml (fun c1 s1 => run ml f c1 true true s1) true true c inner fuel s).state.trace
          = s.trace ++ evs ∧
        OuterSteps ml.modules.length c
          (runPrimary ml (fun c1 s1 => run ml f c1 true true s1) true true c inner fuel s).isDone
          evs
          (runPrimary ml (fun c1 s1 => run ml f c1 true true s1) true true c inner fuel
            s).state.store := by
  intro fuel
  induction fuel with
  | zero => intro s _; exact ⟨[], by simp [runPrimary, Result.state], .nil _ _⟩
  | succ fuel ih =>
    intro s hflag
    have hsw := fun t => runPrimary_stepwise ml true true c f inner fuel t
    unfold runPrimary
    split
    · obtain ⟨calls, m, hp1, hp2, hp3, hp4⟩ := process_calls ml c s
      have hpf := process_flag ml hq c s
      generalize process ml c s = r at hp1 hp3 hpf
      cases r with
      | done s1 =>
        dsimp only
        have hm := hp3 rfl
        subst hm
        simp only [Result.state] at hp1 hpf
        rw [if_pos ⟨rfl, rfl⟩]
        obtain ⟨loop, k, hl1, hl2, hl3, hl4⟩ :=
          runSecondaries_childRuns ml hq ha true true c f inner 0 s1 (hpf.trans hflag)
            (Nat.zero_le _)
        obtain ⟨loop2, hb1, hb2⟩ := runSecondaries_extends_below ml true true c f inner 0 s1
        have hsame : loop2 = loop := List.append_cancel_left (hb1.symm.trans hl1)
        subst hsame
        have hlf := runSecondaries_flag ml hq true true c f inner 0 s1
        have hrange : childRuns c loop2 = (List.range k).map (fun i => c ++ [i]) := by
          rw [hl2, List.range_eq_range']
        generalize runSecondaries (fun c1 s1 => run ml f c1 true true s1) c inner 0 s1 = r2
          at hl1 hl3 hl4 hlf
        cases r2 with
        | done s2 =>
          dsimp only
          simp only [Result.state] at hl1 hl3 hlf
          obtain ⟨rest, hr1, hr2⟩ := ih s2 (hlf.trans (hpf.trans hflag))
          have hst := stepwise_storeAt _ _ rest (hsw s2) hr1
          refine ⟨calls ++ (loop2 ++ rest), ?_, ?_⟩
          · rw [hr1, hl1, hp1]; simp
          · refine .step _ calls loop2 rest k _ hp4 hb2 hrange ?_ hr2
            rw [hst]
            have := hl4 s2 rfl
            omega
        | threw e s2 =>
          dsimp only
          simp only [Result.state] at hl1 hl3
          refine ⟨calls ++ loop2, ?_, ?_⟩
          · simp only [Result.state]; rw [hl1, hp1]; simp
          · exact .cut calls loop2 _ k _ (Nat.le_refl _) hp4 hb2 hrange (by simpa using hl3)
        | fuel s2 =>
          dsimp only
          simp only [Result.state] at hl1 hl3
          refine ⟨calls ++ loop2, ?_, ?_⟩
          · simp only [Result.state]; rw [hl1, hp1]; simp
          · exact .cut calls loop2 _ k _ (Nat.le_refl _) hp4 hb2 hrange (by simpa using hl3)
      | threw e s1 =>
        dsimp only
        simp only [Result.state] at hp1
        refine ⟨calls ++ [], by simpa [Result.state] using hp1, ?_⟩
        exact .cut calls [] m 0 _ hp2 hp4 (fun x hx => by cases hx) rfl (Nat.zero_le _)
      | fuel s1 =>
        dsimp only
        simp only [Result.state] at hp1
        refine ⟨calls ++ [], by simpa [Result.state] using hp1, ?_⟩
        exact .cut calls [] m 0 _ hp2 hp4 (fun x hx => by cases hx) rfl (Nat.zero_le _)
    · exact ⟨[], by simp [Result.state], .nil _ _⟩

/-- C4: `run(candidate, true, true)` entered with the token 0, while no signal arrives and
the vectors of secondaries are append-only.  Whatever the fuel and however the call ends,
what it adds to the trace is its entry, a sequence of outer steps, and its exit if it
returns.  In every outer step the loop over the secondaries comes after the complete pass of
`process(candidate)`; it calls `run` on `secondaries[0]`, `secondaries[1]`, ...,
`secondaries[k-1]`, in increasing order and each once, and `k` is the length of
`candidate->secondaries` when the step ends: the bound is re-read before each iteration, so
a secondary appended while an earlier one is being run is run in the same outer step.  (In
a step cut short by an exception or by the end of the fuel, `k` is at most that length.) -/
theorem run_outer_steps_reread_bound (ml : ModuleList) (hq : Quiet ml) (ha : AppendOnly ml)
    (f : Nat) (c : Ptr) (s : State) (hflag : s.g_cancel_signal_flag = 0) :
    ∃ evs,
      (run ml (f + 1) c true true s).state.trace =
        s.trace ++ ⟨.enter c, s.store, s.g_cancel_signal_flag⟩ ::
          (evs ++ if (run ml (f + 1) c true true s).isDone = true then
            [⟨.leave c, (run ml (f + 1) c true true s).state.store,
              (run ml (f + 1) c true true s).state.g_cancel_signal_flag⟩] else []) ∧
      OuterSteps ml.modules.length c (run ml (f + 1) c true true s).isDone evs
        (run ml (f + 1) c true true s).state.store := by
  obtain ⟨evs, h1, h2⟩ := runPrimary_outerSteps ml hq ha f (f + 1) c (f + 1)
    (s.log (.enter c)) hflag
  rw [run]
  generalize runPrimary ml (fun c1 s1 => run ml f c1 true true s1) true true c (f + 1) (f + 1)
    (s.log (.enter c)) = r1 at h1 h2
  cases r1 with
  | done s1 =>
    dsimp only
    simp only [Result.state, log_trace] at h1
    simp only [Result.state, Result.isDone] at h2
    rw [if_neg (by simp)]
    refine ⟨evs, ?_, ?_⟩
    · simp [Result.state, Result.isDone, h1]
    · simpa [Result.state, Result.isDone] using h2
  | threw e s1 =>
    dsimp only
    simp only [Result.state, log_trace] at h1
    exact ⟨evs, by simp [Result.state, Result.isDone, h1], h2⟩
  | fuel s1 =>
    dsimp only
    simp only [Result.state, log_trace] at h1
    exact ⟨evs, by simp [Result.state, Result.isDone, h1], h2⟩

/-- Witness for C4: the candidate `[0]` has one secondary when `run` is entered.  In the
single outer step, after the pass over `[0]`, that secondary is run and appends a second
one to `[0]`; the same loop runs the second one too, and then `run` returns. -/
theorem run_outer_steps_reread_bound_witness :
    numSecondaries (State.init [.mk true 0 [.mk true 1 []]]).store [0] = 1 ∧
    (run ⟨[handOver], false⟩ (2 + 1) [0] true true
        (State.init [.mk true 0 [.mk true 1 []]])).state.trace.map Step.ev =
      [.enter [0], .call 0 [0], .enter [0, 0], .call 0 [0, 0], .leave [0, 0],
        .enter [0, 1], .call 0 [0, 1], .leave [0, 1], .leave [0]] ∧
    numSecondaries (run ⟨[handOver], false⟩ (2 + 1) [0] true true
        (State.init [.mk true 0 [.mk true 1 []]])).state.store [0] = 2 ∧
    ∃ evs,
      (run ⟨[handOver], false⟩ (2 + 1) [0] true true
          (State.init [.mk true 0 [.mk true 1 []]])).state.trace =
        (State.init [.mk true 0 [.mk true 1 []]]).trace ++
          ⟨.enter [0], (State.init [.mk true 0 [.mk true 1 []]]).store,
            (State.init [.mk true 0 [.mk true 1 []]]).g_cancel_signal_flag⟩ ::
          (evs ++ if (run ⟨[handOver], false⟩ (2 + 1) [0] true true
              (State.init [.mk true 0 [.mk true 1 []]])).isDone = true then
            [⟨.leave [0], (run ⟨[handOver], false⟩ (2 + 1) [0] true true
                (State.init [.mk true 0 [.mk true 1 []]])).state.store,
              (run ⟨[handOver], false⟩ (2 + 1) [0] true true
                (State.init [.mk true 0 [.mk true 1 []]])).state.g_cancel_signal_flag⟩]
            else []) ∧
      OuterSteps (ModuleList.mk [handOver] false).modules.length [0]
        (run ⟨[handOver], false⟩ (2 + 1) [0] true true
          (State.init [.mk true 0 [.mk true 1 []]])).isDone evs
        (run ⟨[handOver], false⟩ (2 + 1) [0] true true
          (State.init [.mk true 0 [.mk true 1 []]])).state.store :=
  ⟨by decide, by decide, by decide,
    run_outer_steps_reread_bound ⟨[handOver], false⟩ (quiet_handOver false)
      (appendOnly_handOver false) 2 [0] (State.init [.mk true 0 [.mk true 1 []]]) rfl⟩

end crpropa
